import Mathlib

/-!
# LabMap: the binary search tree of `bst.h`

A shallow embedding of `custom::BST<T>` (file `src/bst.h`).  The C++ tree is a
graph of heap nodes linked by raw pointers (`pLeft`, `pRight`, `pParent`), so
the embedding keeps an explicit heap: an arena of cells addressed by natural
numbers, a pointer being `Option Nat` (`none` is `nullptr`).  Every member
function becomes a function from the heap (and the `BST` object) to a new heap
and a result, inside `Except Fault`: following a null or a released pointer is
undefined behaviour in C++ and is reported as a fault here.  The `while` loops
carry a fuel argument.

The node field `isRed` is never initialised, read or written by any function
of `bst.h`; it is left out of `BNode`.
-/

namespace LabMap

/-! ## Heap and nodes -/

/-- Ways in which a run of the embedded code can fail: it follows a null
pointer, it follows a pointer to a cell that is not live, a loop is given
too little fuel, or an `assert` does not hold (the program aborts). -/
inductive Fault where
  | nullDeref
  | dangling
  | outOfFuel
  | assertFailed
deriving DecidableEq

/-- The class `BST<T>::BNode`: the element and the three links. -/
structure BNode (T : Type) where
  data : T
  pLeft : Option Nat
  pRight : Option Nat
  pParent : Option Nat
deriving DecidableEq

/-- The heap: cell `a` is `some n` when a live node is stored at address `a`,
`none` when the address was released by `delete`. Addresses beyond the length
have never been allocated. -/
abbrev Heap (T : Type) := List (Option (BNode T))

/-- The node stored at an address, if the address is live. -/
def Heap.cell {T : Type} (h : Heap T) (a : Nat) : Option (BNode T) :=
  match h[a]? with
  | some c => c
  | none => none

/-- Reading through a pointer (`p->...`). -/
def Heap.deref {T : Type} (h : Heap T) (p : Option Nat) : Except Fault (BNode T) :=
  match p with
  | none => .error .nullDeref
  | some a =>
    match h.cell a with
    | none => .error .dangling
    | some n => .ok n

/-- Assigning to fields through a pointer (`p->field = ...`). -/
def Heap.modify {T : Type} (h : Heap T) (p : Option Nat) (f : BNode T → BNode T) :
    Except Fault (Heap T) :=
  match p with
  | none => .error .nullDeref
  | some a =>
    match h.cell a with
    | none => .error .dangling
    | some n => .ok (h.set a (some (f n)))

/-- The guarded assignment `if (p) p->field = ...;`. -/
def Heap.modifyIf {T : Type} (h : Heap T) (p : Option Nat) (f : BNode T → BNode T) :
    Except Fault (Heap T) :=
  match p with
  | none => .ok h
  | some a => h.modify (some a) f

/-- The expression `new BNode(t)`: a fresh cell with null links; its address is
the first one never used. -/
def Heap.alloc {T : Type} (h : Heap T) (t : T) : Heap T × Nat :=
  (h ++ [some (BNode.mk t none none none)], h.length)

/-- The statement `delete p`. -/
def Heap.free {T : Type} (h : Heap T) (p : Option Nat) : Except Fault (Heap T) :=
  match p with
  | none => .ok h
  | some a =>
    match h.cell a with
    | none => .error .dangling
    | some _ => .ok (h.set a none)

/-- The data members of `BST<T>`: `root` and `numElements`. -/
structure BST where
  root : Option Nat
  numElements : Nat
deriving DecidableEq

/-- The modulus of `size_t` arithmetic. -/
def sizeMod : Nat := 2 ^ 64

/-- `BST::size`. -/
def BST.size (b : BST) : Nat := b.numElements

/-- `BST::empty`. -/
def BST.empty (b : BST) : Bool := decide (b.size = 0)

/-- `BST::end`: the iterator over no node. -/
def BST.end : Option Nat := none

/-! ## Node helpers -/

/-- `BNode::addLeft(BNode* pNode)`, called on the node at address `this`. -/
def BNode.addLeft {T : Type} (h : Heap T) (this : Nat) (pNode : Option Nat) :
    Except Fault (Heap T) := do
  let h1 ← h.modify (some this) (fun n => { n with pLeft := pNode })
  h1.modifyIf pNode (fun n => { n with pParent := some this })

/-- `BNode::addRight(BNode* pNode)`, called on the node at address `this`. -/
def BNode.addRight {T : Type} (h : Heap T) (this : Nat) (pNode : Option Nat) :
    Except Fault (Heap T) := do
  let h1 ← h.modify (some this) (fun n => { n with pRight := pNode })
  h1.modifyIf pNode (fun n => { n with pParent := some this })

/-- `BNode::addLeft(const T& t)`: allocates a node and calls `addLeft(pNode)`. -/
def BNode.addLeftConst {T : Type} (h : Heap T) (this : Nat) (t : T) : Except Fault (Heap T) :=
  let r := h.alloc t
  BNode.addLeft r.1 this (some r.2)

/-- `BNode::addLeft(T&& t)`: allocates a node and calls `addRight(pNode)`. -/
def BNode.addLeftMove {T : Type} (h : Heap T) (this : Nat) (t : T) : Except Fault (Heap T) :=
  let r := h.alloc t
  BNode.addRight r.1 this (some r.2)

/-- `BNode::addRight(const T& t)`: allocates a node and calls `addLeft(pNode)`. -/
def BNode.addRightConst {T : Type} (h : Heap T) (this : Nat) (t : T) : Except Fault (Heap T) :=
  let r := h.alloc t
  BNode.addLeft r.1 this (some r.2)

/-- `BNode::addRight(T&& t)`: allocates a node and calls `addRight(pNode)`. -/
def BNode.addRightMove {T : Type} (h : Heap T) (this : Nat) (t : T) : Except Fault (Heap T) :=
  let r := h.alloc t
  BNode.addRight r.1 this (some r.2)

/-! ## Insert -/

/-- How the descent loop of `insert` is left: by the `return pairReturn` inside
the loop (`ret`), or by `done = true` after a node was attached (`fin`). -/
inductive Descent (T : Type) where
  | ret (it : Option Nat) (inserted : Bool)
  | fin (h : Heap T) (it : Option Nat) (inserted : Bool)

/-- The loop `while (!done)` of `BST::insert(const T&, bool)`, started with
`node` at the given address. The argument `t` is a `const T&`, so both
`node->addLeft(t)` and `node->addRight(t)` select the `const T&` overloads. -/
def insertLoop {T : Type} [DecidableEq T] [LT T] [DecidableRel (fun (a b : T) => a < b)] :
    Nat → Heap T → T → Bool → Nat → Except Fault (Descent T)
  | 0, _, _, _, _ => .error .outOfFuel
  | fuel + 1, h, t, keepUnique, node => do
    let n ← h.deref (some node)
    if keepUnique && decide (t = n.data) then
      pure (.ret (some node) false)
    else if t < n.data then
      match n.pLeft with
      | some l => insertLoop fuel h t keepUnique l
      | none => do
        let h1 ← BNode.addLeftConst h node t
        let n1 ← h1.deref (some node)
        pure (.fin h1 n1.pLeft true)
    else
      match n.pRight with
      | some r => insertLoop fuel h t keepUnique r
      | none => do
        let h1 ← BNode.addRightConst h node t
        let n1 ← h1.deref (some node)
        pure (.fin h1 n1.pRight true)

/-- The loop `while (root->pParent != nullptr) root = root->pParent;`. -/
def rootUp {T : Type} : Nat → Heap T → Option Nat → Except Fault (Option Nat)
  | 0, _, _ => .error .outOfFuel
  | fuel + 1, h, root => do
    let n ← h.deref root
    match n.pParent with
    | none => pure root
    | some p => rootUp fuel h (some p)

/-- `BST::insert(const T& t, bool keepUnique)`: the new heap, the new tree
object, and the returned pair (iterator, inserted). The empty-root branch starts
with `assert(numElements == 0)`. The `assert(root != nullptr)` after the loop
is reached only in the branch where `root` is not null, and the loop does not
assign `root`. -/
def insert {T : Type} [DecidableEq T] [LT T] [DecidableRel (fun (a b : T) => a < b)]
    (fuel : Nat) (h : Heap T) (b : BST) (t : T) (keepUnique : Bool) :
    Except Fault (Heap T × BST × Option Nat × Bool) :=
  match b.root with
  | none =>
    if b.numElements = 0 then
      let r := h.alloc t
      pure (r.1, BST.mk (some r.2) 1, some r.2, true)
    else
      .error .assertFailed
  | some rt => do
    match ← insertLoop fuel h t keepUnique rt with
    | .ret it ins => pure (h, b, it, ins)
    | .fin h1 it ins => do
      let root ← rootUp fuel h1 b.root
      pure (h1, BST.mk root ((b.numElements + 1) % sizeMod), it, ins)

/-- The loop `while (!done)` of `BST::insert(T&&, bool)`. Inside the function
the parameter `t` is a named variable, an lvalue, so `node->addLeft(t)` and
`node->addRight(t)` select the `const T&` overloads here too. -/
def insertLoopMove {T : Type} [DecidableEq T] [LT T] [DecidableRel (fun (a b : T) => a < b)] :
    Nat → Heap T → T → Bool → Nat → Except Fault (Descent T)
  | 0, _, _, _, _ => .error .outOfFuel
  | fuel + 1, h, t, keepUnique, node => do
    let n ← h.deref (some node)
    if keepUnique && decide (t = n.data) then
      pure (.ret (some node) false)
    else if t < n.data then
      match n.pLeft with
      | some l => insertLoopMove fuel h t keepUnique l
      | none => do
        let h1 ← BNode.addLeftConst h node t
        let n1 ← h1.deref (some node)
        pure (.fin h1 n1.pLeft true)
    else
      match n.pRight with
      | some r => insertLoopMove fuel h t keepUnique r
      | none => do
        let h1 ← BNode.addRightConst h node t
        let n1 ← h1.deref (some node)
        pure (.fin h1 n1.pRight true)

/-- `BST::insert(T&& t, bool keepUnique)`: the new heap, the new tree object,
and the returned pair (iterator, inserted). The root node is made by
`new BNode(t)` with `t` an lvalue, the copying constructor. The two `assert`s
are those of the other overload. -/
def insertMove {T : Type} [DecidableEq T] [LT T] [DecidableRel (fun (a b : T) => a < b)]
    (fuel : Nat) (h : Heap T) (b : BST) (t : T) (keepUnique : Bool) :
    Except Fault (Heap T × BST × Option Nat × Bool) :=
  match b.root with
  | none =>
    if b.numElements = 0 then
      let r := h.alloc t
      pure (r.1, BST.mk (some r.2) 1, some r.2, true)
    else
      .error .assertFailed
  | some rt => do
    match ← insertLoopMove fuel h t keepUnique rt with
    | .ret it ins => pure (h, b, it, ins)
    | .fin h1 it ins => do
      let root ← rootUp fuel h1 b.root
      pure (h1, BST.mk root ((b.numElements + 1) % sizeMod), it, ins)

/-! ## Find and begin -/

/-- The loop of `BST::find`:
`for (p = root; p != nullptr; p = (t < p->data ? p->pLeft : p->pRight))`. -/
def findLoop {T : Type} [DecidableEq T] [LT T] [DecidableRel (fun (a b : T) => a < b)] :
    Nat → Heap T → Option Nat → T → Except Fault (Option Nat)
  | 0, _, _, _ => .error .outOfFuel
  | _ + 1, _, none, _ => pure none
  | fuel + 1, h, some p, t => do
    let n ← h.deref (some p)
    if n.data = t then
      pure (some p)
    else
      findLoop fuel h (if t < n.data then n.pLeft else n.pRight) t

/-- `BST::find(const T& t)`; the result is the node of the returned iterator. -/
def find {T : Type} [DecidableEq T] [LT T] [DecidableRel (fun (a b : T) => a < b)]
    (fuel : Nat) (h : Heap T) (b : BST) (t : T) : Except Fault (Option Nat) :=
  findLoop fuel h b.root t

/-- The loop `while (p->pLeft) p = p->pLeft;`, started at address `p`. -/
def leftmost {T : Type} : Nat → Heap T → Nat → Except Fault Nat
  | 0, _, _ => .error .outOfFuel
  | fuel + 1, h, p => do
    let n ← h.deref (some p)
    match n.pLeft with
    | some l => leftmost fuel h l
    | none => pure p

/-- `BST::begin`. -/
def begin {T : Type} (fuel : Nat) (h : Heap T) (b : BST) : Except Fault (Option Nat) :=
  match b.root with
  | none => pure BST.end
  | some p => do
    let q ← leftmost fuel h p
    pure (some q)

/-! ## Iterator -/

/-- The loop
`while (pCurrent->pParent && pCurrent->pParent->pRight == pCurrent) pCurrent = pCurrent->pParent;`
of `operator++`. -/
def climbRight {T : Type} : Nat → Heap T → Nat → Except Fault Nat
  | 0, _, _ => .error .outOfFuel
  | fuel + 1, h, cur => do
    let n ← h.deref (some cur)
    match n.pParent with
    | none => pure cur
    | some q => do
      let par ← h.deref (some q)
      if par.pRight = some cur then climbRight fuel h q else pure cur

/-- `BST::iterator::operator++` (prefix), on the iterator's `pNode`. -/
def increment {T : Type} (fuel : Nat) (h : Heap T) (pNode : Option Nat) :
    Except Fault (Option Nat) :=
  match pNode with
  | none => pure none
  | some cur => do
    let n ← h.deref (some cur)
    match n.pRight with
    | some r => do
      let q ← leftmost fuel h r
      pure (some q)
    | none => do
      let par ← h.deref n.pParent
      if par.pLeft = some cur then
        pure n.pParent
      else if par.pRight = some cur then do
        let top ← climbRight fuel h cur
        let tn ← h.deref (some top)
        pure tn.pParent
      else
        pure none

/-! ## Erase -/

/-- `BST::deleteNode(BNode*& pDelete, bool toRight)`: the new heap and the new
value of `root`. -/
def deleteNode {T : Type} (h : Heap T) (root : Option Nat) (pDelete : Nat) (toRight : Bool) :
    Except Fault (Heap T × Option Nat) := do
  let d ← h.deref (some pDelete)
  let pNext := if toRight then d.pRight else d.pLeft
  if some pDelete ≠ root then do
    let par ← h.deref d.pParent
    if par.pLeft = some pDelete then do
      let h1 ← h.modify d.pParent (fun n => { n with pLeft := none })
      match d.pParent with
      | none => .error .nullDeref
      | some q => do
        let h2 ← BNode.addLeft h1 q pNext
        pure (h2, root)
    else do
      let h1 ← h.modify d.pParent (fun n => { n with pRight := none })
      match d.pParent with
      | none => .error .nullDeref
      | some q => do
        let h2 ← BNode.addRight h1 q pNext
        pure (h2, root)
  else do
    let h1 ← h.modify pNext (fun n => { n with pParent := none })
    pure (h1, pNext)

/-- The statements `pIOS->pLeft = pDelete->pLeft;` and
`if (pDelete->pLeft) pDelete->pLeft->pParent = pIOS;` of `BST::erase`. -/
def spliceLeft {T : Type} (h : Heap T) (pDelete pIOS : Nat) : Except Fault (Heap T) := do
  let d ← h.deref (some pDelete)
  let h1 ← h.modify (some pIOS) (fun n => { n with pLeft := d.pLeft })
  let d1 ← h1.deref (some pDelete)
  h1.modifyIf d1.pLeft (fun n => { n with pParent := some pIOS })

/-- The block `if (pDelete->pRight != pIOS) { ... }` of `BST::erase`: the
successor is detached from its parent and takes over the right subtree. -/
def spliceDetach {T : Type} (h : Heap T) (pDelete pIOS : Nat) : Except Fault (Heap T) := do
  let d ← h.deref (some pDelete)
  if d.pRight ≠ some pIOS then do
    -- if (pIOS->pRight) pIOS->pRight->pParent = pIOS->pParent;
    let s ← h.deref (some pIOS)
    let h1 ← h.modifyIf s.pRight (fun n => { n with pParent := s.pParent })
    -- pIOS->pParent->pLeft = pIOS->pRight;
    let s1 ← h1.deref (some pIOS)
    let h2 ← h1.modify s1.pParent (fun n => { n with pLeft := s1.pRight })
    -- pIOS->pRight = pDelete->pRight;
    let d2 ← h2.deref (some pDelete)
    let h3 ← h2.modify (some pIOS) (fun n => { n with pRight := d2.pRight })
    -- pDelete->pRight->pParent = pIOS;
    let d3 ← h3.deref (some pDelete)
    h3.modify d3.pRight (fun n => { n with pParent := some pIOS })
  else
    pure h

/-- The statement `if (pDelete->pParent && pDelete->pParent->pLeft == pDelete)
pDelete->pParent->pLeft = pIOS;` of `BST::erase`. -/
def relinkLeft {T : Type} (h : Heap T) (pDelete pIOS : Nat) : Except Fault (Heap T) := do
  let d ← h.deref (some pDelete)
  match d.pParent with
  | none => pure h
  | some q => do
    let par ← h.deref (some q)
    if par.pLeft = some pDelete then
      h.modify (some q) (fun n => { n with pLeft := some pIOS })
    else pure h

/-- The statement `if (pDelete->pParent && pDelete->pParent->pRight == pDelete)
pDelete->pParent->pRight = pIOS;` of `BST::erase`. -/
def relinkRight {T : Type} (h : Heap T) (pDelete pIOS : Nat) : Except Fault (Heap T) := do
  let d ← h.deref (some pDelete)
  match d.pParent with
  | none => pure h
  | some q => do
    let par ← h.deref (some q)
    if par.pRight = some pDelete then
      h.modify (some q) (fun n => { n with pRight := some pIOS })
    else pure h

/-- The statements from `pIOS->pParent = pDelete->pParent;` to the two tests
that redirect the child link of `pDelete->pParent` in `BST::erase`. -/
def spliceParent {T : Type} (h : Heap T) (pDelete pIOS : Nat) : Except Fault (Heap T) := do
  let d ← h.deref (some pDelete)
  let h1 ← h.modify (some pIOS) (fun n => { n with pParent := d.pParent })
  let h2 ← relinkLeft h1 pDelete pIOS
  relinkRight h2 pDelete pIOS

/-- The two-children branch of `BST::erase`, from `BNode* pIOS = pDelete->pRight`
to `itNext = iterator(pIOS)`: the new heap, the new `root` and `pIOS`. -/
def eraseSplice {T : Type} (fuel : Nat) (h : Heap T) (root : Option Nat) (pDelete : Nat) :
    Except Fault (Heap T × Option Nat × Nat) := do
  let d ← h.deref (some pDelete)
  -- BNode* pIOS = pDelete->pRight; while (pIOS->pLeft != nullptr) pIOS = pIOS->pLeft;
  let pIOS ← match d.pRight with
    | none => .error .nullDeref
    | some ra => leftmost fuel h ra
  let h1 ← spliceLeft h pDelete pIOS
  let h2 ← spliceDetach h1 pDelete pIOS
  let h3 ← spliceParent h2 pDelete pIOS
  -- if (root == pDelete) root = pIOS;
  pure (h3, if root = some pDelete then some pIOS else root, pIOS)

/-- `BST::erase(iterator& it)`, on the iterator's `pNode`: the new heap, the
new tree object and the node of the returned iterator. -/
def erase {T : Type} (fuel : Nat) (h : Heap T) (b : BST) (it : Option Nat) :
    Except Fault (Heap T × BST × Option Nat) :=
  match it with
  | none => pure (h, b, BST.end)
  | some pDelete => do
    let d ← h.deref (some pDelete)
    let r ←
      if d.pLeft = none then do
        let itNext ← increment fuel h (some pDelete)
        let hr ← deleteNode h b.root pDelete true
        pure (hr.1, hr.2, itNext)
      else if d.pRight = none then do
        let itNext ← increment fuel h (some pDelete)
        let hr ← deleteNode h b.root pDelete false
        pure (hr.1, hr.2, itNext)
      else do
        let hr ← eraseSplice fuel h b.root pDelete
        pure (hr.1, hr.2.1, some hr.2.2)
    let h1 ← r.1.free (some pDelete)
    pure (h1, BST.mk r.2.1 ((b.numElements + sizeMod - 1) % sizeMod), r.2.2)

/-! ## Decrement -/

/-- The loop `while (pCurrent->pRight) pCurrent = pCurrent->pRight;`, started at
address `p`. -/
def rightmost {T : Type} : Nat → Heap T → Nat → Except Fault Nat
  | 0, _, _ => .error .outOfFuel
  | fuel + 1, h, p => do
    let n ← h.deref (some p)
    match n.pRight with
    | some r => rightmost fuel h r
    | none => pure p

/-- The loop
`while (pCurrent->pParent && pCurrent->pParent->pLeft == pCurrent) pCurrent = pCurrent->pParent;`
of `operator--`. -/
def climbLeft {T : Type} : Nat → Heap T → Nat → Except Fault Nat
  | 0, _, _ => .error .outOfFuel
  | fuel + 1, h, cur => do
    let n ← h.deref (some cur)
    match n.pParent with
    | none => pure cur
    | some q => do
      let par ← h.deref (some q)
      if par.pLeft = some cur then climbLeft fuel h q else pure cur

/-- `BST::iterator::operator--` (prefix), on the iterator's `pNode`. -/
def decrement {T : Type} (fuel : Nat) (h : Heap T) (pNode : Option Nat) :
    Except Fault (Option Nat) :=
  match pNode with
  | none => pure none
  | some cur => do
    let n ← h.deref (some cur)
    match n.pLeft with
    | some l => do
      let q ← rightmost fuel h l
      pure (some q)
    | none => do
      let par ← h.deref n.pParent
      if par.pRight = some cur then
        pure n.pParent
      else if par.pLeft = some cur then do
        let top ← climbLeft fuel h cur
        let tn ← h.deref (some top)
        pure tn.pParent
      else
        pure (some cur)

/-! ## Clear, swap and move

The functions `deleteBinaryTree` and `copyBinaryTree` take a `BNode*&`: a
reference to the place that holds the pointer, which is either the `root`
member of the tree or a child link of a node. -/

/-- A place holding a node pointer that is passed by reference. -/
inductive Loc where
  | root
  | left (a : Nat)
  | right (a : Nat)
deriving DecidableEq

/-- Reading the pointer held by a place, `root` being the `root` member. -/
def Loc.read {T : Type} (h : Heap T) (root : Option Nat) : Loc → Except Fault (Option Nat)
  | .root => pure root
  | .left a => do
    let n ← h.deref (some a)
    pure n.pLeft
  | .right a => do
    let n ← h.deref (some a)
    pure n.pRight

/-- Assigning a pointer to a place: the new heap and the new `root` member. -/
def Loc.write {T : Type} (h : Heap T) (root : Option Nat) (v : Option Nat) :
    Loc → Except Fault (Heap T × Option Nat)
  | .root => pure (h, v)
  | .left a => do
    let h1 ← h.modify (some a) (fun n => { n with pLeft := v })
    pure (h1, root)
  | .right a => do
    let h1 ← h.modify (some a) (fun n => { n with pRight := v })
    pure (h1, root)

/-- The address of the node whose child link a place is, if any. -/
def Loc.addr : Loc → Option Nat
  | .root => none
  | .left a => some a
  | .right a => some a

/-- What assigning `v` to a place does to the node `n` stored at address `a`. -/
def Loc.set {T : Type} (loc : Loc) (v : Option Nat) (a : Nat) (n : BNode T) : BNode T :=
  match loc with
  | .root => n
  | .left b => if a = b then { n with pLeft := v } else n
  | .right b => if a = b then { n with pRight := v } else n

/-- What assigning `v` to a place does to the `root` member. -/
def Loc.newRoot (loc : Loc) (root v : Option Nat) : Option Nat :=
  match loc with
  | .root => v
  | _ => root

/-- The place `p->pLeft`, for the pointer `p` held by a place. -/
def Loc.leftOf {T : Type} (h : Heap T) (root : Option Nat) (loc : Loc) : Except Fault Loc := do
  let p ← loc.read h root
  match p with
  | none => .error .nullDeref
  | some a => pure (.left a)

/-- The place `p->pRight`, for the pointer `p` held by a place. -/
def Loc.rightOf {T : Type} (h : Heap T) (root : Option Nat) (loc : Loc) : Except Fault Loc := do
  let p ← loc.read h root
  match p with
  | none => .error .nullDeref
  | some a => pure (.right a)

/-- `BST::deleteBinaryTree(BNode*& pDelete)`, the reference being the place
`loc`: the new heap and the new `root` member. -/
def deleteBinaryTree {T : Type} :
    Nat → Heap T → Option Nat → Loc → Except Fault (Heap T × Option Nat)
  | 0, _, _, _ => .error .outOfFuel
  | fuel + 1, h, root, loc => do
    let p ← loc.read h root
    match p with
    | none => pure (h, root)
    | some _ => do
      -- deleteBinaryTree(pDelete->pLeft);
      let l ← loc.leftOf h root
      let s1 ← deleteBinaryTree fuel h root l
      -- deleteBinaryTree(pDelete->pRight);
      let r ← loc.rightOf s1.1 s1.2
      let s2 ← deleteBinaryTree fuel s1.1 s1.2 r
      -- delete pDelete; pDelete = nullptr;
      let p2 ← loc.read s2.1 s2.2
      let h3 ← s2.1.free p2
      loc.write h3 s2.2 none

/-- `BST::clear`. -/
def clear {T : Type} (fuel : Nat) (h : Heap T) (b : BST) : Except Fault (Heap T × BST) :=
  match b.root with
  | none => pure (h, b)
  | some _ => do
    let s ← deleteBinaryTree fuel h b.root .root
    pure (s.1, BST.mk s.2 0)

/-- `BST::swap(BST& rhs)`: the new `*this` and the new `rhs`. -/
def swap (this rhs : BST) : BST × BST :=
  (BST.mk rhs.root rhs.numElements, BST.mk this.root this.numElements)

/-- `BST::operator=(BST&& rhs)`: `clear(); swap(rhs);`. The new heap, the new
`*this` and the new `rhs`. -/
def moveAssign {T : Type} (fuel : Nat) (h : Heap T) (this rhs : BST) :
    Except Fault (Heap T × BST × BST) := do
  let s ← clear fuel h this
  pure (s.1, swap s.2 rhs)

/-- `BST::BST(BST&& rhs)`: the constructed tree and the new `rhs`. -/
def moveConstruct (rhs : BST) : BST × BST :=
  (BST.mk rhs.root rhs.numElements, BST.mk none 0)

/-! ## Copy -/

/-- The statement `if (nullptr == pDest) pDest = new BNode(pSrc->data); else
pDest->data = pSrc->data;` of `copyBinaryTree`. -/
def copyNode {T : Type} (h : Heap T) (root : Option Nat) (pSrc : Nat) (loc : Loc) :
    Except Fault (Heap T × Option Nat) := do
  let pd ← loc.read h root
  let sn ← h.deref (some pSrc)
  match pd with
  | none =>
    let r := h.alloc sn.data
    loc.write r.1 root (some r.2)
  | some d => do
    let h1 ← h.modify (some d) (fun n => { n with data := sn.data })
    pure (h1, root)

/-- The statement `if (pSrc->pLeft) pDest->pLeft->pParent = pDest;` of
`copyBinaryTree`. -/
def copyParentLeft {T : Type} (h : Heap T) (root : Option Nat) (pSrc : Nat) (loc : Loc) :
    Except Fault (Heap T) := do
  let sn ← h.deref (some pSrc)
  match sn.pLeft with
  | none => pure h
  | some _ => do
    let pd ← loc.read h root
    let dn ← h.deref pd
    h.modify dn.pLeft (fun n => { n with pParent := pd })

/-- The statement `if (pSrc->pRight) pDest->pRight->pParent = pDest;` of
`copyBinaryTree`. -/
def copyParentRight {T : Type} (h : Heap T) (root : Option Nat) (pSrc : Nat) (loc : Loc) :
    Except Fault (Heap T) := do
  let sn ← h.deref (some pSrc)
  match sn.pRight with
  | none => pure h
  | some _ => do
    let pd ← loc.read h root
    let dn ← h.deref pd
    h.modify dn.pRight (fun n => { n with pParent := pd })

/-- `BST::copyBinaryTree(const BNode* pSrc, BNode*& pDest)`, the reference
`pDest` being the place `loc`: the new heap and the new `root` member. The
`assert(pSrc)` stands after the return for a null `pSrc`, and
`assert(pDest != nullptr)` after `pDest` was tested or assigned a new node:
both hold whenever they are reached. -/
def copyBinaryTree {T : Type} :
    Nat → Heap T → Option Nat → Option Nat → Loc → Except Fault (Heap T × Option Nat)
  | 0, _, _, _, _ => .error .outOfFuel
  | fuel + 1, h, root, pSrc, loc =>
    match pSrc with
    | none => deleteBinaryTree (fuel + 1) h root loc
    | some sa => do
      let s1 ← copyNode h root sa loc
      -- copyBinaryTree(pSrc->pLeft, pDest->pLeft);
      let sn1 ← s1.1.deref (some sa)
      let l ← loc.leftOf s1.1 s1.2
      let s2 ← copyBinaryTree fuel s1.1 s1.2 sn1.pLeft l
      let h3 ← copyParentLeft s2.1 s2.2 sa loc
      -- copyBinaryTree(pSrc->pRight, pDest->pRight);
      let sn3 ← h3.deref (some sa)
      let r ← loc.rightOf h3 s2.2
      let s4 ← copyBinaryTree fuel h3 s2.2 sn3.pRight r
      let h5 ← copyParentRight s4.1 s4.2 sa loc
      pure (h5, s4.2)

/-- `BST::operator=(const BST& rhs)`: the new heap and the new `*this`. -/
def copyAssign {T : Type} (fuel : Nat) (h : Heap T) (this rhs : BST) :
    Except Fault (Heap T × BST) := do
  let s ← copyBinaryTree fuel h this.root rhs.root .root
  pure (s.1, BST.mk s.2 rhs.numElements)

/-! ## The associative wrapper (`map.h`) -/

/-- The error that `at` is specified to signal on a miss. No function of
`map.h` raises it. -/
inductive MapError where
  | keyNotFound
deriving DecidableEq

/-- The class `custom::map<K, V>`: its one data member, the tree of pairs. -/
structure Map where
  bst : BST
deriving DecidableEq

/-- `map::at(const K& key)`, both overloads: the body is `return *(new V);`.
The free store of `V` objects is a list; `new V` appends an object and the
result is the reference to it. `new V` default-initialises the object: its
value is what the default constructor of `V` makes, and is indeterminate for a
scalar `V`; it is the parameter `fresh`, on which nothing is assumed. Neither
the key nor the tree is read. -/
def Map.at {K V : Type} (_h : Heap (K × V)) (vals : List V) (_m : Map) (_key : K) (fresh : V) :
    Except MapError (List V × Nat) :=
  .ok (vals ++ [fresh], vals.length)

/-! ## Client loops used by the properties -/

/-- Inserting the elements of a list one by one, left to right. -/
def insertAll {T : Type} [DecidableEq T] [LT T] [DecidableRel (fun (a b : T) => a < b)]
    (fuel : Nat) (keepUnique : Bool) : List T → Heap T × BST → Except Fault (Heap T × BST)
  | [], st => pure st
  | t :: ts, st => do
    let r ← insert fuel st.1 st.2 t keepUnique
    insertAll fuel keepUnique ts (r.1, r.2.1)

/-- The loop `for (; it != end(); ++it) out.push_back(*it);` run for at most
the given number of steps. -/
def walk {T : Type} (fuel : Nat) (h : Heap T) : Nat → Option Nat → Except Fault (List T)
  | 0, _ => .error .outOfFuel
  | _ + 1, none => pure []
  | steps + 1, some a => do
    let n ← h.deref (some a)
    let next ← increment fuel h (some a)
    let rest ← walk fuel h steps next
    pure (n.data :: rest)

/-- The elements met from `begin()` to `end()` by `operator++`. -/
def traverse {T : Type} (fuel : Nat) (h : Heap T) (b : BST) : Except Fault (List T) := do
  let it ← begin fuel h b
  walk fuel h fuel it

/-- Inserting a list into the empty tree (over the empty heap), then traversing
from `begin()` to `end()`. -/
def insertThenTraverse {T : Type} [DecidableEq T] [LT T]
    [DecidableRel (fun (a b : T) => a < b)] (fuel : Nat) (keepUnique : Bool) (ts : List T) :
    Except Fault (List T) := do
  let st ← insertAll fuel keepUnique ts ([], BST.mk none 0)
  traverse fuel st.1 st.2

/-- The round trip of the example: the seven inserts, `erase(find(5))`,
`erase(find(1))`, then the traversal from `begin()` to `end()`. -/
def roundTrip (keepUnique : Bool) (fuel : Nat) : Except Fault (List Nat) := do
  let st ← insertAll fuel keepUnique [5, 3, 8, 1, 4, 7, 9] ([], BST.mk none 0)
  let it5 ← find fuel st.1 st.2 5
  let e1 ← erase fuel st.1 st.2 it5
  let it1 ← find fuel e1.1 e1.2.1 1
  let e2 ← erase fuel e1.1 e1.2.1 it1
  traverse fuel e2.1 e2.2.1

/-! ## Abstract trees

The tree that a heap stores below a pointer is described by a `Shape`: a
binary tree whose nodes carry the address and the element of the cell. -/

/-- A binary tree of (address, element) nodes. -/
inductive Shape (T : Type) where
  | nil : Shape T
  | node (l : Shape T) (a : Nat) (x : T) (r : Shape T) : Shape T
deriving DecidableEq

/-- The pointer to the root of a shape. -/
def Shape.ptr {T : Type} : Shape T → Option Nat
  | .nil => none
  | .node _ a _ _ => some a

/-- The addresses of a shape, in order (left subtree, node, right subtree). -/
def Shape.addrs {T : Type} : Shape T → List Nat
  | .nil => []
  | .node l a _ r => l.addrs ++ a :: r.addrs

/-- The elements of a shape, in order. -/
def Shape.elems {T : Type} : Shape T → List T
  | .nil => []
  | .node l _ x r => l.elems ++ x :: r.elems

/-- The number of nodes of a shape. -/
def Shape.size {T : Type} : Shape T → Nat
  | .nil => 0
  | .node l _ _ r => l.size + 1 + r.size

/-- The number of nodes on the longest path from the root. -/
def Shape.height {T : Type} : Shape T → Nat
  | .nil => 0
  | .node l _ _ r => max l.height r.height + 1

/-- The nodes of a shape as (address, element) pairs, in order: the in-order
sequence of the tree. -/
def Shape.inorder {T : Type} : Shape T → List (Nat × T)
  | .nil => []
  | .node l a x r => l.inorder ++ (a, x) :: r.inorder

/-- A tree with a hole: the path from the root to the hole, each step recording
the node passed and the subtree on the other side. -/
inductive Ctx (T : Type) where
  | hole : Ctx T
  | left (c : Ctx T) (a : Nat) (x : T) (r : Shape T) : Ctx T
  | right (l : Shape T) (a : Nat) (x : T) (c : Ctx T) : Ctx T

/-- Filling the hole of a context with a shape. -/
def Ctx.plug {T : Type} : Ctx T → Shape T → Shape T
  | .hole, t => t
  | .left c a x r, t => .node (c.plug t) a x r
  | .right l a x c, t => .node l a x (c.plug t)

/-- A left spine: the nodes passed when descending by left links only, from the
top down, each with its element and right subtree; `plugL fs t` hangs `t` at
the bottom of the spine. -/
def plugL {T : Type} : List (Nat × T × Shape T) → Shape T → Shape T
  | [], t => t
  | f :: fs, t => .node (plugL fs t) f.1 f.2.1 f.2.2

/-- The in-order sequence contributed by a left spine: what follows the
subtree hung at its bottom. -/
def spineInorder {T : Type} : List (Nat × T × Shape T) → List (Nat × T)
  | [] => []
  | f :: fs => spineInorder fs ++ (f.1, f.2.1) :: f.2.2.inorder

/-- The parent pointer of the subtree hung at the bottom of a left spine whose
top node has parent `par`. -/
def spineParent {T : Type} (par : Option Nat) : List (Nat × T × Shape T) → Option Nat
  | [] => par
  | f :: fs => spineParent (some f.1) fs

/-- The in-order sequence of a context to the left of the hole. -/
def Ctx.inorderL {T : Type} : Ctx T → List (Nat × T)
  | .hole => []
  | .left c _ _ _ => c.inorderL
  | .right l a x c => l.inorder ++ (a, x) :: c.inorderL

/-- The in-order sequence of a context to the right of the hole. -/
def Ctx.inorderR {T : Type} : Ctx T → List (Nat × T)
  | .hole => []
  | .left c a x r => c.inorderR ++ (a, x) :: r.inorder
  | .right _ _ _ c => c.inorderR

/-- The parent pointer of the subtree in the hole of a context whose root has
parent `par`. -/
def Ctx.holeParent {T : Type} (par : Option Nat) : Ctx T → Option Nat
  | .hole => par
  | .left c a _ _ => c.holeParent (some a)
  | .right _ a _ c => c.holeParent (some a)

/-- A right spine: the nodes passed when descending by right links only, from
the top down, each with its left subtree and element; `plugR fs t` hangs `t` at
the bottom of the spine. -/
def plugR {T : Type} : List (Shape T × Nat × T) → Shape T → Shape T
  | [], t => t
  | f :: fs, t => .node f.1 f.2.1 f.2.2 (plugR fs t)

/-- The in-order sequence contributed by a right spine: what precedes the
subtree hung at its bottom. -/
def rspineInorder {T : Type} : List (Shape T × Nat × T) → List (Nat × T)
  | [] => []
  | f :: fs => f.1.inorder ++ (f.2.1, f.2.2) :: rspineInorder fs

/-- One step of the path from a node up to the root: the node below is the
left child of `a` (whose right subtree is `r`), or the right child of `a`
(whose left subtree is `l`). -/
inductive Step (T : Type) where
  | left (a : Nat) (x : T) (r : Shape T) : Step T
  | right (l : Shape T) (a : Nat) (x : T) : Step T

/-- The subtree rooted at the node of a step, given the subtree below. -/
def Step.fill {T : Type} : Step T → Shape T → Shape T
  | .left a x r, t => .node t a x r
  | .right l a x, t => .node l a x t

/-- The address of the node of a step. -/
def Step.addr {T : Type} : Step T → Nat
  | .left a _ _ => a
  | .right _ a _ => a

/-- Whether the node below is the right child. -/
def Step.isRight {T : Type} : Step T → Bool
  | .left _ _ _ => false
  | .right _ _ _ => true

/-- The tree around the subtree `t`, given the path from the root of `t` up to
the root of the tree. -/
def plugUp {T : Type} : List (Step T) → Shape T → Shape T
  | [], t => t
  | f :: fs, t => plugUp fs (f.fill t)

/-- The in-order sequence of a path before the subtree below. -/
def upInorderL {T : Type} : List (Step T) → List (Nat × T)
  | [] => []
  | .left _ _ _ :: fs => upInorderL fs
  | .right l a x :: fs => upInorderL fs ++ (l.inorder ++ [(a, x)])

/-- The in-order sequence of a path after the subtree below. -/
def upInorderR {T : Type} : List (Step T) → List (Nat × T)
  | [] => []
  | .left a x r :: fs => ((a, x) :: r.inorder) ++ upInorderR fs
  | .right _ _ _ :: fs => upInorderR fs

/-- The parent pointer of the subtree below a path, `par` being the parent
pointer of the root of the whole tree. -/
def upParent {T : Type} (par : Option Nat) : List (Step T) → Option Nat
  | [] => par
  | f :: _ => some f.addr

/-- The heap stores the shape: the cell at each node's address holds the node's
element and points to the roots of its two subtrees. Parent links are not
constrained. -/
def Rep {T : Type} (h : Heap T) : Shape T → Prop
  | .nil => True
  | .node l a x r =>
    (∃ pp, h.cell a = some (BNode.mk x l.ptr r.ptr pp)) ∧ Rep h l ∧ Rep h r

/-- The heap stores the shape with consistent parent links: as `Rep`, and the
parent link of the root is `par`, that of every other node designates the node
that holds it as a child. -/
def WF {T : Type} (h : Heap T) : Option Nat → Shape T → Prop
  | _, .nil => True
  | par, .node l a x r =>
    h.cell a = some (BNode.mk x l.ptr r.ptr par) ∧ WF h (some a) l ∧ WF h (some a) r

/-- The order invariant: at every node the left subtree holds only smaller
elements and the right subtree only greater-or-equal elements. -/
def Ordered {T : Type} [LT T] [LE T] : Shape T → Prop
  | .nil => True
  | .node l _ x r =>
    (∀ y ∈ l.elems, y < x) ∧ (∀ y ∈ r.elems, x ≤ y) ∧ Ordered l ∧ Ordered r

/-- Two shapes are the same tree: the same branching and the same element at
every position, whatever the addresses. -/
def SameTree {T : Type} : Shape T → Shape T → Prop
  | .nil, .nil => True
  | .node l _ x r, .node l' _ x' r' => x = x' ∧ SameTree l l' ∧ SameTree r r'
  | _, _ => False

/-- The tree object `b` over heap `h` is the tree `s`: its root is the root of
`s` and the heap stores `s`. -/
def IsTree {T : Type} (h : Heap T) (b : BST) (s : Shape T) : Prop :=
  b.root = s.ptr ∧ Rep h s

/-- An example heap: the tree 5 (3 (1, 4), 8 (7, 9)) stored at addresses 0 to 6. -/
def exampleHeap : Heap Nat :=
  [some (BNode.mk 5 (some 1) (some 2) none), some (BNode.mk 3 (some 3) (some 4) (some 0)),
   some (BNode.mk 8 (some 5) (some 6) (some 0)), some (BNode.mk 1 none none (some 1)),
   some (BNode.mk 4 none none (some 1)), some (BNode.mk 7 none none (some 2)),
   some (BNode.mk 9 none none (some 2))]

/-- An example heap with two trees: 5 (3, 8 (7, -)) at addresses 0 to 3 and
2 (1 (0, -), -) at addresses 4 to 6. -/
def copyHeap : Heap Nat :=
  [some (BNode.mk 5 (some 1) (some 2) none), some (BNode.mk 3 none none (some 0)),
   some (BNode.mk 8 (some 3) none (some 0)), some (BNode.mk 7 none none (some 2)),
   some (BNode.mk 2 (some 5) none none), some (BNode.mk 1 (some 6) none (some 4)),
   some (BNode.mk 0 none none (some 5))]

/-- The shape stored by `copyHeap` below address 0. -/
def copySource : Shape Nat :=
  .node (.node .nil 1 3 .nil) 0 5 (.node (.node .nil 3 7 .nil) 2 8 .nil)

/-- The shape stored by `copyHeap` below address 4. -/
def copyDest : Shape Nat :=
  .node (.node (.node .nil 6 0 .nil) 5 1 .nil) 4 2 .nil

/-- The heap after `insert(5)`, `insert(3)`, `insert(8)` into the empty tree:
the node holding 8 took the left link of 5, the node holding 3 (address 1) is
no longer reachable, and the count is 3. -/
def miscountHeap : Heap Nat :=
  [some (BNode.mk 5 (some 2) none none), some (BNode.mk 3 none none (some 0)),
   some (BNode.mk 8 none none (some 0))]

/-- The shape stored by `miscountHeap` below address 0. -/
def miscountShape : Shape Nat :=
  .node (.node .nil 2 8 .nil) 0 5 .nil

/-- The shape stored by `exampleHeap` below address 0. -/
def exampleShape : Shape Nat :=
  .node (.node (.node .nil 3 1 .nil) 1 3 (.node .nil 4 4 .nil)) 0 5
    (.node (.node .nil 5 7 .nil) 2 8 (.node .nil 6 9 .nil))

/-! ## Basic lemmas -/

variable {T : Type}

theorem Except.ok_bind {ε α β : Type} (a : α) (f : α → Except ε β) :
    (Except.ok a >>= f) = f a := rfl

theorem Except.error_bind {ε α β : Type} (e : ε) (f : α → Except ε β) :
    ((Except.error e : Except ε α) >>= f) = Except.error e := rfl

theorem Except.pure_eq {ε α : Type} (a : α) : (pure a : Except ε α) = Except.ok a := rfl

theorem deref_of_cell {h : Heap T} {a : Nat} {n : BNode T} (hc : h.cell a = some n) :
    h.deref (some a) = .ok n := by
  simp [Heap.deref, hc]

theorem ptr_mem_addrs {s : Shape T} {a : Nat} (hp : s.ptr = some a) : a ∈ s.addrs := by
  cases s with
  | nil => simp [Shape.ptr] at hp
  | node l b x r =>
    simp [Shape.ptr] at hp
    simp [Shape.addrs, hp]

theorem findLoop_spec [LinearOrder T] (h : Heap T) (t : T) :
    ∀ (s : Shape T) (fuel : Nat), Rep h s → Ordered s → s.height < fuel →
      (t ∈ s.elems → ∃ a n, findLoop fuel h s.ptr t = .ok (some a) ∧ a ∈ s.addrs ∧
          h.cell a = some n ∧ n.data = t) ∧
      (t ∉ s.elems → findLoop fuel h s.ptr t = .ok none) := by
  intro s
  induction s with
  | nil =>
    intro fuel _ _ hf
    cases fuel with
    | zero => simp [Shape.height] at hf
    | succ k => simp [Shape.elems, Shape.ptr, findLoop, Except.pure_eq]
  | node l a x r ihl ihr =>
    intro fuel hrep hord hf
    cases fuel with
    | zero => simp at hf
    | succ k =>
      obtain ⟨⟨pp, hc⟩, hrl, hrr⟩ := hrep
      obtain ⟨hlt, hge, hol, hor⟩ := hord
      simp only [Shape.height] at hf
      have hfl : l.height < k := by omega
      have hfr : r.height < k := by omega
      have hl := ihl k hrl hol hfl
      have hr := ihr k hrr hor hfr
      simp only [Shape.ptr, findLoop, deref_of_cell hc, Except.ok_bind, Shape.elems,
        Shape.addrs]
      by_cases hxt : x = t
      · subst hxt
        simp [Except.pure_eq, hc]
      · simp only [hxt, if_false]
        by_cases hlt' : t < x
        · simp only [hlt', if_true]
          have hnr : t ∉ r.elems := fun hm => absurd (hge t hm) (not_le.mpr hlt')
          constructor
          · intro hm
            have hm' : t ∈ l.elems := by
              simp only [List.mem_append, List.mem_cons] at hm
              rcases hm with hm | hm | hm
              · exact hm
              · exact absurd hm.symm hxt
              · exact absurd hm hnr
            obtain ⟨b, n, h1, h2, h3⟩ := hl.1 hm'
            exact ⟨b, n, h1, by simp [h2], h3⟩
          · intro hm
            apply hl.2
            intro hm'
            exact hm (by simp [hm'])
        · simp only [hlt', if_false]
          have hnl : t ∉ l.elems := fun hm => hlt' (hlt t hm)
          constructor
          · intro hm
            have hm' : t ∈ r.elems := by
              simp only [List.mem_append, List.mem_cons] at hm
              rcases hm with hm | hm | hm
              · exact absurd hm hnl
              · exact absurd hm.symm hxt
              · exact hm
            obtain ⟨b, n, h1, h2, h3⟩ := hr.1 hm'
            exact ⟨b, n, h1, by simp [h2], h3⟩
          · intro hm
            apply hr.2
            intro hm'
            exact hm (by simp [hm'])

theorem insertLoop_match [LinearOrder T] (h : Heap T) (t : T) :
    ∀ (s : Shape T) (fuel a0 : Nat), Rep h s → Ordered s → t ∈ s.elems → s.height ≤ fuel →
      s.ptr = some a0 →
      ∃ a n, insertLoop fuel h t true a0 = .ok (.ret (some a) false) ∧ a ∈ s.addrs ∧
        h.cell a = some n ∧ n.data = t := by
  intro s
  induction s with
  | nil =>
    intro fuel a0 _ _ hm
    simp [Shape.elems] at hm
  | node l a x r ihl ihr =>
    intro fuel a0 hrep hord hm hf hp
    cases fuel with
    | zero => simp [Shape.height] at hf
    | succ k =>
      obtain ⟨⟨pp, hc⟩, hrl, hrr⟩ := hrep
      obtain ⟨hlt, hge, hol, hor⟩ := hord
      simp only [Shape.height] at hf
      have hfl : l.height ≤ k := by omega
      have hfr : r.height ≤ k := by omega
      simp only [Shape.ptr, Option.some.injEq] at hp
      subst hp
      simp only [insertLoop, deref_of_cell hc, Except.ok_bind, Shape.addrs, Bool.true_and]
      by_cases hxt : t = x
      · subst hxt
        simp [Except.pure_eq, hc]
      · simp only [hxt, decide_False, Bool.false_eq_true, if_false]
        simp only [Shape.elems, List.mem_append, List.mem_cons] at hm
        by_cases hlt' : t < x
        · simp only [hlt', if_true]
          have hnr : t ∉ r.elems := fun hm => absurd (hge t hm) (not_le.mpr hlt')
          have hm' : t ∈ l.elems := by
            rcases hm with hm | hm | hm
            · exact hm
            · exact absurd hm hxt
            · exact absurd hm hnr
          cases l with
          | nil => simp [Shape.elems] at hm'
          | node ll la lx lr =>
            obtain ⟨b, n, h1, h2, h3⟩ := ihl k la hrl hol hm' hfl rfl
            exact ⟨b, n, h1, by simp [h2], h3⟩
        · simp only [hlt', if_false]
          have hnl : t ∉ l.elems := fun hm => hlt' (hlt t hm)
          have hm' : t ∈ r.elems := by
            rcases hm with hm | hm | hm
            · exact absurd hm hnl
            · exact absurd hm hxt
            · exact hm
          cases r with
          | nil => simp [Shape.elems] at hm'
          | node rl ra rx rr =>
            obtain ⟨b, n, h1, h2, h3⟩ := ihr k ra hrr hor hm' hfr rfl
            exact ⟨b, n, h1, by simp [h2], h3⟩

theorem Rep_unique {h : Heap T} : ∀ (s s' : Shape T), Rep h s → Rep h s' → s.ptr = s'.ptr →
    s = s' := by
  intro s
  induction s with
  | nil =>
    intro s' _ _ hp
    cases s' with
    | nil => rfl
    | node l a x r => simp [Shape.ptr] at hp
  | node l a x r ihl ihr =>
    intro s' hr hr' hp
    cases s' with
    | nil => simp [Shape.ptr] at hp
    | node l' a' x' r' =>
      simp only [Shape.ptr, Option.some.injEq] at hp
      subst hp
      obtain ⟨⟨pp, hc⟩, hl, hrr⟩ := hr
      obtain ⟨⟨pp', hc'⟩, hl', hrr'⟩ := hr'
      rw [hc] at hc'
      simp only [Option.some.injEq, BNode.mk.injEq] at hc'
      obtain ⟨hx, hlp, hrp, _⟩ := hc'
      rw [ihl l' hl hl' hlp, ihr r' hrr hrr' hrp, hx]

theorem roundTrip_nullDeref (ku : Bool) (fuel : Nat) :
    roundTrip ku (fuel + 3) = .error .nullDeref := by
  cases ku <;> rfl

/-! ## Heap lemmas -/

theorem cell_lt {h : Heap T} {a : Nat} {n : BNode T} (hc : h.cell a = some n) : a < h.length := by
  by_contra hlt
  have hn : h[a]? = none := List.getElem?_eq_none (by omega)
  simp [Heap.cell, hn] at hc

theorem cell_set (h : Heap T) (a b : Nat) (v : Option (BNode T)) :
    Heap.cell (List.set h a v) b = if b = a ∧ a < h.length then v else h.cell b := by
  by_cases hba : b = a
  · subst hba
    by_cases hl : b < h.length
    · simp [Heap.cell, hl]
    · have hn : h[b]? = none := List.getElem?_eq_none (by omega)
      have hn' : (List.set h b v)[b]? = none := List.getElem?_eq_none (by simp; omega)
      simp [Heap.cell, hl, hn, hn']
  · have : a ≠ b := fun e => hba e.symm
    simp [Heap.cell, hba, this]

theorem cell_set_of_cell {h : Heap T} {a : Nat} {n : BNode T} (hc : h.cell a = some n)
    (b : Nat) (v : Option (BNode T)) :
    Heap.cell (List.set h a v) b = if b = a then v else h.cell b := by
  simp [cell_set, cell_lt hc]

theorem modify_of_cell {h : Heap T} {a : Nat} {n : BNode T} (hc : h.cell a = some n)
    (f : BNode T → BNode T) : h.modify (some a) f = .ok (List.set h a (some (f n))) := by
  simp [Heap.modify, hc]

/-- What `Heap.modify` does to every cell. -/
theorem modify_cells {h : Heap T} {a : Nat} {n : BNode T} (hc : h.cell a = some n)
    (f : BNode T → BNode T) :
    ∃ h', h.modify (some a) f = .ok h' ∧
      ∀ b, h'.cell b = (h.cell b).map (fun m => if b = a then f m else m) := by
  refine ⟨_, modify_of_cell hc f, ?_⟩
  intro b
  rw [cell_set_of_cell hc]
  by_cases hb : b = a
  · subst hb
    simp [hc]
  · simp [hb]

/-- What `Heap.modifyIf` does to every cell. -/
theorem modifyIf_cells {h : Heap T} {p : Option Nat}
    (hp : ∀ a, p = some a → ∃ n, h.cell a = some n) (f : BNode T → BNode T) :
    ∃ h', h.modifyIf p f = .ok h' ∧
      ∀ b, h'.cell b = (h.cell b).map (fun m => if some b = p then f m else m) := by
  cases p with
  | none => exact ⟨h, rfl, fun b => by simp⟩
  | some a =>
    obtain ⟨n, hc⟩ := hp a rfl
    obtain ⟨h', e, c⟩ := modify_cells hc f
    refine ⟨h', e, ?_⟩
    intro b
    rw [c]
    simp

theorem spliceLeft_cells {h : Heap T} {d S la : Nat} {dn sn ln : BNode T}
    (hd : h.cell d = some dn) (hS : h.cell S = some sn) (hla : h.cell la = some ln)
    (hdl : dn.pLeft = some la) (hdS : d ≠ S) :
    ∃ h', spliceLeft h d S = .ok h' ∧
      ∀ a, h'.cell a = (h.cell a).map (fun n => BNode.mk n.data
        (if a = S then some la else n.pLeft) n.pRight
        (if a = la then some S else n.pParent)) := by
  obtain ⟨h1, e1, c1⟩ := modify_cells hS (fun n => { n with pLeft := some la })
  have hd1 : h1.cell d = some dn := by rw [c1, hd]; simp [hdS]
  have hla1 : ∃ ln1, h1.cell la = some ln1 := by rw [c1, hla]; simp
  obtain ⟨ln1, hla1⟩ := hla1
  obtain ⟨h2, e2, c2⟩ := modify_cells hla1 (fun n => { n with pParent := some S })
  refine ⟨h2, ?_, ?_⟩
  · simp only [spliceLeft, deref_of_cell hd, Except.ok_bind, hdl, e1, deref_of_cell hd1,
      Heap.modifyIf, e2]
  · intro a
    rw [c2, c1]
    cases hca : h.cell a with
    | none => rfl
    | some n =>
      simp only [Option.map_some']
      split_ifs <;> rfl

theorem spliceDetach_skip {h : Heap T} {d S : Nat} {dn : BNode T}
    (hd : h.cell d = some dn) (hdr : dn.pRight = some S) :
    spliceDetach h d S = .ok h := by
  simp only [spliceDetach, deref_of_cell hd, Except.ok_bind, hdr, ne_eq, not_true_eq_false,
    if_false]
  rfl

theorem spliceDetach_cells {h : Heap T} {d S ra q : Nat} {dn sn qn rn : BNode T}
    (hd : h.cell d = some dn) (hS : h.cell S = some sn) (hq : h.cell q = some qn)
    (hra : h.cell ra = some rn)
    (hdr : dn.pRight = some ra) (hsp : sn.pParent = some q)
    (hsr : ∀ sra, sn.pRight = some sra → (∃ srn, h.cell sra = some srn) ∧ sra ≠ S ∧ sra ≠ d)
    (hraS : ra ≠ S) (hdS : d ≠ S) (hdq : d ≠ q) :
    ∃ h', spliceDetach h d S = .ok h' ∧
      ∀ a, h'.cell a = (h.cell a).map (fun n => BNode.mk n.data
        (if a = q then sn.pRight else n.pLeft)
        (if a = S then some ra else n.pRight)
        (if a = ra then some S else if some a = sn.pRight then some q else n.pParent)) := by
  obtain ⟨h1, e1, c1⟩ := modifyIf_cells (fun a ha => (hsr a ha).1)
    (fun n => { n with pParent := some q })
  have hS1 : h1.cell S = some sn := by
    rw [c1, hS]
    have : ¬ (some S = sn.pRight) := fun e => (hsr S e.symm).2.1 rfl
    simp [this]
  have hq1 : ∃ qn1, h1.cell q = some qn1 := by rw [c1, hq]; simp
  obtain ⟨qn1, hq1⟩ := hq1
  obtain ⟨h2, e2, c2⟩ := modify_cells hq1 (fun n => { n with pLeft := sn.pRight })
  have hd2 : h2.cell d = some dn := by
    rw [c2, c1, hd]
    have : ¬ (some d = sn.pRight) := fun e => (hsr d e.symm).2.2 rfl
    simp [this, hdq]
  have hS2 : ∃ sn2, h2.cell S = some sn2 := by rw [c2, hS1]; simp
  obtain ⟨sn2, hS2⟩ := hS2
  obtain ⟨h3, e3, c3⟩ := modify_cells hS2 (fun n => { n with pRight := some ra })
  have hd3 : h3.cell d = some dn := by rw [c3, hd2]; simp [hdS]
  have hra3 : ∃ rn3, h3.cell ra = some rn3 := by rw [c3, c2, c1, hra]; simp
  obtain ⟨rn3, hra3⟩ := hra3
  obtain ⟨h4, e4, c4⟩ := modify_cells hra3 (fun n => { n with pParent := some S })
  refine ⟨h4, ?_, ?_⟩
  · have hne : ¬ (some ra = some S) := by simpa using hraS
    simp only [spliceDetach, deref_of_cell hd, Except.ok_bind, hdr, ne_eq, hne, not_false_eq_true,
      if_true, deref_of_cell hS, hsp, e1, deref_of_cell hS1, e2, deref_of_cell hd2, e3,
      deref_of_cell hd3, e4]
  · intro a
    rw [c4, c3, c2, c1]
    cases hca : h.cell a with
    | none => rfl
    | some n =>
      simp only [Option.map_some']
      split_ifs <;> rfl


theorem relinkLeft_cells {h : Heap T} {d : Nat} {dn : BNode T} (S : Nat)
    (hd : h.cell d = some dn)
    (hp : ∀ p, dn.pParent = some p → ∃ pn, h.cell p = some pn) :
    ∃ h', relinkLeft h d S = .ok h' ∧
      ∀ a, h'.cell a = (h.cell a).map (fun n =>
        if some a = dn.pParent ∧ n.pLeft = some d then { n with pLeft := some S } else n) := by
  cases hpp : dn.pParent with
  | none =>
    refine ⟨h, ?_, ?_⟩
    · simp only [relinkLeft, deref_of_cell hd, Except.ok_bind, hpp]
      rfl
    · intro a
      cases h.cell a <;> simp
  | some p =>
    obtain ⟨pn, hpn⟩ := hp p hpp
    by_cases hl : pn.pLeft = some d
    · obtain ⟨h', e, c⟩ := modify_cells hpn (fun n => { n with pLeft := some S })
      refine ⟨h', ?_, ?_⟩
      · simp only [relinkLeft, deref_of_cell hd, Except.ok_bind, hpp, deref_of_cell hpn, hl,
          if_true, e]
      · intro a
        rw [c]
        by_cases hap : a = p
        · subst hap
          simp [hpn, hl]
        · have : ¬ p = a := fun e => hap e.symm
          cases h.cell a <;> simp [hap, this]
    · refine ⟨h, ?_, ?_⟩
      · simp only [relinkLeft, deref_of_cell hd, Except.ok_bind, hpp, deref_of_cell hpn, hl,
          if_false]
        rfl
      · intro a
        by_cases hap : a = p
        · subst hap
          simp [hpn, hl]
        · have : ¬ p = a := fun e => hap e.symm
          cases h.cell a <;> simp [hap, this]

theorem relinkRight_cells {h : Heap T} {d : Nat} {dn : BNode T} (S : Nat)
    (hd : h.cell d = some dn)
    (hp : ∀ p, dn.pParent = some p → ∃ pn, h.cell p = some pn) :
    ∃ h', relinkRight h d S = .ok h' ∧
      ∀ a, h'.cell a = (h.cell a).map (fun n =>
        if some a = dn.pParent ∧ n.pRight = some d then { n with pRight := some S } else n) := by
  cases hpp : dn.pParent with
  | none =>
    refine ⟨h, ?_, ?_⟩
    · simp only [relinkRight, deref_of_cell hd, Except.ok_bind, hpp]
      rfl
    · intro a
      cases h.cell a <;> simp
  | some p =>
    obtain ⟨pn, hpn⟩ := hp p hpp
    by_cases hl : pn.pRight = some d
    · obtain ⟨h', e, c⟩ := modify_cells hpn (fun n => { n with pRight := some S })
      refine ⟨h', ?_, ?_⟩
      · simp only [relinkRight, deref_of_cell hd, Except.ok_bind, hpp, deref_of_cell hpn, hl,
          if_true, e]
      · intro a
        rw [c]
        by_cases hap : a = p
        · subst hap
          simp [hpn, hl]
        · have : ¬ p = a := fun e => hap e.symm
          cases h.cell a <;> simp [hap, this]
    · refine ⟨h, ?_, ?_⟩
      · simp only [relinkRight, deref_of_cell hd, Except.ok_bind, hpp, deref_of_cell hpn, hl,
          if_false]
        rfl
      · intro a
        by_cases hap : a = p
        · subst hap
          simp [hpn, hl]
        · have : ¬ p = a := fun e => hap e.symm
          cases h.cell a <;> simp [hap, this]

theorem spliceParent_cells {h : Heap T} {d S : Nat} {dn sn : BNode T}
    (hd : h.cell d = some dn) (hS : h.cell S = some sn) (hdS : d ≠ S)
    (hdp : dn.pParent ≠ some d)
    (hp : ∀ p, dn.pParent = some p → ∃ pn, h.cell p = some pn) :
    ∃ h', spliceParent h d S = .ok h' ∧
      ∀ a, h'.cell a = (h.cell a).map (fun n => BNode.mk n.data
        (if some a = dn.pParent ∧ n.pLeft = some d then some S else n.pLeft)
        (if some a = dn.pParent ∧ n.pRight = some d then some S else n.pRight)
        (if a = S then dn.pParent else n.pParent)) := by
  obtain ⟨h1, e1, c1⟩ := modify_cells hS (fun n => { n with pParent := dn.pParent })
  have hd1 : h1.cell d = some dn := by rw [c1, hd]; simp [hdS]
  have hp1 : ∀ p, dn.pParent = some p → ∃ pn, h1.cell p = some pn := by
    intro p hpp
    obtain ⟨pn, hpn⟩ := hp p hpp
    rw [c1, hpn]
    simp
  obtain ⟨h2, e2, c2⟩ := relinkLeft_cells S hd1 hp1
  have hd2 : h2.cell d = some dn := by
    rw [c2, hd1]
    have : ¬ (some d = dn.pParent) := fun e => hdp e.symm
    simp [this]
  have hp2 : ∀ p, dn.pParent = some p → ∃ pn, h2.cell p = some pn := by
    intro p hpp
    obtain ⟨pn, hpn⟩ := hp1 p hpp
    rw [c2, hpn]
    simp
  obtain ⟨h3, e3, c3⟩ := relinkRight_cells S hd2 hp2
  refine ⟨h3, ?_, ?_⟩
  · simp only [spliceParent, deref_of_cell hd, Except.ok_bind, e1, e2, e3]
  · intro a
    rw [c3, c2, c1]
    cases hca : h.cell a with
    | none => rfl
    | some n =>
      simp only [Option.map_some']
      split_ifs <;> simp_all

/-! ## Shapes, spines and contexts -/

theorem addrs_eq_map (s : Shape T) : s.addrs = s.inorder.map Prod.fst := by
  induction s with
  | nil => rfl
  | node l a x r ihl ihr => simp [Shape.addrs, Shape.inorder, ihl, ihr]

theorem elems_eq_map (s : Shape T) : s.elems = s.inorder.map Prod.snd := by
  induction s with
  | nil => rfl
  | node l a x r ihl ihr => simp [Shape.elems, Shape.inorder, ihl, ihr]

theorem inorder_plugL (fs : List (Nat × T × Shape T)) (t : Shape T) :
    (plugL fs t).inorder = t.inorder ++ spineInorder fs := by
  induction fs with
  | nil => simp [plugL, spineInorder]
  | cons f fs ih => simp [plugL, spineInorder, Shape.inorder, ih]

theorem inorder_plug (c : Ctx T) (t : Shape T) :
    (c.plug t).inorder = c.inorderL ++ t.inorder ++ c.inorderR := by
  induction c with
  | hole => simp [Ctx.plug, Ctx.inorderL, Ctx.inorderR]
  | left c a x r ih => simp [Ctx.plug, Ctx.inorderL, Ctx.inorderR, Shape.inorder, ih]
  | right l a x c ih => simp [Ctx.plug, Ctx.inorderL, Ctx.inorderR, Shape.inorder, ih]

theorem addrs_plugL (fs : List (Nat × T × Shape T)) (t : Shape T) :
    (plugL fs t).addrs = t.addrs ++ (spineInorder fs).map Prod.fst := by
  simp [addrs_eq_map, inorder_plugL]

theorem addrs_plug (c : Ctx T) (t : Shape T) :
    (c.plug t).addrs = c.inorderL.map Prod.fst ++ t.addrs ++ c.inorderR.map Prod.fst := by
  simp [addrs_eq_map, inorder_plug]

/-- The parent of the bottom of a spine is the given parent when the spine is
empty, and a node of the spine otherwise. -/
theorem spineParent_cases (par : Option Nat) (fs : List (Nat × T × Shape T)) :
    (fs = [] ∧ spineParent par fs = par) ∨
    (fs ≠ [] ∧ ∃ b, spineParent par fs = some b ∧ b ∈ (spineInorder fs).map Prod.fst) := by
  induction fs generalizing par with
  | nil => exact Or.inl ⟨rfl, rfl⟩
  | cons f fs ih =>
    right
    refine ⟨by simp, ?_⟩
    rcases ih (some f.1) with ⟨hnil, hp⟩ | ⟨_, b, hb, hm⟩
    · exact ⟨f.1, by simp [spineParent, hp], by simp [spineInorder]⟩
    · exact ⟨b, by simp [spineParent, hb], by
        simp only [spineInorder, List.map_append, List.mem_append]
        exact Or.inl hm⟩

/-- The parent of the hole of a context is the given parent when the context is
empty, and a node of the context otherwise. -/
theorem holeParent_cases (par : Option Nat) (c : Ctx T) :
    (c = .hole ∧ c.holeParent par = par) ∨
    (c ≠ .hole ∧ ∃ b, c.holeParent par = some b ∧
      (b ∈ c.inorderL.map Prod.fst ∨ b ∈ c.inorderR.map Prod.fst)) := by
  induction c generalizing par with
  | hole => exact Or.inl ⟨rfl, rfl⟩
  | left c a x r ih =>
    right
    refine ⟨by simp, ?_⟩
    rcases ih (some a) with ⟨_, hp⟩ | ⟨_, b, hb, hm⟩
    · exact ⟨a, by simp [Ctx.holeParent, hp], Or.inr (by simp [Ctx.inorderR])⟩
    · refine ⟨b, by simp [Ctx.holeParent, hb], ?_⟩
      rcases hm with hm | hm
      · exact Or.inl (by simpa [Ctx.inorderL] using hm)
      · exact Or.inr (by
          simp only [Ctx.inorderR, List.map_append, List.mem_append]
          exact Or.inl hm)
  | right l a x c ih =>
    right
    refine ⟨by simp, ?_⟩
    rcases ih (some a) with ⟨_, hp⟩ | ⟨_, b, hb, hm⟩
    · exact ⟨a, by simp [Ctx.holeParent, hp], Or.inl (by simp [Ctx.inorderL])⟩
    · refine ⟨b, by simp [Ctx.holeParent, hb], ?_⟩
      rcases hm with hm | hm
      · exact Or.inl (by
          simp only [Ctx.inorderL, List.map_append, List.mem_append, List.map_cons,
            List.mem_cons]
          exact Or.inr (Or.inr hm))
      · exact Or.inr (by simpa [Ctx.inorderR] using hm)

/-- The root pointer of a plugged context: that of the plugged shape when the
context is empty, the root of the context otherwise. -/
theorem ptr_plug (c : Ctx T) (t t' : Shape T) :
    (c = .hole ∧ (c.plug t).ptr = t.ptr) ∨
    (c ≠ .hole ∧ (c.plug t).ptr = (c.plug t').ptr ∧ ∃ b, (c.plug t).ptr = some b ∧
      (b ∈ c.inorderL.map Prod.fst ∨ b ∈ c.inorderR.map Prod.fst)) := by
  cases c with
  | hole => exact Or.inl ⟨rfl, rfl⟩
  | left c a x r =>
    exact Or.inr ⟨by simp, rfl, a, rfl, Or.inr (by simp [Ctx.inorderR])⟩
  | right l a x c =>
    exact Or.inr ⟨by simp, rfl, a, rfl, Or.inl (by simp [Ctx.inorderL])⟩

theorem ptr_plugL (fs : List (Nat × T × Shape T)) (t t' : Shape T) :
    (fs = [] ∧ (plugL fs t).ptr = t.ptr) ∨
    (fs ≠ [] ∧ (plugL fs t).ptr = (plugL fs t').ptr ∧ ∃ b, (plugL fs t).ptr = some b ∧
      b ∈ (spineInorder fs).map Prod.fst) := by
  cases fs with
  | nil => exact Or.inl ⟨rfl, rfl⟩
  | cons f fs =>
    exact Or.inr ⟨by simp, rfl, f.1, rfl, by simp [spineInorder]⟩

/-! ## Well-formed heaps -/

/-- A well-formed subtree stays well formed in any heap with the same cells at
the addresses of the subtree. -/
theorem WF_frame {h h' : Heap T} :
    ∀ (s : Shape T) (par : Option Nat), WF h par s →
      (∀ a ∈ s.addrs, ∀ n, h.cell a = some n → h'.cell a = some n) → WF h' par s := by
  intro s
  induction s with
  | nil => intros; trivial
  | node l a x r ihl ihr =>
    intro par hwf hcells
    obtain ⟨hc, hl, hr⟩ := hwf
    refine ⟨hcells a (by simp [Shape.addrs]) _ hc, ?_, ?_⟩
    · exact ihl (some a) hl (fun b hb n hn => hcells b (by simp [Shape.addrs, hb]) n hn)
    · exact ihr (some a) hr (fun b hb n hn => hcells b (by simp [Shape.addrs, hb]) n hn)

/-- The cells of a well-formed subtree are live. -/
theorem WF_live {h : Heap T} :
    ∀ (s : Shape T) (par : Option Nat), WF h par s → ∀ a ∈ s.addrs, ∃ n, h.cell a = some n := by
  intro s
  induction s with
  | nil => intro _ _ a ha; simp [Shape.addrs] at ha
  | node l b x r ihl ihr =>
    intro par hwf a ha
    obtain ⟨hc, hl, hr⟩ := hwf
    simp only [Shape.addrs, List.mem_append, List.mem_cons] at ha
    rcases ha with ha | ha | ha
    · exact ihl _ hl a ha
    · exact ⟨_, ha ▸ hc⟩
    · exact ihr _ hr a ha

/-- Well-formedness of a spine gives well-formedness of what hangs at its
bottom, under the bottom's parent. -/
theorem WF_plugL_bottom {h : Heap T} (t : Shape T) :
    ∀ (fs : List (Nat × T × Shape T)) (par : Option Nat), WF h par (plugL fs t) →
      WF h (spineParent par fs) t := by
  intro fs
  induction fs with
  | nil => intro par hwf; exact hwf
  | cons f fs ih => intro par hwf; exact ih (some f.1) hwf.2.1

/-- Well-formedness of a plugged context gives well-formedness of what is in
the hole, under the hole's parent. -/
theorem WF_plug_hole {h : Heap T} (t : Shape T) :
    ∀ (c : Ctx T) (par : Option Nat), WF h par (c.plug t) → WF h (c.holeParent par) t := by
  intro c
  induction c with
  | hole => intro par hwf; exact hwf
  | left c a x r ih => intro par hwf; exact ih (some a) hwf.2.1
  | right l a x c ih => intro par hwf; exact ih (some a) hwf.2.2

/-- The loop `leftmost` run from the top of a spine stops at the node at its
bottom that has no left child. -/
theorem leftmost_plugL {h : Heap T} (S : Nat) (y : T) (srs : Shape T) :
    ∀ (fs : List (Nat × T × Shape T)) (par : Option Nat) (fuel ra : Nat),
      WF h par (plugL fs (.node .nil S y srs)) →
      (plugL fs (.node .nil S y srs)).ptr = some ra → fs.length < fuel →
      leftmost fuel h ra = .ok S := by
  intro fs
  induction fs with
  | nil =>
    intro par fuel ra hwf hp hf
    cases fuel with
    | zero => simp at hf
    | succ k =>
      simp only [plugL, Shape.ptr, Option.some.injEq] at hp
      subst hp
      simp only [leftmost, deref_of_cell hwf.1, Except.ok_bind, Shape.ptr]
      rfl
  | cons f fs ih =>
    intro par fuel ra hwf hp hf
    cases fuel with
    | zero => simp at hf
    | succ k =>
      simp only [plugL, Shape.ptr, Option.some.injEq] at hp
      subst hp
      obtain ⟨hc, hl, _⟩ := hwf
      have hex : ∃ b, (plugL fs (Shape.node .nil S y srs)).ptr = some b := by
        cases fs with
        | nil => exact ⟨S, rfl⟩
        | cons g gs => exact ⟨g.1, rfl⟩
      obtain ⟨b, hb⟩ := hex
      simp only [leftmost, deref_of_cell hc, Except.ok_bind, hb]
      exact ih (some f.1) k b hl hb (by simpa using hf)

theorem nodup_node {l r : Shape T} {a : Nat} {x : T} :
    (Shape.node l a x r).addrs.Nodup ↔
      l.addrs.Nodup ∧ r.addrs.Nodup ∧ a ∉ l.addrs ∧ a ∉ r.addrs ∧
        ∀ b ∈ l.addrs, b ∉ r.addrs := by
  simp only [Shape.addrs, List.nodup_append, List.nodup_cons, List.Disjoint, List.mem_cons]
  constructor
  · rintro ⟨h1, ⟨h2, h3⟩, h4⟩
    exact ⟨h1, h3, fun hm => h4 hm (Or.inl rfl), h2, fun b hb hb' => h4 hb (Or.inr hb')⟩
  · rintro ⟨h1, h2, h3, h4, h5⟩
    refine ⟨h1, ⟨h4, h2⟩, ?_⟩
    intro b hb hb'
    rcases hb' with e | hb'
    · exact h3 (e ▸ hb)
    · exact h5 b hb hb'

/-- Removing the bottom node of a spine: when the right subtree of the bottom
node is hung in its place, the spine is well formed in any heap that differs
on it by the left link of the bottom's parent and the parent link of the
subtree's root. -/
theorem WF_detach {h h' : Heap T} (S : Nat) (y : T) (srs : Shape T) :
    ∀ (fs : List (Nat × T × Shape T)) (par : Option Nat),
      WF h par (plugL fs (.node .nil S y srs)) →
      (plugL fs (.node .nil S y srs)).addrs.Nodup →
      (∀ p, par = some p → p ∉ (plugL fs (.node .nil S y srs)).addrs) →
      (∀ a ∈ (plugL fs srs).addrs, ∀ n, h.cell a = some n →
        h'.cell a = some (BNode.mk n.data
          (if some a = spineParent par fs then srs.ptr else n.pLeft) n.pRight
          (if some a = srs.ptr then spineParent par fs else n.pParent))) →
      WF h' par (plugL fs srs) := by
  intro fs
  induction fs with
  | nil =>
    intro par hwf hnd hpar hcells
    simp only [plugL] at *
    obtain ⟨_, _, hs⟩ := hwf
    obtain ⟨_, hnds, _, hSs, _⟩ := nodup_node.mp hnd
    cases srs with
    | nil => trivial
    | node sl sa sx sr =>
      obtain ⟨hc, hl, hr⟩ := hs
      obtain ⟨_, _, hal, har, _⟩ := nodup_node.mp hnds
      have hout : ∀ b ∈ (Shape.node sl sa sx sr).addrs, ¬ (some b = par) := by
        intro b hb e
        exact hpar b e.symm (by simp only [Shape.addrs, List.nil_append, List.mem_cons]
                                exact Or.inr hb)
      refine ⟨?_, ?_, ?_⟩
      · have := hcells sa (by simp [Shape.addrs]) _ hc
        simpa [spineParent, Shape.ptr, hout sa (by simp [Shape.addrs])] using this
      · apply WF_frame _ _ hl
        intro b hb n hn
        have h1 := hout b (by simp [Shape.addrs, hb])
        have h2 : ¬ (b = sa) := fun e => hal (e ▸ hb)
        have := hcells b (by simp [Shape.addrs, hb]) n hn
        simpa [spineParent, Shape.ptr, h1, h2] using this
      · apply WF_frame _ _ hr
        intro b hb n hn
        have h1 := hout b (by simp [Shape.addrs, hb])
        have h2 : ¬ (b = sa) := fun e => har (e ▸ hb)
        have := hcells b (by simp [Shape.addrs, hb]) n hn
        simpa [spineParent, Shape.ptr, h1, h2] using this
  | cons f fs ih =>
    intro par hwf hnd hpar hcells
    simp only [plugL] at hwf hnd hpar hcells ⊢
    obtain ⟨hc, hl, hr⟩ := hwf
    obtain ⟨hndl, hndr, hal, har, hlr⟩ := nodup_node.mp hnd
    -- addresses of the old and the new left part
    have hsub : ∀ b ∈ (plugL fs srs).addrs, b ∈ (plugL fs (Shape.node .nil S y srs)).addrs := by
      intro b hb
      rw [addrs_plugL] at hb ⊢
      simp only [Shape.addrs, List.nil_append, List.mem_append, List.mem_cons] at hb ⊢
      rcases hb with hb | hb
      · exact Or.inl (Or.inr hb)
      · exact Or.inr hb
    have hsp : ∀ b, spineParent (some f.1) fs = some b →
        b = f.1 ∨ b ∈ (spineInorder fs).map Prod.fst := by
      intro b hb
      rcases spineParent_cases (some f.1) fs with ⟨_, e⟩ | ⟨_, b', e, hm⟩
      · rw [e] at hb
        exact Or.inl (by simpa using hb.symm)
      · rw [e] at hb
        simp only [Option.some.injEq] at hb
        exact Or.inr (hb ▸ hm)
    have hspin : ∀ b, spineParent (some f.1) fs = some b →
        b = f.1 ∨ b ∈ (plugL fs (Shape.node .nil S y srs)).addrs := by
      intro b hb
      rcases hsp b hb with e | hm
      · exact Or.inl e
      · right
        rw [addrs_plugL]
        exact List.mem_append_right _ hm
    have hsrs : ∀ b, srs.ptr = some b → b ∈ (plugL fs (Shape.node .nil S y srs)).addrs := by
      intro b hb
      rw [addrs_plugL]
      apply List.mem_append_left
      simp only [Shape.addrs, List.nil_append, List.mem_cons]
      exact Or.inr (ptr_mem_addrs hb)
    refine ⟨?_, ?_, ?_⟩
    · -- the top node of the spine
      have := hcells f.1 (by simp [Shape.addrs]) _ hc
      rw [this]
      have h2 : ¬ (some f.1 = srs.ptr) := fun e => hal (hsrs f.1 e.symm)
      simp only [spineParent, h2, if_false]
      rcases ptr_plugL fs (Shape.node .nil S y srs) srs with ⟨hnil, _⟩ | ⟨hne, hpe, b, hb, hm⟩
      · subst hnil
        simp [spineParent, plugL]
      · have h1 : ¬ (some f.1 = spineParent (some f.1) fs) := by
          intro e
          rcases spineParent_cases (some f.1) fs with ⟨hnil, _⟩ | ⟨_, b', e', hm'⟩
          · exact hne hnil
          · rw [e'] at e
            simp only [Option.some.injEq] at e
            apply hal
            rw [addrs_plugL]
            exact List.mem_append_right _ (e ▸ hm')
        simp [h1, hpe]
    · -- the rest of the spine, by induction
      apply ih (some f.1) hl hndl
      · intro p hp
        simp only [Option.some.injEq] at hp
        exact hp ▸ hal
      · intro b hb n hn
        have := hcells b (by simp [Shape.addrs, hb]) n hn
        simpa [spineParent] using this
    · -- the right subtree of the top node is untouched
      apply WF_frame _ _ hr
      intro b hb n hn
      have := hcells b (by simp [Shape.addrs, hb]) n hn
      rw [this]
      have h1 : ¬ (some b = spineParent (some f.1) fs) := by
        intro e
        rcases hspin b e.symm with e' | hm
        · exact har (e' ▸ hb)
        · exact hlr b hm hb
      have h2 : ¬ (some b = srs.ptr) := fun e => hlr b (hsrs b e.symm) hb
      simp [spineParent, h1, h2]

/-- Replacing the subtree in the hole of a context, whose root was `d`, by one
whose root is `S`: the plugged context is well formed in any heap that differs
on the context only by the child link of the hole's parent, redirected from `d`
to `S`. -/
theorem WF_plug_replace {h h' : Heap T} (d S : Nat) (t t' : Shape T)
    (ht : t.ptr = some d) (ht' : t'.ptr = some S) :
    ∀ (c : Ctx T) (par : Option Nat), WF h par (c.plug t) → (c.plug t).addrs.Nodup →
      WF h' (c.holeParent par) t' →
      (∀ a, a ∈ c.inorderL.map Prod.fst ∨ a ∈ c.inorderR.map Prod.fst →
        ∀ n, h.cell a = some n →
        h'.cell a = some (BNode.mk n.data
          (if some a = c.holeParent par ∧ n.pLeft = some d then some S else n.pLeft)
          (if some a = c.holeParent par ∧ n.pRight = some d then some S else n.pRight)
          n.pParent)) →
      WF h' par (c.plug t') := by
  have hdt : d ∈ t.addrs := ptr_mem_addrs ht
  intro c
  induction c with
  | hole => intro par _ _ hwf' _; exact hwf'
  | left c a x r ih =>
    intro par hwf hnd hwf' hcells
    simp only [Ctx.plug, Ctx.holeParent, Ctx.inorderL, Ctx.inorderR] at *
    obtain ⟨hc, hl, hr⟩ := hwf
    obtain ⟨hndl, hndr, hal, har, hlr⟩ := nodup_node.mp hnd
    have hdl : d ∈ (c.plug t).addrs := by
      rw [addrs_plug]; simp [hdt]
    have hctx : ∀ b, b ∈ c.inorderL.map Prod.fst ∨ b ∈ c.inorderR.map Prod.fst →
        b ∈ (c.plug t).addrs ∧ b ≠ d := by
      intro b hb
      have hm : b ∈ (c.plug t).addrs := by
        rw [addrs_plug]
        simp only [List.mem_append]
        rcases hb with hb | hb
        · exact Or.inl (Or.inl hb)
        · exact Or.inr hb
      refine ⟨hm, ?_⟩
      intro e
      subst e
      rw [addrs_plug] at hndl
      simp only [List.nodup_append, List.Disjoint, List.mem_append] at hndl
      rcases hb with hb | hb
      · exact hndl.1.2.2 hb hdt
      · exact hndl.2.2 (Or.inr hdt) hb
    refine ⟨?_, ?_, ?_⟩
    · have := hcells a (Or.inr (by simp)) _ hc
      rw [this]
      have hr' : ¬ (r.ptr = some d) := fun e => hlr d hdl (ptr_mem_addrs e)
      simp only [hr', and_false, if_false]
      rcases ptr_plug c t t' with ⟨hhole, _⟩ | ⟨hne, hpe, b, hb, hm⟩
      · subst hhole
        simp [Ctx.plug, Ctx.holeParent, ht, ht']
      · have hbd : ¬ ((c.plug t).ptr = some d) := by
          rw [hb]
          intro e
          simp only [Option.some.injEq] at e
          exact (hctx b hm).2 e
        rw [hpe] at hbd
        simp only [hpe, hbd, and_false, if_false]
    · apply ih (some a) hl hndl hwf'
      intro b hb n hn
      have hb' : b ∈ c.inorderL.map Prod.fst ∨
          b ∈ (c.inorderR ++ (a, x) :: r.inorder).map Prod.fst := by
        rcases hb with hb | hb
        · exact Or.inl hb
        · exact Or.inr (by simp only [List.map_append, List.mem_append]; exact Or.inl hb)
      exact hcells b hb' n hn
    · apply WF_frame _ _ hr
      intro b hb n hn
      have hb' : b ∈ c.inorderL.map Prod.fst ∨
          b ∈ (c.inorderR ++ (a, x) :: r.inorder).map Prod.fst := by
        right
        simp only [List.map_append, List.mem_append, List.map_cons, List.mem_cons]
        exact Or.inr (Or.inr (by rw [← addrs_eq_map]; exact hb))
      have := hcells b hb' n hn
      rw [this]
      have h1 : ¬ (some b = c.holeParent (some a)) := by
        intro e
        rcases holeParent_cases (some a) c with ⟨_, e'⟩ | ⟨_, b', e', hm⟩
        · rw [e'] at e
          simp only [Option.some.injEq] at e
          exact har (e ▸ hb)
        · rw [e'] at e
          simp only [Option.some.injEq] at e
          exact hlr b (e ▸ (hctx b' hm).1) hb
      simp [h1]
  | right l a x c ih =>
    intro par hwf hnd hwf' hcells
    simp only [Ctx.plug, Ctx.holeParent, Ctx.inorderL, Ctx.inorderR] at *
    obtain ⟨hc, hl, hr⟩ := hwf
    obtain ⟨hndl, hndr, hal, har, hlr⟩ := nodup_node.mp hnd
    have hdr : d ∈ (c.plug t).addrs := by
      rw [addrs_plug]; simp [hdt]
    have hctx : ∀ b, b ∈ c.inorderL.map Prod.fst ∨ b ∈ c.inorderR.map Prod.fst →
        b ∈ (c.plug t).addrs ∧ b ≠ d := by
      intro b hb
      have hm : b ∈ (c.plug t).addrs := by
        rw [addrs_plug]
        simp only [List.mem_append]
        rcases hb with hb | hb
        · exact Or.inl (Or.inl hb)
        · exact Or.inr hb
      refine ⟨hm, ?_⟩
      intro e
      subst e
      rw [addrs_plug] at hndr
      simp only [List.nodup_append, List.Disjoint, List.mem_append] at hndr
      rcases hb with hb | hb
      · exact hndr.1.2.2 hb hdt
      · exact hndr.2.2 (Or.inr hdt) hb
    refine ⟨?_, ?_, ?_⟩
    · have := hcells a (Or.inl (by simp)) _ hc
      rw [this]
      have hl' : ¬ (l.ptr = some d) := fun e => hlr d (ptr_mem_addrs e) hdr
      simp only [hl', and_false, if_false]
      rcases ptr_plug c t t' with ⟨hhole, _⟩ | ⟨hne, hpe, b, hb, hm⟩
      · subst hhole
        simp [Ctx.plug, Ctx.holeParent, ht, ht']
      · have hbd : ¬ ((c.plug t).ptr = some d) := by
          rw [hb]
          intro e
          simp only [Option.some.injEq] at e
          exact (hctx b hm).2 e
        rw [hpe] at hbd
        simp only [hpe, hbd, and_false, if_false]
    · apply WF_frame _ _ hl
      intro b hb n hn
      have hb' : b ∈ (l.inorder ++ (a, x) :: c.inorderL).map Prod.fst ∨
          b ∈ c.inorderR.map Prod.fst := by
        left
        simp only [List.map_append, List.mem_append]
        exact Or.inl (by rw [← addrs_eq_map]; exact hb)
      have := hcells b hb' n hn
      rw [this]
      have h1 : ¬ (some b = c.holeParent (some a)) := by
        intro e
        rcases holeParent_cases (some a) c with ⟨_, e'⟩ | ⟨_, b', e', hm⟩
        · rw [e'] at e
          simp only [Option.some.injEq] at e
          exact hal (e ▸ hb)
        · rw [e'] at e
          simp only [Option.some.injEq] at e
          exact hlr b hb (e ▸ (hctx b' hm).1)
      simp [h1]
    · apply ih (some a) hr hndr hwf'
      intro b hb n hn
      have hb' : b ∈ (l.inorder ++ (a, x) :: c.inorderL).map Prod.fst ∨
          b ∈ c.inorderR.map Prod.fst := by
        rcases hb with hb | hb
        · exact Or.inl (by
            simp only [List.map_append, List.mem_append, List.map_cons, List.mem_cons]
            exact Or.inr (Or.inr hb))
        · exact Or.inr hb
      exact hcells b hb' n hn

/-! ## The two-children case of erase -/

/-- The two-children splice when the successor is the right child of the
erased node. -/
theorem eraseSplice_child {h : Heap T} (root par : Option Nat) (fuel d : Nat) (x : T)
    (ll : Shape T) (la : Nat) (lx : T) (lr : Shape T) (S : Nat) (y : T) (srs : Shape T)
    (hwf : WF h par (.node (.node ll la lx lr) d x (.node .nil S y srs)))
    (hnd : (Shape.node (.node ll la lx lr) d x (.node .nil S y srs)).addrs.Nodup)
    (hpar : ∀ p, par = some p →
      p ∉ (Shape.node (.node ll la lx lr) d x (.node .nil S y srs)).addrs ∧
        ∃ pn, h.cell p = some pn)
    (hfuel : 0 < fuel) :
    ∃ h', eraseSplice fuel h root d = .ok (h', (if root = some d then some S else root), S) ∧
      WF h' par (.node (.node ll la lx lr) S y srs) ∧
      h'.cell d = h.cell d ∧
      ∀ a, a ∉ (Shape.node (.node ll la lx lr) d x (.node .nil S y srs)).addrs →
        ∀ n, h.cell a = some n →
        h'.cell a = some (BNode.mk n.data
          (if some a = par ∧ n.pLeft = some d then some S else n.pLeft)
          (if some a = par ∧ n.pRight = some d then some S else n.pRight) n.pParent) := by
  obtain ⟨hd, ⟨hla, hwll, hwlr⟩, hS, _, hwsrs⟩ := hwf
  have hd : h.cell d = some (BNode.mk x (some la) (some S) par) := hd
  have hS : h.cell S = some (BNode.mk y none srs.ptr (some d)) := hS
  obtain ⟨hndl, hndr, hdl, hdr, hlr⟩ := nodup_node.mp hnd
  obtain ⟨_, _, hlall, hlalr, _⟩ := nodup_node.mp hndl
  obtain ⟨_, _, _, hSs, _⟩ := nodup_node.mp hndr
  -- the addresses met are pairwise different
  have hla_mem : la ∈ (Shape.node ll la lx lr).addrs := by simp [Shape.addrs]
  have hS_mem : S ∈ (Shape.node .nil S y srs).addrs := by simp [Shape.addrs]
  have hdS : d ≠ S := fun e => hdr (e ▸ hS_mem)
  have hlaS : la ≠ S := fun e => hlr la hla_mem (e ▸ hS_mem)
  have hlad : la ≠ d := fun e => hdl (e ▸ hla_mem)
  have hparn : ∀ a, a ∈ (Shape.node (.node ll la lx lr) d x (.node .nil S y srs)).addrs →
      ¬ (some a = par) := fun a ha e => (hpar a e.symm).1 ha
  have hpd : ¬ (some d = par) := hparn d (by simp [Shape.addrs])
  have hpS : ¬ (some S = par) := hparn S (by simp [Shape.addrs])
  have hpla : ¬ (some la = par) := hparn la (by simp [Shape.addrs])
  -- the successor
  have hlm : leftmost fuel h S = .ok S := by
    cases fuel with
    | zero => simp at hfuel
    | succ k =>
      simp only [leftmost, deref_of_cell hS, Except.ok_bind]
      rfl
  -- run the three blocks
  obtain ⟨h1, e1, c1⟩ := spliceLeft_cells hd hS hla rfl hdS
  have hd1 : h1.cell d = some (BNode.mk x (some la) (some S) par) := by
    rw [c1, hd]; simp [hdS, Ne.symm hlad]
  have e2 := spliceDetach_skip hd1 rfl
  have hS1 : h1.cell S = some (BNode.mk y (some la) srs.ptr (some d)) := by
    rw [c1, hS]; simp [Ne.symm hlaS]
  have hp1 : ∀ p, (BNode.mk x (some la) (some S) par).pParent = some p →
      ∃ pn, h1.cell p = some pn := by
    intro p hp
    obtain ⟨pn, hpn⟩ := (hpar p hp).2
    rw [c1, hpn]
    simp
  obtain ⟨h3, e3, c3⟩ := spliceParent_cells hd1 hS1 hdS (fun e => hpd e.symm) hp1
  have hframe : ∀ b n, h.cell b = some n → b ≠ S → b ≠ la → ¬ (some b = par) →
      h3.cell b = some n := by
    intro b n hn b1 b2 b3
    rw [c3, c1, hn]
    simp [b1, b2, b3]
  refine ⟨h3, ?_, ⟨?_, ⟨?_, ?_, ?_⟩, ?_⟩, ?_, ?_⟩
  · simp only [eraseSplice, deref_of_cell hd, Except.ok_bind, hlm, e1, e2, e3]
    rfl
  · rw [c3, c1, hS]
    simp [Shape.ptr, Ne.symm hlaS, hpS]
  · rw [c3, c1, hla]
    simp [hlaS, hpla]
  · apply WF_frame _ _ hwll
    intro b hb n hn
    have hbl : b ∈ (Shape.node ll la lx lr).addrs := by simp [Shape.addrs, hb]
    exact hframe b n hn (fun e => hlr b hbl (e ▸ hS_mem)) (fun e => hlall (e ▸ hb))
      (hparn b (by simp [Shape.addrs, hb]))
  · apply WF_frame _ _ hwlr
    intro b hb n hn
    have hbl : b ∈ (Shape.node ll la lx lr).addrs := by simp [Shape.addrs, hb]
    exact hframe b n hn (fun e => hlr b hbl (e ▸ hS_mem)) (fun e => hlalr (e ▸ hb))
      (hparn b (by simp [Shape.addrs, hb]))
  · apply WF_frame _ _ hwsrs
    intro b hb n hn
    have hbr : b ∈ (Shape.node .nil S y srs).addrs := by simp [Shape.addrs, hb]
    exact hframe b n hn (fun e => hSs (e ▸ hb)) (fun e => hlr la hla_mem (e ▸ hbr))
      (hparn b (by simp [Shape.addrs, hb]))
  · rw [hframe d _ hd hdS (Ne.symm hlad) hpd, hd]
  · intro a ha n hn
    have a1 : a ≠ S := fun e => ha (by simp [Shape.addrs, e])
    have a2 : a ≠ la := fun e => ha (by simp [Shape.addrs, e])
    rw [c3, c1, hn]
    simp [a1, a2]


/-- The two-children splice when the successor lies deeper than the right child
of the erased node: the right subtree is a left spine `ra, ...` down to the
successor `S`. -/
theorem eraseSplice_deep {h : Heap T} (root par : Option Nat) (fuel d : Nat) (x : T)
    (ll : Shape T) (la : Nat) (lx : T) (lr : Shape T)
    (ra : Nat) (rx : T) (rrs : Shape T) (fs : List (Nat × T × Shape T))
    (S : Nat) (y : T) (srs : Shape T)
    (hwf : WF h par (.node (.node ll la lx lr) d x
      (.node (plugL fs (.node .nil S y srs)) ra rx rrs)))
    (hnd : (Shape.node (.node ll la lx lr) d x
      (.node (plugL fs (.node .nil S y srs)) ra rx rrs)).addrs.Nodup)
    (hpar : ∀ p, par = some p →
      p ∉ (Shape.node (.node ll la lx lr) d x
        (.node (plugL fs (.node .nil S y srs)) ra rx rrs)).addrs ∧
        ∃ pn, h.cell p = some pn)
    (hfuel : fs.length + 1 < fuel) :
    ∃ h', eraseSplice fuel h root d = .ok (h', (if root = some d then some S else root), S) ∧
      WF h' par (.node (.node ll la lx lr) S y (.node (plugL fs srs) ra rx rrs)) ∧
      h'.cell d = h.cell d ∧
      ∀ a, a ∉ (Shape.node (.node ll la lx lr) d x
          (.node (plugL fs (.node .nil S y srs)) ra rx rrs)).addrs →
        ∀ n, h.cell a = some n →
        h'.cell a = some (BNode.mk n.data
          (if some a = par ∧ n.pLeft = some d then some S else n.pLeft)
          (if some a = par ∧ n.pRight = some d then some S else n.pRight) n.pParent) := by
  have hwfr : WF h (some d) (.node (plugL fs (.node .nil S y srs)) ra rx rrs) := hwf.2.2
  obtain ⟨hd, ⟨hla, hwll, hwlr⟩, hra, hwsp, hwrrs⟩ := hwf
  have hd : h.cell d = some (BNode.mk x (some la) (some ra) par) := hd
  have hS : h.cell S = some (BNode.mk y none srs.ptr (spineParent (some ra) fs)) :=
    (WF_plugL_bottom _ fs (some ra) hwsp).1
  obtain ⟨hndl, hndr, hdl, hdr, hlr⟩ := nodup_node.mp hnd
  obtain ⟨_, _, hlall, hlalr, _⟩ := nodup_node.mp hndl
  obtain ⟨hndP, _, hraP, hrarrs, hPrrs⟩ := nodup_node.mp hndr
  have hPaddrs : (plugL fs (Shape.node .nil S y srs)).addrs
      = S :: (srs.addrs ++ (spineInorder fs).map Prod.fst) := by
    rw [addrs_plugL]; simp [Shape.addrs]
  have hP'addrs : (plugL fs srs).addrs = srs.addrs ++ (spineInorder fs).map Prod.fst :=
    addrs_plugL fs srs
  rw [hPaddrs] at hndP
  obtain ⟨hSrest, _⟩ := List.nodup_cons.mp hndP
  -- memberships
  have hS_P : S ∈ (plugL fs (Shape.node .nil S y srs)).addrs := by rw [hPaddrs]; simp
  have hP'_P : ∀ b ∈ (plugL fs srs).addrs, b ∈ (plugL fs (Shape.node .nil S y srs)).addrs := by
    intro b hb
    rw [hPaddrs]; rw [hP'addrs] at hb
    exact List.mem_cons_of_mem _ hb
  have hP'_S : ∀ b ∈ (plugL fs srs).addrs, b ≠ S := by
    intro b hb e
    rw [hP'addrs] at hb
    exact hSrest (e ▸ hb)
  have hsrs_P' : ∀ b ∈ srs.addrs, b ∈ (plugL fs srs).addrs := by
    intro b hb; rw [hP'addrs]; exact List.mem_append_left _ hb
  have hP_r : ∀ b ∈ (plugL fs (Shape.node .nil S y srs)).addrs,
      b ∈ (Shape.node (plugL fs (.node .nil S y srs)) ra rx rrs).addrs := by
    intro b hb; simp [Shape.addrs, hb]
  have hra_r : ra ∈ (Shape.node (plugL fs (.node .nil S y srs)) ra rx rrs).addrs := by
    simp [Shape.addrs]
  have hla_l : la ∈ (Shape.node ll la lx lr).addrs := by simp [Shape.addrs]
  -- the parent of the successor
  have hq : ∃ qa, spineParent (some ra) fs = some qa ∧
      (qa = ra ∨ qa ∈ (plugL fs srs).addrs) := by
    rcases spineParent_cases (some ra) fs with ⟨_, e⟩ | ⟨_, b, e, hm⟩
    · exact ⟨ra, e, Or.inl rfl⟩
    · exact ⟨b, e, Or.inr (by rw [hP'addrs]; exact List.mem_append_right _ hm)⟩
  obtain ⟨qa, hqa, hqmem⟩ := hq
  rw [hqa] at hS
  have hq_r : qa ∈ (Shape.node (plugL fs (.node .nil S y srs)) ra rx rrs).addrs := by
    rcases hqmem with e | hm
    · exact e ▸ hra_r
    · exact hP_r qa (hP'_P qa hm)
  obtain ⟨qn, hqn⟩ := WF_live _ _ hwfr qa hq_r
  -- the addresses met are pairwise different
  have hdS : d ≠ S := fun e => hdr (e ▸ hP_r S hS_P)
  have hlaS : la ≠ S := fun e => hlr la hla_l (e ▸ hP_r S hS_P)
  have hlad : la ≠ d := fun e => hdl (e ▸ hla_l)
  have hraS : ra ≠ S := fun e => hraP (e ▸ hS_P)
  have hrad : ra ≠ d := fun e => hdr (e ▸ hra_r)
  have hlara : la ≠ ra := fun e => hlr la hla_l (e ▸ hra_r)
  have hqd : qa ≠ d := fun e => hdr (e ▸ hq_r)
  have hqS : qa ≠ S := by
    rcases hqmem with e | hm
    · exact e ▸ hraS
    · exact hP'_S qa hm
  have hlaq : la ≠ qa := fun e => hlr la hla_l (e ▸ hq_r)
  have hsr : ∀ sra, srs.ptr = some sra → sra ∈ srs.addrs := fun sra e => ptr_mem_addrs e
  have hparn : ∀ a, a ∈ (Shape.node (.node ll la lx lr) d x
      (.node (plugL fs (.node .nil S y srs)) ra rx rrs)).addrs →
      ¬ (some a = par) := fun a ha e => (hpar a e.symm).1 ha
  have hin_l : ∀ b ∈ (Shape.node ll la lx lr).addrs, b ∈ (Shape.node (.node ll la lx lr) d x
      (.node (plugL fs (.node .nil S y srs)) ra rx rrs)).addrs := by
    intro b hb
    simp only [Shape.addrs, List.mem_append, List.mem_cons] at hb ⊢
    exact Or.inl hb
  have hin_r : ∀ b ∈ (Shape.node (plugL fs (.node .nil S y srs)) ra rx rrs).addrs,
      b ∈ (Shape.node (.node ll la lx lr) d x
      (.node (plugL fs (.node .nil S y srs)) ra rx rrs)).addrs := by
    intro b hb
    simp only [Shape.addrs, List.mem_append, List.mem_cons] at hb ⊢
    exact Or.inr (Or.inr hb)
  have hpd : ¬ (some d = par) := hparn d (by simp [Shape.addrs])
  -- the successor
  have hlm : leftmost fuel h ra = .ok S :=
    leftmost_plugL S y srs ((ra, rx, rrs) :: fs) (some d) fuel ra hwfr rfl
      (by simpa using hfuel)
  -- run the three blocks
  obtain ⟨h1, e1, c1⟩ := spliceLeft_cells hd hS hla rfl hdS
  have hd1 : h1.cell d = some (BNode.mk x (some la) (some ra) par) := by
    rw [c1, hd]; simp [hdS, Ne.symm hlad]
  have hS1 : h1.cell S = some (BNode.mk y (some la) srs.ptr (some qa)) := by
    rw [c1, hS]; simp [Ne.symm hlaS]
  have hq1 : ∃ qn1, h1.cell qa = some qn1 := by rw [c1, hqn]; simp
  obtain ⟨qn1, hq1⟩ := hq1
  have hra1 : ∃ rn1, h1.cell ra = some rn1 := by rw [c1, hra]; simp
  obtain ⟨rn1, hra1⟩ := hra1
  have hsr1 : ∀ sra, (BNode.mk y (some la) srs.ptr (some qa)).pRight = some sra →
      (∃ srn, h1.cell sra = some srn) ∧ sra ≠ S ∧ sra ≠ d := by
    intro sra e
    have hm := hsrs_P' sra (hsr sra e)
    obtain ⟨srn, hsrn⟩ := WF_live _ _ hwfr sra (hP_r sra (hP'_P sra hm))
    refine ⟨?_, hP'_S sra hm, fun e' => hdr (e' ▸ hP_r sra (hP'_P sra hm))⟩
    rw [c1, hsrn]; simp
  obtain ⟨h2, e2, c2⟩ := spliceDetach_cells hd1 hS1 hq1 hra1 rfl rfl hsr1 hraS hdS
    (Ne.symm hqd)
  have hsd : ¬ (some d = srs.ptr) := fun e => (hsr1 d e.symm).2.2 rfl
  have hsS : ¬ (some S = srs.ptr) := fun e => (hsr1 S e.symm).2.1 rfl
  have hd2 : h2.cell d = some (BNode.mk x (some la) (some ra) par) := by
    rw [c2, hd1]; simp [hdS, Ne.symm hqd, Ne.symm hrad, hsd]
  have hS2 : h2.cell S = some (BNode.mk y (some la) (some ra) (some qa)) := by
    rw [c2, hS1]; simp [Ne.symm hqS, Ne.symm hraS, hsS]
  have hp2 : ∀ p, (BNode.mk x (some la) (some ra) par).pParent = some p →
      ∃ pn, h2.cell p = some pn := by
    intro p hp
    obtain ⟨pn, hpn⟩ := (hpar p hp).2
    rw [c2, c1, hpn]
    simp
  obtain ⟨h3, e3, c3⟩ := spliceParent_cells hd2 hS2 hdS (fun e => hpd e.symm) hp2
  -- the cells of the final heap, away from the parent of the erased node
  have hcomp : ∀ a n, h.cell a = some n → ¬ (some a = par) →
      h3.cell a = some (BNode.mk n.data
        (if a = qa then srs.ptr else if a = S then some la else n.pLeft)
        (if a = S then some ra else n.pRight)
        (if a = S then par else if a = ra then some S else if some a = srs.ptr then some qa
          else if a = la then some S else n.pParent)) := by
    intro a n hn hp
    rw [c3, c2, c1, hn]
    simp only [Option.map_some', hp, false_and, if_false]
  refine ⟨h3, ?_, ⟨?_, ⟨?_, ?_, ?_⟩, ?_, ?_, ?_⟩, ?_, ?_⟩
  · simp only [eraseSplice, deref_of_cell hd, Except.ok_bind, hlm, e1, e2, e3]
    rfl
  · -- the successor, now in the place of the erased node
    rw [hcomp S _ hS (hparn S (hin_r S (hP_r S hS_P)))]
    simp [Shape.ptr, Ne.symm hqS]
  · -- the root of the left subtree
    rw [hcomp la _ hla (hparn la (hin_l la hla_l))]
    have h1 : ¬ (some la = srs.ptr) := fun e =>
      hlr la hla_l (hP_r la (hP'_P la (hsrs_P' la (hsr la e.symm))))
    simp [hlaq, hlaS, hlara, h1]
  · apply WF_frame _ _ hwll
    intro b hb n hn
    have hbl : b ∈ (Shape.node ll la lx lr).addrs := by simp [Shape.addrs, hb]
    have b1 : b ≠ qa := fun e => hlr b hbl (e ▸ hq_r)
    have b2 : b ≠ S := fun e => hlr b hbl (e ▸ hP_r S hS_P)
    have b3 : b ≠ ra := fun e => hlr b hbl (e ▸ hra_r)
    have b4 : ¬ (some b = srs.ptr) := fun e =>
      hlr b hbl (hP_r b (hP'_P b (hsrs_P' b (hsr b e.symm))))
    have b5 : b ≠ la := fun e => hlall (e ▸ hb)
    rw [hcomp b n hn (hparn b (hin_l b hbl))]
    simp [b1, b2, b3, b4, b5]
  · apply WF_frame _ _ hwlr
    intro b hb n hn
    have hbl : b ∈ (Shape.node ll la lx lr).addrs := by simp [Shape.addrs, hb]
    have b1 : b ≠ qa := fun e => hlr b hbl (e ▸ hq_r)
    have b2 : b ≠ S := fun e => hlr b hbl (e ▸ hP_r S hS_P)
    have b3 : b ≠ ra := fun e => hlr b hbl (e ▸ hra_r)
    have b4 : ¬ (some b = srs.ptr) := fun e =>
      hlr b hbl (hP_r b (hP'_P b (hsrs_P' b (hsr b e.symm))))
    have b5 : b ≠ la := fun e => hlalr (e ▸ hb)
    rw [hcomp b n hn (hparn b (hin_l b hbl))]
    simp [b1, b2, b3, b4, b5]
  · -- the top of the spine
    rw [hcomp ra _ hra (hparn ra (hin_r ra hra_r))]
    have h1 : ¬ (some ra = srs.ptr) := fun e =>
      hraP (hP'_P ra (hsrs_P' ra (hsr ra e.symm)))
    simp only [hraS, if_false, if_true, h1]
    rcases ptr_plugL fs (Shape.node .nil S y srs) srs with ⟨hnil, _⟩ | ⟨hne, hpe, b, hb, hm⟩
    · subst hnil
      simp only [spineParent, Option.some.injEq] at hqa
      simp [hqa, plugL]
    · have h2 : ra ≠ qa := by
        rcases hqmem with e | hm'
        · rcases spineParent_cases (some ra) fs with ⟨hnil, _⟩ | ⟨_, b', e', hm''⟩
          · exact absurd hnil hne
          · rw [e'] at hqa
            simp only [Option.some.injEq] at hqa
            intro _
            apply hraP
            rw [hPaddrs]
            apply List.mem_cons_of_mem
            apply List.mem_append_right
            rw [e, ← hqa] at *
            exact hm''
        · exact fun e => hraP (e ▸ hP'_P qa hm')
      simp [h2, hpe]
  · -- the spine below its top, with the successor removed
    apply WF_detach S y srs fs (some ra) hwsp
    · rw [hPaddrs]; exact hndP
    · intro p hp
      simp only [Option.some.injEq] at hp
      exact hp ▸ hraP
    · intro b hb n hn
      have hbr := hP_r b (hP'_P b hb)
      have b2 : b ≠ S := hP'_S b hb
      have b3 : b ≠ ra := fun e => hraP (e ▸ hP'_P b hb)
      have b5 : b ≠ la := fun e => hlr la hla_l (e ▸ hbr)
      rw [hcomp b n hn (hparn b (hin_r b hbr)), hqa]
      simp [b2, b3, b5]
  · apply WF_frame _ _ hwrrs
    intro b hb n hn
    have hbr : b ∈ (Shape.node (plugL fs (.node .nil S y srs)) ra rx rrs).addrs := by
      simp [Shape.addrs, hb]
    have b1 : b ≠ qa := by
      rcases hqmem with e | hm
      · exact fun e' => hrarrs (e ▸ e' ▸ hb)
      · exact fun e' => hPrrs qa (hP'_P qa hm) (e' ▸ hb)
    have b2 : b ≠ S := fun e => hPrrs S hS_P (e ▸ hb)
    have b3 : b ≠ ra := fun e => hrarrs (e ▸ hb)
    have b4 : ¬ (some b = srs.ptr) := fun e =>
      hPrrs b (hP'_P b (hsrs_P' b (hsr b e.symm))) hb
    have b5 : b ≠ la := fun e => hlr la hla_l (e ▸ hbr)
    rw [hcomp b n hn (hparn b (hin_r b hbr))]
    simp [b1, b2, b3, b4, b5]
  · rw [hcomp d _ hd hpd, hd]
    simp [Ne.symm hqd, hdS, Ne.symm hrad, hsd, Ne.symm hlad]
  · intro a ha n hn
    have a1 : a ≠ S := fun e => ha (e ▸ hin_r S (hP_r S hS_P))
    have a2 : a ≠ la := fun e => ha (e ▸ hin_l la hla_l)
    have a3 : a ≠ qa := fun e => ha (e ▸ hin_r qa hq_r)
    have a4 : a ≠ ra := fun e => ha (e ▸ hin_r ra hra_r)
    have a5 : ¬ (some a = srs.ptr) := fun e =>
      ha (hin_r a (hP_r a (hP'_P a (hsrs_P' a (hsr a e.symm)))))
    rw [c3, c2, c1, hn]
    simp [a1, a2, a3, a4, a5]

/-- The two-children splice: the erased node `d` has the non-empty left subtree
`l`, and its right subtree is a left spine down to the successor `S`, whose
right subtree is `srs`. -/
theorem eraseSplice_spec {h : Heap T} (root par : Option Nat) (fuel d : Nat) (x : T)
    (ll : Shape T) (la : Nat) (lx : T) (lr : Shape T) (fs : List (Nat × T × Shape T))
    (S : Nat) (y : T) (srs : Shape T)
    (hwf : WF h par (.node (.node ll la lx lr) d x (plugL fs (.node .nil S y srs))))
    (hnd : (Shape.node (.node ll la lx lr) d x (plugL fs (.node .nil S y srs))).addrs.Nodup)
    (hpar : ∀ p, par = some p →
      p ∉ (Shape.node (.node ll la lx lr) d x (plugL fs (.node .nil S y srs))).addrs ∧
        ∃ pn, h.cell p = some pn)
    (hfuel : fs.length < fuel) :
    ∃ h', eraseSplice fuel h root d = .ok (h', (if root = some d then some S else root), S) ∧
      WF h' par (.node (.node ll la lx lr) S y (plugL fs srs)) ∧
      h'.cell d = h.cell d ∧
      ∀ a, a ∉ (Shape.node (.node ll la lx lr) d x (plugL fs (.node .nil S y srs))).addrs →
        ∀ n, h.cell a = some n →
        h'.cell a = some (BNode.mk n.data
          (if some a = par ∧ n.pLeft = some d then some S else n.pLeft)
          (if some a = par ∧ n.pRight = some d then some S else n.pRight) n.pParent) := by
  cases fs with
  | nil =>
    exact eraseSplice_child root par fuel d x ll la lx lr S y srs hwf hnd hpar
      (by simpa using hfuel)
  | cons f fs =>
    obtain ⟨ra, rx, rrs⟩ := f
    exact eraseSplice_deep root par fuel d x ll la lx lr ra rx rrs fs S y srs hwf hnd hpar
      (by simpa using hfuel)

/-! ## In-order sequences and the order invariant -/

/-- Filtering out the address of one entry of a list of nodes with distinct
addresses removes exactly that entry. -/
theorem filter_remove (A B : List (Nat × T)) (d : Nat) (x : T)
    (hnd : ((A ++ (d, x) :: B).map Prod.fst).Nodup) :
    (A ++ (d, x) :: B).filter (fun p => decide (p.1 ≠ d)) = A ++ B := by
  simp only [List.map_append, List.map_cons, List.nodup_append, List.nodup_cons,
    List.Disjoint, List.mem_cons] at hnd
  obtain ⟨_, ⟨hdB, _⟩, hdis⟩ := hnd
  have hA : ∀ p ∈ A, decide (p.1 ≠ d) = true := by
    intro p hp
    simp only [ne_eq, decide_eq_true_eq]
    intro e
    exact hdis (List.mem_map_of_mem Prod.fst hp) (Or.inl e)
  have hB : ∀ p ∈ B, decide (p.1 ≠ d) = true := by
    intro p hp
    simp only [ne_eq, decide_eq_true_eq]
    intro e
    exact hdB (e ▸ List.mem_map_of_mem Prod.fst hp)
  rw [List.filter_append, List.filter_cons]
  simp only [ne_eq, not_true_eq_false, decide_False, Bool.false_eq_true, if_false]
  rw [List.filter_eq_self.mpr hA, List.filter_eq_self.mpr hB]

theorem Ordered_plug_hole [LinearOrder T] (t : Shape T) :
    ∀ (c : Ctx T), Ordered (c.plug t) → Ordered t := by
  intro c
  induction c with
  | hole => exact id
  | left c a x r ih => exact fun ho => ih ho.2.2.1
  | right l a x c ih => exact fun ho => ih ho.2.2.2

theorem elems_plug (c : Ctx T) (t : Shape T) :
    (c.plug t).elems = c.inorderL.map Prod.snd ++ t.elems ++ c.inorderR.map Prod.snd := by
  simp [elems_eq_map, inorder_plug]

theorem elems_plugL (fs : List (Nat × T × Shape T)) (t : Shape T) :
    (plugL fs t).elems = t.elems ++ (spineInorder fs).map Prod.snd := by
  simp [elems_eq_map, inorder_plugL]

/-- The order invariant survives the replacement of the subtree in the hole by
an ordered subtree whose elements are among those of the old one. -/
theorem Ordered_plug_replace [LinearOrder T] (t t' : Shape T) (ho' : Ordered t')
    (hsub : ∀ e ∈ t'.elems, e ∈ t.elems) :
    ∀ (c : Ctx T), Ordered (c.plug t) → Ordered (c.plug t') := by
  intro c
  induction c with
  | hole => exact fun _ => ho'
  | left c a x r ih =>
    intro ho
    obtain ⟨h1, h2, h3, h4⟩ := ho
    refine ⟨?_, h2, ih h3, h4⟩
    intro e he
    apply h1
    rw [elems_plug] at he ⊢
    simp only [List.mem_append] at he ⊢
    rcases he with (he | he) | he
    · exact Or.inl (Or.inl he)
    · exact Or.inl (Or.inr (hsub e he))
    · exact Or.inr he
  | right l a x c ih =>
    intro ho
    obtain ⟨h1, h2, h3, h4⟩ := ho
    refine ⟨h1, ?_, h3, ih h4⟩
    intro e he
    apply h2
    rw [elems_plug] at he ⊢
    simp only [List.mem_append] at he ⊢
    rcases he with (he | he) | he
    · exact Or.inl (Or.inl he)
    · exact Or.inl (Or.inr (hsub e he))
    · exact Or.inr he

/-- In an ordered spine every element of the spine is at least the element at
its bottom. -/
theorem Ordered_spine_ge [LinearOrder T] (S : Nat) (y : T) (srs : Shape T) :
    ∀ (fs : List (Nat × T × Shape T)), Ordered (plugL fs (.node .nil S y srs)) →
      ∀ e ∈ (spineInorder fs).map Prod.snd, y ≤ e := by
  intro fs
  induction fs with
  | nil => intro _ e he; simp [spineInorder] at he
  | cons f fs ih =>
    intro ho e he
    obtain ⟨h1, h2, h3, _⟩ := ho
    have hy : y < f.2.1 := by
      apply h1
      rw [elems_plugL]
      simp [Shape.elems]
    simp only [spineInorder, List.map_append, List.map_cons, List.mem_append,
      List.mem_cons] at he
    rcases he with he | he | he
    · exact ih h3 e he
    · exact he ▸ le_of_lt hy
    · exact le_trans (le_of_lt hy) (h2 e (by rw [elems_eq_map]; exact he))

/-- An ordered spine stays ordered when its bottom node is replaced by that
node's right subtree. -/
theorem Ordered_spine_detach [LinearOrder T] (S : Nat) (y : T) (srs : Shape T) :
    ∀ (fs : List (Nat × T × Shape T)), Ordered (plugL fs (.node .nil S y srs)) →
      Ordered (plugL fs srs) := by
  intro fs
  induction fs with
  | nil => exact fun ho => ho.2.2.2
  | cons f fs ih =>
    intro ho
    obtain ⟨h1, h2, h3, h4⟩ := ho
    refine ⟨?_, h2, ih h3, h4⟩
    intro e he
    apply h1
    rw [elems_plugL] at he ⊢
    simp only [Shape.elems, List.nil_append, List.mem_append, List.mem_cons] at he ⊢
    rcases he with he | he
    · exact Or.inl (Or.inr he)
    · exact Or.inr he

/-- The order invariant at the erased node: the successor takes its place. -/
theorem Ordered_splice [LinearOrder T] (l : Shape T) (d : Nat) (x : T)
    (fs : List (Nat × T × Shape T)) (S : Nat) (y : T) (srs : Shape T)
    (ho : Ordered (.node l d x (plugL fs (.node .nil S y srs)))) :
    Ordered (.node l S y (plugL fs srs)) := by
  obtain ⟨h1, h2, h3, h4⟩ := ho
  have hxy : x ≤ y := by
    apply h2
    rw [elems_plugL]
    simp [Shape.elems]
  have hbot : Ordered (Shape.node .nil S y srs) := by
    have : ∀ (gs : List (Nat × T × Shape T)), Ordered (plugL gs (Shape.node .nil S y srs)) →
        Ordered (Shape.node .nil S y srs) := by
      intro gs
      induction gs with
      | nil => exact id
      | cons g gs ih => exact fun ho => ih ho.2.2.1
    exact this fs h4
  refine ⟨fun e he => lt_of_lt_of_le (h1 e he) hxy, ?_, h3, Ordered_spine_detach S y srs fs h4⟩
  intro e he
  rw [elems_plugL] at he
  simp only [List.mem_append] at he
  rcases he with he | he
  · exact hbot.2.1 e he
  · exact Ordered_spine_ge S y srs fs h4 e he

/-- The in-order sequence after the splice is the old one without the erased
node. -/
theorem inorder_splice (c : Ctx T) (l : Shape T) (d : Nat) (x : T)
    (fs : List (Nat × T × Shape T)) (S : Nat) (y : T) (srs : Shape T)
    (hnd : (c.plug (.node l d x (plugL fs (.node .nil S y srs)))).addrs.Nodup) :
    (c.plug (.node l S y (plugL fs srs))).inorder
      = (c.plug (.node l d x (plugL fs (.node .nil S y srs)))).inorder.filter
          (fun p => decide (p.1 ≠ d)) := by
  have e0 : (c.plug (.node l d x (plugL fs (.node .nil S y srs)))).inorder
      = (c.inorderL ++ l.inorder) ++ (d, x) ::
          (((S, y) :: (srs.inorder ++ spineInorder fs)) ++ c.inorderR) := by
    simp [inorder_plug, inorder_plugL, Shape.inorder]
  have e1 : (c.plug (.node l S y (plugL fs srs))).inorder
      = (c.inorderL ++ l.inorder) ++
          (((S, y) :: (srs.inorder ++ spineInorder fs)) ++ c.inorderR) := by
    simp [inorder_plug, inorder_plugL, Shape.inorder]
  rw [addrs_eq_map, e0] at hnd
  rw [e0, e1, filter_remove _ _ d x hnd]

theorem ptr_plugL_node (fs : List (Nat × T × Shape T)) (S : Nat) (y : T) (srs : Shape T) :
    ∃ ra, (plugL fs (.node .nil S y srs)).ptr = some ra := by
  cases fs with
  | nil => exact ⟨S, rfl⟩
  | cons f fs => exact ⟨f.1, rfl⟩

/-- The two-children case of `erase`, for a tree given by the context of the
erased node, its left subtree and the left spine from its right child down to
the successor. -/
theorem erase_splice_plug [LinearOrder T] (fuel : Nat) (h : Heap T) (b : BST) (c : Ctx T)
    (ll : Shape T) (la : Nat) (lx : T) (lr : Shape T) (d : Nat) (x : T)
    (fs : List (Nat × T × Shape T)) (S : Nat) (y : T) (srs : Shape T)
    (hroot : b.root = (c.plug (.node (.node ll la lx lr) d x
      (plugL fs (.node .nil S y srs)))).ptr)
    (hwf : WF h none (c.plug (.node (.node ll la lx lr) d x (plugL fs (.node .nil S y srs)))))
    (hnd : (c.plug (.node (.node ll la lx lr) d x
      (plugL fs (.node .nil S y srs)))).addrs.Nodup)
    (hfuel : fs.length < fuel) :
    ∃ h', erase fuel h b (some d)
        = .ok (h', BST.mk (c.plug (.node (.node ll la lx lr) S y (plugL fs srs))).ptr
            ((b.numElements + sizeMod - 1) % sizeMod), some S) ∧
      WF h' none (c.plug (.node (.node ll la lx lr) S y (plugL fs srs))) ∧
      (c.plug (.node (.node ll la lx lr) S y (plugL fs srs))).addrs.Nodup ∧
      (c.plug (.node (.node ll la lx lr) S y (plugL fs srs))).inorder
        = (c.plug (.node (.node ll la lx lr) d x (plugL fs (.node .nil S y srs)))).inorder.filter
            (fun p => decide (p.1 ≠ d)) ∧
      h'.cell d = none ∧
      (Ordered (c.plug (.node (.node ll la lx lr) d x (plugL fs (.node .nil S y srs)))) →
        Ordered (c.plug (.node (.node ll la lx lr) S y (plugL fs srs)))) := by
  have hin := inorder_splice c (.node ll la lx lr) d x fs S y srs hnd
  -- the erased node and its subtrees, below the hole of the context
  have hloc := WF_plug_hole _ c none hwf
  have hd := hloc.1
  have hndloc : (Shape.node (.node ll la lx lr) d x
      (plugL fs (.node .nil S y srs))).addrs.Nodup := by
    have := hnd
    rw [addrs_plug] at this
    exact (List.nodup_append.mp (List.nodup_append.mp this).1).2.1
  have hctx : ∀ a, a ∈ c.inorderL.map Prod.fst ∨ a ∈ c.inorderR.map Prod.fst →
      a ∉ (Shape.node (.node ll la lx lr) d x (plugL fs (.node .nil S y srs))).addrs ∧
        ∃ n, h.cell a = some n := by
    intro a ha
    have hm : a ∈ (c.plug (.node (.node ll la lx lr) d x
        (plugL fs (.node .nil S y srs)))).addrs := by
      rw [addrs_plug]
      simp only [List.mem_append]
      rcases ha with ha | ha
      · exact Or.inl (Or.inl ha)
      · exact Or.inr ha
    refine ⟨?_, WF_live _ _ hwf a hm⟩
    intro hin'
    have := hnd
    rw [addrs_plug] at this
    simp only [List.nodup_append, List.Disjoint, List.mem_append] at this
    rcases ha with ha | ha
    · exact this.1.2.2 ha hin'
    · exact this.2.2 (Or.inr hin') ha
  have hpar : ∀ p, c.holeParent none = some p →
      p ∉ (Shape.node (.node ll la lx lr) d x (plugL fs (.node .nil S y srs))).addrs ∧
        ∃ pn, h.cell p = some pn := by
    intro p hp
    rcases holeParent_cases none c with ⟨_, e⟩ | ⟨_, q, e, hm⟩
    · rw [e] at hp; simp at hp
    · rw [e] at hp
      simp only [Option.some.injEq] at hp
      exact hp ▸ hctx q hm
  obtain ⟨h3, e3, hwf3, hcd, hout⟩ := eraseSplice_spec b.root (c.holeParent none) fuel d x
    ll la lx lr fs S y srs hloc hndloc hpar hfuel
  have hwf3' : WF h3 none (c.plug (.node (.node ll la lx lr) S y (plugL fs srs))) :=
    WF_plug_replace d S (.node (.node ll la lx lr) d x (plugL fs (.node .nil S y srs)))
      (.node (.node ll la lx lr) S y (plugL fs srs)) rfl rfl c none hwf hnd hwf3
      (fun a ha n hn => hout a (hctx a ha).1 n hn)
  -- the new in-order sequence does not hold the erased node
  have haddrs : ∀ a ∈ (c.plug (.node (.node ll la lx lr) S y (plugL fs srs))).addrs, a ≠ d := by
    intro a ha
    rw [addrs_eq_map, hin] at ha
    obtain ⟨p, hp, e⟩ := List.mem_map.mp ha
    have := (List.mem_filter.mp hp).2
    simp only [ne_eq, decide_eq_true_eq] at this
    exact e ▸ this
  have hd3 : h3.cell d = some (BNode.mk x (some la)
      (plugL fs (.node .nil S y srs)).ptr (c.holeParent none)) := by rw [hcd]; exact hd
  refine ⟨List.set h3 d none, ?_, ?_, ?_, hin, ?_, ?_⟩
  · -- the run of `erase`
    obtain ⟨ra, hra⟩ := ptr_plugL_node fs S y srs
    have hroot' : (if b.root = some d then some S else b.root)
        = (c.plug (.node (.node ll la lx lr) S y (plugL fs srs))).ptr := by
      rcases ptr_plug c (.node (.node ll la lx lr) d x (plugL fs (.node .nil S y srs)))
        (.node (.node ll la lx lr) S y (plugL fs srs)) with ⟨hhole, hp⟩ | ⟨_, hpe, q, hq, hm⟩
      · subst hhole
        simp [hroot, Ctx.plug, Shape.ptr]
      · rw [hroot, ← hpe, hq]
        have : q ≠ d := fun e => (hctx q hm).1 (by simp [Shape.addrs, e])
        simp [this]
    have hd' : h.cell d = some (BNode.mk x (some la) (some ra) (c.holeParent none)) := by
      rw [← hra]; exact hd
    simp only [erase, deref_of_cell hd', Except.ok_bind, e3, Heap.free, hd3, hroot',
      Except.pure_eq, reduceCtorEq, if_false]
  · apply WF_frame _ _ hwf3'
    intro a ha n hn
    rw [cell_set_of_cell hd3]
    simp [haddrs a ha, hn]
  · rw [addrs_eq_map, hin]
    rw [addrs_eq_map] at hnd
    exact (List.filter_sublist _).map Prod.fst |>.nodup hnd
  · rw [cell_set_of_cell hd3]
    simp
  · intro ho
    apply Ordered_plug_replace _ _ (Ordered_splice _ d x fs S y srs (Ordered_plug_hole _ c ho))
      _ c ho
    intro e he
    simp only [Shape.elems, elems_plugL, List.mem_append, List.mem_cons, List.nil_append]
      at he ⊢
    rcases he with he | he | he | he
    · exact Or.inl he
    · exact Or.inr (Or.inr (Or.inl (Or.inl he)))
    · exact Or.inr (Or.inr (Or.inl (Or.inr he)))
    · exact Or.inr (Or.inr (Or.inr he))

/-- Every node of a shape is the root of a subtree in the hole of a context. -/
theorem exists_ctx_of_mem : ∀ (s : Shape T) (d : Nat), d ∈ s.addrs →
    ∃ (c : Ctx T) (l : Shape T) (x : T) (r : Shape T), s = c.plug (.node l d x r) := by
  intro s
  induction s with
  | nil => intro d hd; simp [Shape.addrs] at hd
  | node l a x r ihl ihr =>
    intro d hd
    simp only [Shape.addrs, List.mem_append, List.mem_cons] at hd
    rcases hd with hd | hd | hd
    · obtain ⟨c, l', x', r', e⟩ := ihl d hd
      exact ⟨.left c a x r, l', x', r', by rw [e]; rfl⟩
    · exact ⟨.hole, l, x, r, by rw [hd]; rfl⟩
    · obtain ⟨c, l', x', r', e⟩ := ihr d hd
      exact ⟨.right l a x c, l', x', r', by rw [e]; rfl⟩

/-- Every non-empty shape is a left spine down to a node with no left child. -/
theorem exists_spine : ∀ (r : Shape T), r ≠ .nil →
    ∃ (fs : List (Nat × T × Shape T)) (S : Nat) (y : T) (srs : Shape T),
      r = plugL fs (.node .nil S y srs) := by
  intro r
  induction r with
  | nil => intro hr; exact absurd rfl hr
  | node l a x r ihl _ =>
    intro _
    cases l with
    | nil => exact ⟨[], a, x, r, rfl⟩
    | node ll la lx lr =>
      obtain ⟨fs, S, y, srs, e⟩ := ihl (by simp)
      exact ⟨(a, x, r) :: fs, S, y, srs, by rw [e]; rfl⟩

theorem height_plug_ge (t : Shape T) : ∀ (c : Ctx T), t.height ≤ (c.plug t).height := by
  intro c
  induction c with
  | hole => exact le_refl _
  | left c a x r ih =>
    simp only [Ctx.plug, Shape.height]
    omega
  | right l a x c ih =>
    simp only [Ctx.plug, Shape.height]
    omega

theorem height_plugL_ge (t : Shape T) :
    ∀ (fs : List (Nat × T × Shape T)), fs.length + t.height ≤ (plugL fs t).height := by
  intro fs
  induction fs with
  | nil => simp [plugL]
  | cons f fs ih =>
    simp only [plugL, Shape.height, List.length_cons]
    omega

theorem ptr_eq_none {s : Shape T} (hs : s.ptr = none) : s = .nil := by
  cases s with
  | nil => rfl
  | node l a x r => simp [Shape.ptr] at hs

/-! ## Begin -/

theorem WF_Rep {h : Heap T} : ∀ (s : Shape T) (par : Option Nat), WF h par s → Rep h s := by
  intro s
  induction s with
  | nil => intros; trivial
  | node l a x r ihl ihr =>
    intro par hwf
    exact ⟨⟨par, hwf.1⟩, ihl _ hwf.2.1, ihr _ hwf.2.2⟩

/-- The loop `leftmost` run from the top of a spine stops at the node at its
bottom that has no left child; only the child links are used. -/
theorem leftmost_spine {h : Heap T} (S : Nat) (y : T) (srs : Shape T) :
    ∀ (fs : List (Nat × T × Shape T)) (fuel ra : Nat),
      Rep h (plugL fs (.node .nil S y srs)) →
      (plugL fs (.node .nil S y srs)).ptr = some ra → fs.length < fuel →
      leftmost fuel h ra = .ok S := by
  intro fs
  induction fs with
  | nil =>
    intro fuel ra hrep hp hf
    cases fuel with
    | zero => simp at hf
    | succ k =>
      simp only [plugL, Shape.ptr, Option.some.injEq] at hp
      subst hp
      obtain ⟨⟨pp, hc⟩, _, _⟩ := hrep
      simp only [leftmost, deref_of_cell hc, Except.ok_bind, Shape.ptr]
      rfl
  | cons f fs ih =>
    intro fuel ra hrep hp hf
    cases fuel with
    | zero => simp at hf
    | succ k =>
      simp only [plugL, Shape.ptr, Option.some.injEq] at hp
      subst hp
      obtain ⟨⟨pp, hc⟩, hl, _⟩ := hrep
      obtain ⟨b, hb⟩ := ptr_plugL_node fs S y srs
      simp only [leftmost, deref_of_cell hc, Except.ok_bind, hb]
      exact ih k b hl hb (by simpa using hf)

theorem Ordered_plugL_bottom [LinearOrder T] (t : Shape T) :
    ∀ (fs : List (Nat × T × Shape T)), Ordered (plugL fs t) → Ordered t := by
  intro fs
  induction fs with
  | nil => exact id
  | cons f fs ih => exact fun ho => ih ho.2.2.1

/-! ## Places and the release of a tree -/

theorem Rep_frame {h h' : Heap T} :
    ∀ (s : Shape T), Rep h s → (∀ a ∈ s.addrs, h'.cell a = h.cell a) → Rep h' s := by
  intro s
  induction s with
  | nil => intros; trivial
  | node l a x r ihl ihr =>
    intro hrep hcells
    obtain ⟨⟨pp, hc⟩, hl, hr⟩ := hrep
    refine ⟨⟨pp, ?_⟩, ?_, ?_⟩
    · rw [hcells a (by simp [Shape.addrs]), hc]
    · exact ihl hl (fun b hb => hcells b (by simp [Shape.addrs, hb]))
    · exact ihr hr (fun b hb => hcells b (by simp [Shape.addrs, hb]))

/-- Reading a place only looks at the node whose link it is. -/
theorem Loc.read_congr {h h' : Heap T} (root : Option Nat) (loc : Loc)
    (hc : ∀ b, loc.addr = some b → h'.cell b = h.cell b) :
    loc.read h' root = loc.read h root := by
  cases loc with
  | root => rfl
  | left b => simp only [Loc.read, Heap.deref, hc b rfl]
  | right b => simp only [Loc.read, Heap.deref, hc b rfl]

/-- A place away from address `a` leaves the cell at `a` as it is. -/
theorem Loc.set_of_ne (loc : Loc) (v : Option Nat) (a : Nat) (n : BNode T)
    (hne : loc.addr ≠ some a) : loc.set v a n = n := by
  cases loc with
  | root => rfl
  | left b =>
    have : a ≠ b := fun e => hne (by simp [Loc.addr, e])
    simp [Loc.set, this]
  | right b =>
    have : a ≠ b := fun e => hne (by simp [Loc.addr, e])
    simp [Loc.set, this]

/-- What `Loc.write` does to every cell and to the `root` member. -/
theorem Loc.write_cells {h : Heap T} {root p : Option Nat} {loc : Loc}
    (hread : loc.read h root = .ok p) (v : Option Nat) :
    ∃ h', loc.write h root v = .ok (h', loc.newRoot root v) ∧
      ∀ a, h'.cell a = (h.cell a).map (loc.set v a) := by
  cases loc with
  | root =>
    refine ⟨h, rfl, ?_⟩
    intro a
    cases h.cell a <;> rfl
  | left b =>
    cases hb : h.cell b with
    | none => simp [Loc.read, Heap.deref, hb, bind, Except.bind] at hread
    | some n =>
      obtain ⟨h', e, c⟩ := modify_cells hb (fun n => { n with pLeft := v })
      refine ⟨h', ?_, ?_⟩
      · simp only [Loc.write, e, Except.ok_bind]
        rfl
      · intro a
        rw [c]
        rfl
  | right b =>
    cases hb : h.cell b with
    | none => simp [Loc.read, Heap.deref, hb, bind, Except.bind] at hread
    | some n =>
      obtain ⟨h', e, c⟩ := modify_cells hb (fun n => { n with pRight := v })
      refine ⟨h', ?_, ?_⟩
      · simp only [Loc.write, e, Except.ok_bind]
        rfl
      · intro a
        rw [c]
        rfl

/-- Assigning to a place the pointer it holds changes no cell. -/
theorem Loc.set_of_read {h : Heap T} {root p : Option Nat} {loc : Loc}
    (hread : loc.read h root = .ok p) (a : Nat) :
    (h.cell a).map (loc.set p a) = h.cell a := by
  cases loc with
  | root => cases h.cell a <;> rfl
  | left b =>
    by_cases hab : a = b
    · subst hab
      cases hb : h.cell a with
      | none => rfl
      | some n =>
        simp only [Loc.read, deref_of_cell hb, Except.ok_bind, Except.pure_eq,
          Except.ok.injEq] at hread
        simp [Loc.set, ← hread]
    · cases h.cell a <;> simp [Loc.set, hab]
  | right b =>
    by_cases hab : a = b
    · subst hab
      cases hb : h.cell a with
      | none => rfl
      | some n =>
        simp only [Loc.read, deref_of_cell hb, Except.ok_bind, Except.pure_eq,
          Except.ok.injEq] at hread
        simp [Loc.set, ← hread]
    · cases h.cell a <;> simp [Loc.set, hab]

theorem Loc.newRoot_of_read {h : Heap T} {root p : Option Nat} {loc : Loc}
    (hread : loc.read h root = .ok p) : loc.newRoot root p = root := by
  cases loc with
  | root =>
    simp only [Loc.read, Except.pure_eq, Except.ok.injEq] at hread
    simp [Loc.newRoot, hread]
  | left b => rfl
  | right b => rfl

theorem Loc.read_left {h : Heap T} {a : Nat} {n : BNode T} (root : Option Nat)
    (hc : h.cell a = some n) : (Loc.left a).read h root = .ok n.pLeft := by
  simp only [Loc.read, deref_of_cell hc, Except.ok_bind]
  rfl

theorem Loc.read_right {h : Heap T} {a : Nat} {n : BNode T} (root : Option Nat)
    (hc : h.cell a = some n) : (Loc.right a).read h root = .ok n.pRight := by
  simp only [Loc.read, deref_of_cell hc, Except.ok_bind]
  rfl

/-- `deleteBinaryTree` on a place that holds a tree of distinct nodes releases
every node of the tree, nulls the place and touches nothing else. -/
theorem deleteBinaryTree_spec :
    ∀ (s : Shape T) (fuel : Nat) (h : Heap T) (root : Option Nat) (loc : Loc),
      loc.read h root = .ok s.ptr → Rep h s → s.addrs.Nodup →
      (∀ b, loc.addr = some b → b ∉ s.addrs) → s.height < fuel →
      ∃ h', deleteBinaryTree fuel h root loc = .ok (h', loc.newRoot root none) ∧
        ∀ a, h'.cell a = if a ∈ s.addrs then none else (h.cell a).map (loc.set none a) := by
  intro s
  induction s with
  | nil =>
    intro fuel h root loc hread _ _ _ hf
    cases fuel with
    | zero => simp [Shape.height] at hf
    | succ k =>
      have hread' : loc.read h root = .ok none := hread
      refine ⟨h, ?_, ?_⟩
      · simp only [deleteBinaryTree, hread', Except.ok_bind, Loc.newRoot_of_read hread']
        rfl
      · intro a
        simp only [Shape.addrs, List.not_mem_nil, if_false]
        exact (Loc.set_of_read hread' a).symm
  | node l a0 x r ihl ihr =>
    intro fuel h root loc hread hrep hnd hloc hf
    cases fuel with
    | zero => simp at hf
    | succ k =>
      have hread' : loc.read h root = .ok (some a0) := hread
      obtain ⟨⟨pp, hc⟩, hrl, hrr⟩ := hrep
      obtain ⟨hndl, hndr, hal, har, hlr⟩ := nodup_node.mp hnd
      simp only [Shape.height] at hf
      have hlocne : loc.addr ≠ some a0 := fun e => hloc a0 e (by simp [Shape.addrs])
      -- the left subtree
      obtain ⟨h1, e1, c1⟩ := ihl k h root (.left a0) (Loc.read_left root hc) hrl hndl
        (fun b hb => by simp only [Loc.addr, Option.some.injEq] at hb; exact hb ▸ hal)
        (by omega)
      have hc1 : h1.cell a0 = some (BNode.mk x none r.ptr pp) := by
        rw [c1, if_neg hal, hc]; simp [Loc.set]
      have hloc1 : ∀ b, loc.addr = some b → h1.cell b = h.cell b := by
        intro b hb
        have hbl : b ∉ l.addrs := fun hm => hloc b hb (by simp [Shape.addrs, hm])
        have hba : b ≠ a0 := fun e => hlocne (e ▸ hb)
        rw [c1, if_neg hbl]
        cases h.cell b <;> simp [Loc.set, hba]
      have hread1 : loc.read h1 root = .ok (some a0) := by
        rw [Loc.read_congr root loc hloc1]; exact hread'
      -- the right subtree
      have hrr1 : Rep h1 r := by
        apply Rep_frame r hrr
        intro b hb
        have hbl : b ∉ l.addrs := fun hm => hlr b hm hb
        have hba : b ≠ a0 := fun e => har (e ▸ hb)
        rw [c1, if_neg hbl]
        cases h.cell b <;> simp [Loc.set, hba]
      obtain ⟨h2, e2, c2⟩ := ihr k h1 root (.right a0) (Loc.read_right root hc1) hrr1 hndr
        (fun b hb => by simp only [Loc.addr, Option.some.injEq] at hb; exact hb ▸ har)
        (by omega)
      have hc2 : h2.cell a0 = some (BNode.mk x none none pp) := by
        rw [c2, if_neg har, hc1]; simp [Loc.set]
      have hloc2 : ∀ b, loc.addr = some b → h2.cell b = h1.cell b := by
        intro b hb
        have hbr : b ∉ r.addrs := fun hm => hloc b hb (by simp [Shape.addrs, hm])
        have hba : b ≠ a0 := fun e => hlocne (e ▸ hb)
        rw [c2, if_neg hbr]
        cases h1.cell b <;> simp [Loc.set, hba]
      have hread2 : loc.read h2 root = .ok (some a0) := by
        rw [Loc.read_congr root loc hloc2]; exact hread1
      -- the node itself
      have hloc3 : ∀ b, loc.addr = some b → Heap.cell (List.set h2 a0 none) b = h2.cell b := by
        intro b hb
        have hba : b ≠ a0 := fun e => hlocne (e ▸ hb)
        rw [cell_set_of_cell hc2]
        simp [hba]
      have hread3 : loc.read (List.set h2 a0 none) root = .ok (some a0) := by
        rw [Loc.read_congr root loc hloc3]; exact hread2
      obtain ⟨h4, e4, c4⟩ := Loc.write_cells hread3 none
      refine ⟨h4, ?_, ?_⟩
      · simp only [deleteBinaryTree, hread', Except.ok_bind, Loc.leftOf, Loc.rightOf, e1,
          hread1, e2, hread2, Heap.free, hc2, e4, Loc.newRoot, Except.pure_eq]
      · intro a
        rw [c4, cell_set_of_cell hc2, c2, c1]
        simp only [Shape.addrs, List.mem_append, List.mem_cons]
        by_cases h1' : a ∈ l.addrs
        · by_cases h3' : a ∈ r.addrs <;> by_cases h2' : a = a0 <;> simp [h1', h2', h3']
        · by_cases h2' : a = a0
          · simp [h2']
          · by_cases h3' : a ∈ r.addrs
            · simp [h1', h2', h3']
            · simp only [h1', h2', h3', or_self, if_false]
              cases h.cell a <;> simp [Loc.set, h2']


/-- `clear` on a tree of distinct nodes, whose count is 0 when the root is
null, releases every node and leaves the empty tree object. -/
theorem clear_spec (fuel : Nat) (h : Heap T) (b : BST) (s : Shape T)
    (htree : IsTree h b s) (hnd : s.addrs.Nodup) (hcount : b.root = none → b.numElements = 0)
    (hfuel : s.height < fuel) :
    ∃ h', clear fuel h b = .ok (h', BST.mk none 0) ∧
      ∀ a, h'.cell a = if a ∈ s.addrs then none else h.cell a := by
  obtain ⟨hroot, hrep⟩ := htree
  cases s with
  | nil =>
    refine ⟨h, ?_, fun a => by simp [Shape.addrs]⟩
    have hb : b = BST.mk none 0 := by
      have hc := hcount hroot
      cases b with
      | mk rt ne =>
        simp only [Shape.ptr] at hroot hc
        simp only [hroot, hc]
    rw [hb]
    rfl
  | node l a0 x r =>
    have hroot' : b.root = some a0 := hroot
    have hread : Loc.root.read h b.root = .ok (Shape.node l a0 x r).ptr := by
      rw [hroot]; rfl
    obtain ⟨h', e, c⟩ := deleteBinaryTree_spec _ fuel h b.root .root hread hrep hnd
      (fun b hb => by simp [Loc.addr] at hb) hfuel
    refine ⟨h', ?_, ?_⟩
    · rw [hroot'] at e
      simp only [clear, hroot', e, Except.ok_bind, Loc.newRoot]
      rfl
    · intro a
      rw [c]
      cases h.cell a <;> simp [Loc.set]

theorem exampleHeap_WF : WF exampleHeap none exampleShape :=
  ⟨rfl, ⟨rfl, ⟨rfl, trivial, trivial⟩, ⟨rfl, trivial, trivial⟩⟩,
    ⟨rfl, ⟨rfl, trivial, trivial⟩, ⟨rfl, trivial, trivial⟩⟩⟩

theorem exampleShape_nodup : exampleShape.addrs.Nodup := by decide

/-! ## Paths to the root -/

theorem plugUp_append (fs gs : List (Step T)) (t : Shape T) :
    plugUp (fs ++ gs) t = plugUp gs (plugUp fs t) := by
  induction fs generalizing t with
  | nil => rfl
  | cons f fs ih => exact ih (f.fill t)

/-- Every context is a path, read from the hole up to the root. -/
theorem exists_path_of_ctx (c : Ctx T) : ∃ fs : List (Step T), ∀ t, c.plug t = plugUp fs t := by
  induction c with
  | hole => exact ⟨[], fun _ => rfl⟩
  | left c a x r ih =>
    obtain ⟨fs, hfs⟩ := ih
    refine ⟨fs ++ [Step.left a x r], fun t => ?_⟩
    rw [plugUp_append, ← hfs]
    rfl
  | right l a x c ih =>
    obtain ⟨fs, hfs⟩ := ih
    refine ⟨fs ++ [Step.right l a x], fun t => ?_⟩
    rw [plugUp_append, ← hfs]
    rfl

/-- Every node of a shape is the root of a subtree at the bottom of a path. -/
theorem exists_path_of_mem (s : Shape T) (d : Nat) (hd : d ∈ s.addrs) :
    ∃ (fs : List (Step T)) (l : Shape T) (x : T) (r : Shape T),
      s = plugUp fs (.node l d x r) := by
  obtain ⟨c, l, x, r, e⟩ := exists_ctx_of_mem s d hd
  obtain ⟨fs, hfs⟩ := exists_path_of_ctx c
  exact ⟨fs, l, x, r, by rw [e, hfs]⟩

theorem inorder_plugUp (fs : List (Step T)) (t : Shape T) :
    (plugUp fs t).inorder = upInorderL fs ++ t.inorder ++ upInorderR fs := by
  induction fs generalizing t with
  | nil => simp [plugUp, upInorderL, upInorderR]
  | cons f fs ih =>
    cases f with
    | left a x r => simp [plugUp, ih, Step.fill, Shape.inorder, upInorderL, upInorderR]
    | right l a x => simp [plugUp, ih, Step.fill, Shape.inorder, upInorderL, upInorderR]

theorem addrs_plugUp (fs : List (Step T)) (t : Shape T) :
    (plugUp fs t).addrs
      = (upInorderL fs).map Prod.fst ++ t.addrs ++ (upInorderR fs).map Prod.fst := by
  simp [addrs_eq_map, inorder_plugUp]

theorem WF_plugUp_hole {h : Heap T} (par : Option Nat) :
    ∀ (fs : List (Step T)) (t : Shape T), WF h par (plugUp fs t) → WF h (upParent par fs) t := by
  intro fs
  induction fs with
  | nil => intro t hwf; exact hwf
  | cons f fs ih =>
    intro t hwf
    have := ih (f.fill t) hwf
    cases f with
    | left a x r => exact this.2.1
    | right l a x => exact this.2.2

theorem nodup_plugUp_hole :
    ∀ (fs : List (Step T)) (t : Shape T), (plugUp fs t).addrs.Nodup → t.addrs.Nodup := by
  intro fs
  induction fs with
  | nil => intro t hnd; exact hnd
  | cons f fs ih =>
    intro t hnd
    have := ih (f.fill t) hnd
    cases f with
    | left a x r => exact (nodup_node.mp this).1
    | right l a x => exact (nodup_node.mp this).2.1

theorem height_plugUp_ge (t : Shape T) :
    ∀ (fs : List (Step T)), fs.length + t.height ≤ (plugUp fs t).height := by
  intro fs
  induction fs generalizing t with
  | nil => simp [plugUp]
  | cons f fs ih =>
    have := ih (f.fill t)
    cases f with
    | left a x r =>
      simp only [Step.fill, Shape.height] at this
      simp only [plugUp, List.length_cons, Step.fill]
      omega
    | right l a x =>
      simp only [Step.fill, Shape.height] at this
      simp only [plugUp, List.length_cons, Step.fill]
      omega

/-- A path splits into its leading right steps and a rest that is empty or
starts with a left step. -/
theorem split_rights (fs : List (Step T)) :
    ∃ (rs rest : List (Step T)), fs = rs ++ rest ∧ (∀ f ∈ rs, f.isRight = true) ∧
      (rest = [] ∨ ∃ p px pr rest', rest = Step.left p px pr :: rest') := by
  induction fs with
  | nil => exact ⟨[], [], rfl, by simp, Or.inl rfl⟩
  | cons f fs ih =>
    cases f with
    | left a x r => exact ⟨[], Step.left a x r :: fs, rfl, by simp, Or.inr ⟨a, x, r, fs, rfl⟩⟩
    | right l a x =>
      obtain ⟨rs, rest, e, hr, hrest⟩ := ih
      refine ⟨Step.right l a x :: rs, rest, by rw [e]; rfl, ?_, hrest⟩
      intro f hf
      rcases List.mem_cons.mp hf with e' | hm
      · rw [e']; rfl
      · exact hr f hm

/-- A path splits into its leading left steps and a rest that is empty or
starts with a right step. -/
theorem split_lefts (fs : List (Step T)) :
    ∃ (ls rest : List (Step T)), fs = ls ++ rest ∧ (∀ f ∈ ls, f.isRight = false) ∧
      (rest = [] ∨ ∃ pl p px rest', rest = Step.right pl p px :: rest') := by
  induction fs with
  | nil => exact ⟨[], [], rfl, by simp, Or.inl rfl⟩
  | cons f fs ih =>
    cases f with
    | right l a x => exact ⟨[], Step.right l a x :: fs, rfl, by simp, Or.inr ⟨l, a, x, fs, rfl⟩⟩
    | left a x r =>
      obtain ⟨ls, rest, e, hr, hrest⟩ := ih
      refine ⟨Step.left a x r :: ls, rest, by rw [e]; rfl, ?_, hrest⟩
      intro f hf
      rcases List.mem_cons.mp hf with e' | hm
      · rw [e']; rfl
      · exact hr f hm

theorem upInorderR_rights (rs rest : List (Step T)) (hr : ∀ f ∈ rs, f.isRight = true) :
    upInorderR (rs ++ rest) = upInorderR rest := by
  induction rs with
  | nil => rfl
  | cons f rs ih =>
    cases f with
    | left a x r => simpa [Step.isRight] using hr (Step.left a x r) (by simp)
    | right l a x =>
      simp only [List.cons_append, upInorderR]
      exact ih (fun g hg => hr g (List.mem_cons_of_mem _ hg))

theorem upInorderL_lefts (ls rest : List (Step T)) (hl : ∀ f ∈ ls, f.isRight = false) :
    upInorderL (ls ++ rest) = upInorderL rest := by
  induction ls with
  | nil => rfl
  | cons f ls ih =>
    cases f with
    | right l a x => simpa [Step.isRight] using hl (Step.right l a x) (by simp)
    | left a x r =>
      simp only [List.cons_append, upInorderL]
      exact ih (fun g hg => hl g (List.mem_cons_of_mem _ hg))

/-- In a list without duplicates an element has one place. -/
theorem split_unique {α : Type} (N : α) :
    ∀ (X Y A B : List α), (X ++ N :: Y).Nodup → X ++ N :: Y = A ++ N :: B → X = A ∧ Y = B := by
  intro X
  induction X with
  | nil =>
    intro Y A B hnd e
    cases A with
    | nil => simpa using e
    | cons a A =>
      simp only [List.nil_append, List.cons_append, List.cons.injEq] at e
      obtain ⟨e1, e2⟩ := e
      subst e1
      rw [e2] at hnd
      simp at hnd
  | cons x X ih =>
    intro Y A B hnd e
    cases A with
    | nil =>
      simp only [List.nil_append, List.cons_append, List.cons.injEq] at e
      obtain ⟨e1, e2⟩ := e
      subst e1
      simp at hnd
    | cons a A =>
      simp only [List.cons_append, List.cons.injEq] at e
      obtain ⟨e1, e2⟩ := e
      have hnd' : (X ++ N :: Y).Nodup := (List.nodup_cons.mp hnd).2
      obtain ⟨h1, h2⟩ := ih Y A B hnd' e2
      exact ⟨by rw [e1, h1], h2⟩

/-! ## Increment -/

/-- The loop `climbRight` passes the leading right steps of the path and stops
at the node whose parent is the first left step, or at the root. -/
theorem climbRight_spec {h : Heap T} :
    ∀ (rs rest : List (Step T)) (t : Shape T) (cur fuel : Nat),
      (∀ f ∈ rs, f.isRight = true) →
      (rest = [] ∨ ∃ p px pr rest', rest = Step.left p px pr :: rest') →
      t.ptr = some cur → WF h none (plugUp (rs ++ rest) t) →
      (plugUp (rs ++ rest) t).addrs.Nodup → rs.length < fuel →
      ∃ top n, climbRight fuel h cur = .ok top ∧ h.cell top = some n ∧
        n.pParent = upParent none rest := by
  intro rs
  induction rs with
  | nil =>
    intro rest t cur fuel _ hrest hp hwf hnd hf
    cases fuel with
    | zero => simp at hf
    | succ k =>
      cases t with
      | nil => simp [Shape.ptr] at hp
      | node l c x r =>
        simp only [Shape.ptr, Option.some.injEq] at hp
        subst hp
        simp only [List.nil_append] at hwf hnd
        have hcur := (WF_plugUp_hole none rest _ hwf).1
        rcases hrest with e | ⟨p, px, pr, rest', e⟩
        · subst e
          refine ⟨c, _, ?_, hcur, rfl⟩
          simp only [climbRight, deref_of_cell hcur, Except.ok_bind, upParent]
          rfl
        · subst e
          refine ⟨c, _, ?_, hcur, rfl⟩
          have hp := (WF_plugUp_hole none rest' _ hwf).1
          have hndp := nodup_plugUp_hole rest' _ hnd
          obtain ⟨_, _, _, _, hdis⟩ := nodup_node.mp hndp
          have hne : ¬ (pr.ptr = some c) := fun e =>
            hdis c (by simp [Shape.addrs]) (ptr_mem_addrs e)
          simp only [climbRight, deref_of_cell hcur, Except.ok_bind, upParent, Step.addr,
            deref_of_cell hp, hne, if_false]
          rfl
  | cons f rs ih =>
    intro rest t cur fuel hr hrest hp hwf hnd hf
    cases fuel with
    | zero => simp at hf
    | succ k =>
      cases f with
      | left a x r => simpa [Step.isRight] using hr (Step.left a x r) (by simp)
      | right pl p px =>
        cases t with
        | nil => simp [Shape.ptr] at hp
        | node l c x r =>
          simp only [Shape.ptr, Option.some.injEq] at hp
          subst hp
          have hcur := (WF_plugUp_hole none (Step.right pl p px :: (rs ++ rest)) _ hwf).1
          have hpc := (WF_plugUp_hole none (rs ++ rest) _ hwf).1
          obtain ⟨top, n, e, hc, hpar⟩ := ih rest ((Step.right pl p px).fill (.node l c x r)) p k
            (fun g hg => hr g (List.mem_cons_of_mem _ hg)) hrest rfl hwf hnd
            (by simpa using hf)
          refine ⟨top, n, ?_, hc, hpar⟩
          simp only [climbRight, deref_of_cell hcur, Except.ok_bind, upParent, Step.addr,
            deref_of_cell hpc, Shape.ptr, if_true]
          exact e


/-- `operator++` at a node that is followed by `M` in the in-order sequence of a
well-formed tree yields `M`. -/
theorem increment_spec (fuel : Nat) (h : Heap T) (s : Shape T) (N M : Nat) (A B : List Nat)
    (hwf : WF h none s) (hnd : s.addrs.Nodup) (hs : s.addrs = A ++ N :: M :: B)
    (hfuel : s.height ≤ fuel) :
    increment fuel h (some N) = .ok (some M) := by
  have hN : N ∈ s.addrs := by rw [hs]; simp
  obtain ⟨fs, l, x, r, es⟩ := exists_path_of_mem s N hN
  subst es
  have haddrs : (plugUp fs (.node l N x r)).addrs
      = ((upInorderL fs).map Prod.fst ++ l.addrs) ++
          N :: (r.addrs ++ (upInorderR fs).map Prod.fst) := by
    rw [addrs_plugUp]; simp [Shape.addrs]
  have hsplit := split_unique N _ _ A (M :: B) (haddrs ▸ hnd) (haddrs.symm.trans hs)
  have hnext : r.addrs ++ (upInorderR fs).map Prod.fst = M :: B := hsplit.2
  have hcur := (WF_plugUp_hole none fs _ hwf).1
  have hwfr : WF h (some N) r := (WF_plugUp_hole none fs _ hwf).2.2
  have hheight := height_plugUp_ge (.node l N x r) fs
  simp only [Shape.height] at hheight
  cases r with
  | node rl ra rx rr =>
    obtain ⟨sp, S, y, srs, er⟩ := exists_spine (.node rl ra rx rr) (by simp)
    rw [er] at hnext hwfr hcur hheight hfuel
    have hS : S = M := by
      rw [addrs_plugL] at hnext
      simp only [Shape.addrs, List.nil_append, List.cons_append, List.cons.injEq] at hnext
      exact hnext.1
    obtain ⟨ra', hra'⟩ := ptr_plugL_node sp S y srs
    have hsp := height_plugL_ge (.node .nil S y srs) sp
    simp only [Shape.height] at hsp
    have hlm := leftmost_spine S y srs sp fuel ra' (WF_Rep _ _ hwfr) hra' (by omega)
    rw [hra'] at hcur
    simp only [increment, deref_of_cell hcur, Except.ok_bind, hlm, hS]
    rfl
  | nil =>
    simp only [Shape.addrs, List.nil_append] at hnext
    obtain ⟨rs, rest, efs, hrs, hrest⟩ := split_rights fs
    subst efs
    rw [upInorderR_rights rs rest hrs] at hnext
    rcases hrest with e | ⟨p, px, pr, rest', e⟩
    · subst e
      simp [upInorderR] at hnext
    · subst e
      have hpM : p = M := by
        simp only [upInorderR, List.cons_append, List.map_cons, List.cons.injEq] at hnext
        exact hnext.1
      subst hpM
      cases rs with
      | nil =>
        simp only [List.nil_append] at hwf hcur
        have hp := (WF_plugUp_hole none rest' _ hwf).1
        have hcur' : h.cell N = some (BNode.mk x l.ptr none (some p)) := hcur
        have hp' : h.cell p = some (BNode.mk px (some N) pr.ptr (upParent none rest')) := hp
        simp only [increment, deref_of_cell hcur', Except.ok_bind, deref_of_cell hp', if_true]
        rfl
      | cons f rs' =>
        cases f with
        | left a ax ar => simpa [Step.isRight] using hrs (Step.left a ax ar) (by simp)
        | right pl q qx =>
          have hq := (WF_plugUp_hole none (rs' ++ Step.left p px pr :: rest') _ hwf).1
          have hndq := nodup_plugUp_hole (rs' ++ Step.left p px pr :: rest') _ hnd
          obtain ⟨_, _, _, _, hdis⟩ := nodup_node.mp hndq
          have hne : ¬ (pl.ptr = some N) := fun e =>
            hdis N (ptr_mem_addrs e) (by simp [Shape.addrs])
          obtain ⟨top, n, e, hc, hpar⟩ := climbRight_spec (Step.right pl q qx :: rs')
            (Step.left p px pr :: rest') (.node l N x .nil) N fuel hrs
            (Or.inr ⟨p, px, pr, rest', rfl⟩) rfl hwf hnd (by
              simp only [List.length_cons, List.length_append] at hheight ⊢
              omega)
          have hcur' : h.cell N = some (BNode.mk x l.ptr none (some q)) := hcur
          have hq' : h.cell q = some (BNode.mk qx pl.ptr (some N)
              (upParent none (rs' ++ Step.left p px pr :: rest'))) := hq
          simp only [increment, deref_of_cell hcur', Except.ok_bind, deref_of_cell hq', hne,
            if_false, if_true, e, deref_of_cell hc, hpar, upParent, Step.addr]
          rfl

/-! ## Decrement -/

theorem snoc_inj {α : Type} {X Y : List α} {a b : α} (h : X ++ [a] = Y ++ [b]) : a = b := by
  have := List.append_inj' h rfl
  simpa using this.2

/-- Every non-empty shape is a right spine down to a node with no right child. -/
theorem exists_rspine : ∀ (r : Shape T), r ≠ .nil →
    ∃ (fs : List (Shape T × Nat × T)) (sl : Shape T) (S : Nat) (y : T),
      r = plugR fs (.node sl S y .nil) := by
  intro r
  induction r with
  | nil => intro hr; exact absurd rfl hr
  | node l a x r _ ihr =>
    intro _
    cases r with
    | nil => exact ⟨[], l, a, x, rfl⟩
    | node rl ra rx rr =>
      obtain ⟨fs, sl, S, y, e⟩ := ihr (by simp)
      exact ⟨(l, a, x) :: fs, sl, S, y, by rw [e]; rfl⟩

theorem inorder_plugR (fs : List (Shape T × Nat × T)) (t : Shape T) :
    (plugR fs t).inorder = rspineInorder fs ++ t.inorder := by
  induction fs with
  | nil => simp [plugR, rspineInorder]
  | cons f fs ih => simp [plugR, rspineInorder, Shape.inorder, ih]

theorem addrs_plugR (fs : List (Shape T × Nat × T)) (t : Shape T) :
    (plugR fs t).addrs = (rspineInorder fs).map Prod.fst ++ t.addrs := by
  simp [addrs_eq_map, inorder_plugR]

theorem ptr_plugR_node (fs : List (Shape T × Nat × T)) (sl : Shape T) (S : Nat) (y : T) :
    ∃ ra, (plugR fs (.node sl S y .nil)).ptr = some ra := by
  cases fs with
  | nil => exact ⟨S, rfl⟩
  | cons f fs => exact ⟨f.2.1, rfl⟩

theorem height_plugR_ge (t : Shape T) :
    ∀ (fs : List (Shape T × Nat × T)), fs.length + t.height ≤ (plugR fs t).height := by
  intro fs
  induction fs with
  | nil => simp [plugR]
  | cons f fs ih =>
    simp only [plugR, Shape.height, List.length_cons]
    omega

/-- The loop `rightmost` run from the top of a right spine stops at the node at
its bottom that has no right child. -/
theorem rightmost_spine {h : Heap T} (sl : Shape T) (S : Nat) (y : T) :
    ∀ (fs : List (Shape T × Nat × T)) (fuel ra : Nat),
      Rep h (plugR fs (.node sl S y .nil)) →
      (plugR fs (.node sl S y .nil)).ptr = some ra → fs.length < fuel →
      rightmost fuel h ra = .ok S := by
  intro fs
  induction fs with
  | nil =>
    intro fuel ra hrep hp hf
    cases fuel with
    | zero => simp at hf
    | succ k =>
      simp only [plugR, Shape.ptr, Option.some.injEq] at hp
      subst hp
      obtain ⟨⟨pp, hc⟩, _, _⟩ := hrep
      simp only [rightmost, deref_of_cell hc, Except.ok_bind, Shape.ptr]
      rfl
  | cons f fs ih =>
    intro fuel ra hrep hp hf
    cases fuel with
    | zero => simp at hf
    | succ k =>
      simp only [plugR, Shape.ptr, Option.some.injEq] at hp
      subst hp
      obtain ⟨⟨pp, hc⟩, _, hr⟩ := hrep
      obtain ⟨b, hb⟩ := ptr_plugR_node fs sl S y
      simp only [rightmost, deref_of_cell hc, Except.ok_bind, hb]
      exact ih k b hr hb (by simpa using hf)

/-- The loop `climbLeft` passes the leading left steps of the path and stops at
the node whose parent is the first right step, or at the root. -/
theorem climbLeft_spec {h : Heap T} :
    ∀ (ls rest : List (Step T)) (t : Shape T) (cur fuel : Nat),
      (∀ f ∈ ls, f.isRight = false) →
      (rest = [] ∨ ∃ pl p px rest', rest = Step.right pl p px :: rest') →
      t.ptr = some cur → WF h none (plugUp (ls ++ rest) t) →
      (plugUp (ls ++ rest) t).addrs.Nodup → ls.length < fuel →
      ∃ top n, climbLeft fuel h cur = .ok top ∧ h.cell top = some n ∧
        n.pParent = upParent none rest := by
  intro ls
  induction ls with
  | nil =>
    intro rest t cur fuel _ hrest hp hwf hnd hf
    cases fuel with
    | zero => simp at hf
    | succ k =>
      cases t with
      | nil => simp [Shape.ptr] at hp
      | node l c x r =>
        simp only [Shape.ptr, Option.some.injEq] at hp
        subst hp
        simp only [List.nil_append] at hwf hnd
        have hcur := (WF_plugUp_hole none rest _ hwf).1
        rcases hrest with e | ⟨pl, p, px, rest', e⟩
        · subst e
          refine ⟨c, _, ?_, hcur, rfl⟩
          simp only [climbLeft, deref_of_cell hcur, Except.ok_bind, upParent]
          rfl
        · subst e
          refine ⟨c, _, ?_, hcur, rfl⟩
          have hp := (WF_plugUp_hole none rest' _ hwf).1
          have hndp := nodup_plugUp_hole rest' _ hnd
          obtain ⟨_, _, _, _, hdis⟩ := nodup_node.mp hndp
          have hne : ¬ (pl.ptr = some c) := fun e =>
            hdis c (ptr_mem_addrs e) (by simp [Shape.addrs])
          simp only [climbLeft, deref_of_cell hcur, Except.ok_bind, upParent, Step.addr,
            deref_of_cell hp, hne, if_false]
          rfl
  | cons f ls ih =>
    intro rest t cur fuel hl hrest hp hwf hnd hf
    cases fuel with
    | zero => simp at hf
    | succ k =>
      cases f with
      | right pl a x => simpa [Step.isRight] using hl (Step.right pl a x) (by simp)
      | left p px pr =>
        cases t with
        | nil => simp [Shape.ptr] at hp
        | node l c x r =>
          simp only [Shape.ptr, Option.some.injEq] at hp
          subst hp
          have hcur := (WF_plugUp_hole none (Step.left p px pr :: (ls ++ rest)) _ hwf).1
          have hpc := (WF_plugUp_hole none (ls ++ rest) _ hwf).1
          obtain ⟨top, n, e, hc, hpar⟩ := ih rest ((Step.left p px pr).fill (.node l c x r)) p k
            (fun g hg => hl g (List.mem_cons_of_mem _ hg)) hrest rfl hwf hnd
            (by simpa using hf)
          refine ⟨top, n, ?_, hc, hpar⟩
          simp only [climbLeft, deref_of_cell hcur, Except.ok_bind, upParent, Step.addr,
            deref_of_cell hpc, Shape.ptr, if_true]
          exact e

/-- `operator--` at a node that is preceded by `M` in the in-order sequence of a
well-formed tree yields `M`. -/
theorem decrement_spec (fuel : Nat) (h : Heap T) (s : Shape T) (M N : Nat) (A B : List Nat)
    (hwf : WF h none s) (hnd : s.addrs.Nodup) (hs : s.addrs = A ++ M :: N :: B)
    (hfuel : s.height ≤ fuel) :
    decrement fuel h (some N) = .ok (some M) := by
  have hN : N ∈ s.addrs := by rw [hs]; simp
  obtain ⟨fs, l, x, r, es⟩ := exists_path_of_mem s N hN
  subst es
  have haddrs : (plugUp fs (.node l N x r)).addrs
      = ((upInorderL fs).map Prod.fst ++ l.addrs) ++
          N :: (r.addrs ++ (upInorderR fs).map Prod.fst) := by
    rw [addrs_plugUp]; simp [Shape.addrs]
  have hs' : (plugUp fs (.node l N x r)).addrs = (A ++ [M]) ++ N :: B := by
    rw [hs]; simp
  have hsplit := split_unique N _ _ (A ++ [M]) B (haddrs ▸ hnd) (haddrs.symm.trans hs')
  have hprev : (upInorderL fs).map Prod.fst ++ l.addrs = A ++ [M] := hsplit.1
  have hcur := (WF_plugUp_hole none fs _ hwf).1
  have hwfl : WF h (some N) l := (WF_plugUp_hole none fs _ hwf).2.1
  have hheight := height_plugUp_ge (.node l N x r) fs
  simp only [Shape.height] at hheight
  cases l with
  | node ll la lx lr =>
    obtain ⟨sp, sl, S, y, el⟩ := exists_rspine (.node ll la lx lr) (by simp)
    rw [el] at hprev hwfl hcur hheight hfuel
    have hS : S = M := by
      rw [addrs_plugR] at hprev
      simp only [Shape.addrs, List.append_nil] at hprev
      have h' : ((upInorderL fs).map Prod.fst ++ ((rspineInorder sp).map Prod.fst ++ sl.addrs))
          ++ [S] = A ++ [M] := by simpa [List.append_assoc] using hprev
      exact snoc_inj h'
    obtain ⟨la', hla'⟩ := ptr_plugR_node sp sl S y
    have hsp := height_plugR_ge (.node sl S y .nil) sp
    simp only [Shape.height] at hsp
    have hrm := rightmost_spine sl S y sp fuel la' (WF_Rep _ _ hwfl) hla' (by omega)
    rw [hla'] at hcur
    simp only [decrement, deref_of_cell hcur, Except.ok_bind, hrm, hS]
    rfl
  | nil =>
    simp only [Shape.addrs, List.append_nil] at hprev
    obtain ⟨ls, rest, efs, hls, hrest⟩ := split_lefts fs
    subst efs
    rw [upInorderL_lefts ls rest hls] at hprev
    rcases hrest with e | ⟨pl, p, px, rest', e⟩
    · subst e
      simp [upInorderL] at hprev
    · subst e
      have hpM : p = M := by
        simp only [upInorderL, List.map_append, List.map_cons, List.map_nil] at hprev
        have h' : ((upInorderL rest').map Prod.fst ++ pl.inorder.map Prod.fst) ++ [p]
            = A ++ [M] := by simpa [List.append_assoc] using hprev
        exact snoc_inj h'
      subst hpM
      cases ls with
      | nil =>
        simp only [List.nil_append] at hwf hcur
        have hp := (WF_plugUp_hole none rest' _ hwf).1
        have hcur' : h.cell N = some (BNode.mk x none r.ptr (some p)) := hcur
        have hp' : h.cell p = some (BNode.mk px pl.ptr (some N) (upParent none rest')) := hp
        simp only [decrement, deref_of_cell hcur', Except.ok_bind, deref_of_cell hp', if_true]
        rfl
      | cons f ls' =>
        cases f with
        | right a ax ar => simpa [Step.isRight] using hls (Step.right a ax ar) (by simp)
        | left q qx qr =>
          have hq := (WF_plugUp_hole none (ls' ++ Step.right pl p px :: rest') _ hwf).1
          have hndq := nodup_plugUp_hole (ls' ++ Step.right pl p px :: rest') _ hnd
          obtain ⟨_, _, _, _, hdis⟩ := nodup_node.mp hndq
          have hne : ¬ (qr.ptr = some N) := fun e =>
            hdis N (by simp [Shape.addrs]) (ptr_mem_addrs e)
          obtain ⟨top, n, e, hc, hpar⟩ := climbLeft_spec (Step.left q qx qr :: ls')
            (Step.right pl p px :: rest') (.node .nil N x r) N fuel hls
            (Or.inr ⟨pl, p, px, rest', rfl⟩) rfl hwf hnd (by
              simp only [List.length_cons, List.length_append] at hheight ⊢
              omega)
          have hcur' : h.cell N = some (BNode.mk x none r.ptr (some q)) := hcur
          have hq' : h.cell q = some (BNode.mk qx (some N) qr.ptr
              (upParent none (ls' ++ Step.right pl p px :: rest'))) := hq
          simp only [decrement, deref_of_cell hcur', Except.ok_bind, deref_of_cell hq', hne,
            if_false, if_true, e, deref_of_cell hc, hpar, upParent, Step.addr]
          rfl

/-- Where the in-order successor of a node lies: at the bottom of the left
spine of its right subtree, or, when the node has no right child, at the first
left step of its path to the root. -/
theorem successor_shape (s : Shape T) (N M : Nat) (A B : List Nat)
    (hnd : s.addrs.Nodup) (hs : s.addrs = A ++ N :: M :: B) :
    (∃ (fs : List (Step T)) (l : Shape T) (x : T) (sp : List (Nat × T × Shape T)) (y : T)
        (srs : Shape T), s = plugUp fs (.node l N x (plugL sp (.node .nil M y srs)))) ∨
    (∃ (rs : List (Step T)) (px : T) (pr : Shape T) (rest : List (Step T)) (l : Shape T)
        (x : T), (∀ f ∈ rs, f.isRight = true) ∧
        s = plugUp (rs ++ Step.left M px pr :: rest) (.node l N x .nil)) := by
  have hN : N ∈ s.addrs := by rw [hs]; simp
  obtain ⟨fs, l, x, r, es⟩ := exists_path_of_mem s N hN
  subst es
  have haddrs : (plugUp fs (.node l N x r)).addrs
      = ((upInorderL fs).map Prod.fst ++ l.addrs) ++
          N :: (r.addrs ++ (upInorderR fs).map Prod.fst) := by
    rw [addrs_plugUp]; simp [Shape.addrs]
  have hsplit := split_unique N _ _ A (M :: B) (haddrs ▸ hnd) (haddrs.symm.trans hs)
  have hnext : r.addrs ++ (upInorderR fs).map Prod.fst = M :: B := hsplit.2
  cases r with
  | node rl ra rx rr =>
    obtain ⟨sp, S, y, srs, er⟩ := exists_spine (.node rl ra rx rr) (by simp)
    rw [er] at hnext
    have hS : S = M := by
      rw [addrs_plugL] at hnext
      simp only [Shape.addrs, List.nil_append, List.cons_append, List.cons.injEq] at hnext
      exact hnext.1
    subst hS
    exact Or.inl ⟨fs, l, x, sp, y, srs, by rw [er]⟩
  | nil =>
    simp only [Shape.addrs, List.nil_append] at hnext
    obtain ⟨rs, rest, efs, hrs, hrest⟩ := split_rights fs
    subst efs
    rw [upInorderR_rights rs rest hrs] at hnext
    rcases hrest with e | ⟨p, px, pr, rest', e⟩
    · subst e
      simp [upInorderR] at hnext
    · subst e
      have hpM : p = M := by
        simp only [upInorderR, List.cons_append, List.map_cons, List.cons.injEq] at hnext
        exact hnext.1
      subst hpM
      exact Or.inr ⟨rs, px, pr, rest', l, x, hrs, rfl⟩

/-! ## Copy -/

theorem cell_alloc (h : Heap T) (v : Option (BNode T)) (a : Nat) :
    Heap.cell (h ++ [v]) a = if a = h.length then v else h.cell a := by
  by_cases ha : a = h.length
  · subst ha
    simp [Heap.cell]
  · simp only [ha, if_false]
    by_cases hlt : a < h.length
    · simp [Heap.cell, List.getElem?_append_left hlt]
    · have h1 : h[a]? = none := List.getElem?_eq_none (by omega)
      have h2 : (h ++ [v])[a]? = none := List.getElem?_eq_none (by simp; omega)
      simp [Heap.cell, h1, h2]

theorem cell_length (h : Heap T) : h.cell h.length = none := by
  have h1 : h[h.length]? = none := List.getElem?_eq_none (le_refl _)
  simp [Heap.cell, h1]

theorem SameTree_nil_iff : ∀ (a b : Shape T), SameTree a b → (a = .nil ↔ b = .nil) := by
  intro a b hs
  cases a <;> cases b <;> simp_all [SameTree]

/-- Reading a place gives the pointer that was assigned to it. -/
theorem Loc.read_of_set {h' : Heap T} (root v : Option Nat) (loc : Loc)
    (hc : ∀ b, loc.addr = some b → ∃ n : BNode T, h'.cell b = some (loc.set v b n)) :
    loc.read h' (loc.newRoot root v) = .ok v := by
  cases loc with
  | root => rfl
  | left b =>
    obtain ⟨n, hn⟩ := hc b rfl
    simp only [Loc.read, deref_of_cell hn, Except.ok_bind, Loc.set, if_true]
    rfl
  | right b =>
    obtain ⟨n, hn⟩ := hc b rfl
    simp only [Loc.read, deref_of_cell hn, Except.ok_bind, Loc.set, if_true]
    rfl

/-- Reading a place that is a child link: the node is live. -/
theorem Loc.live_of_read {h : Heap T} {root p : Option Nat} {loc : Loc}
    (hread : loc.read h root = .ok p) : ∀ b, loc.addr = some b → ∃ n, h.cell b = some n := by
  intro b hb
  cases loc with
  | root => simp [Loc.addr] at hb
  | left c =>
    simp only [Loc.addr, Option.some.injEq] at hb
    subst hb
    cases hc : h.cell c with
    | none => simp [Loc.read, Heap.deref, hc, bind, Except.bind] at hread
    | some n => exact ⟨n, rfl⟩
  | right c =>
    simp only [Loc.addr, Option.some.injEq] at hb
    subst hb
    cases hc : h.cell c with
    | none => simp [Loc.read, Heap.deref, hc, bind, Except.bind] at hread
    | some n => exact ⟨n, rfl⟩

/-- The first statement of `copyBinaryTree`: afterwards the place holds a node
`da` with the element of the source node; it is the old root of the destination
with its subtrees, or a fresh node with no children and a null parent link. -/
theorem copyNode_spec {h : Heap T} (root : Option Nat) (loc : Loc) (sa : Nat) (sn : BNode T)
    (sB : Shape T) (parB : Option Nat)
    (hsa : h.cell sa = some sn) (hread : loc.read h root = .ok sB.ptr)
    (hwf : WF h parB sB) (hnd : sB.addrs.Nodup)
    (hloc : ∀ b, loc.addr = some b → b ∉ sB.addrs) :
    ∃ (h1 : Heap T) (da : Nat) (lB rB : Shape T),
      copyNode h root sa loc = .ok (h1, loc.newRoot root (some da)) ∧
      h1.cell da = some (BNode.mk sn.data lB.ptr rB.ptr (if sB.ptr = none then none else parB)) ∧
      WF h1 (some da) lB ∧ WF h1 (some da) rB ∧
      ((∃ y, sB = .node lB da y rB) ∨ (sB = .nil ∧ lB = .nil ∧ rB = .nil ∧ h.cell da = none)) ∧
      (∀ a n, h.cell a = some n → a ≠ da → h1.cell a = some (loc.set (some da) a n)) := by
  cases sB with
  | nil =>
    have hread' : loc.read h root = .ok none := hread
    have hlive := Loc.live_of_read hread'
    have hread1 : ∃ p, loc.read (h ++ [some (BNode.mk sn.data none none none)]) root = .ok p := by
      refine ⟨none, ?_⟩
      rw [Loc.read_congr root loc (h := h)]
      · exact hread'
      · intro b hb
        obtain ⟨n, hn⟩ := hlive b hb
        rw [cell_alloc]
        have : b ≠ h.length := fun e => by rw [e, cell_length] at hn; simp at hn
        simp [this]
    obtain ⟨p, hread1⟩ := hread1
    obtain ⟨h1, e1, c1⟩ := Loc.write_cells hread1 (some h.length)
    have hlocne : loc.addr ≠ some h.length := by
      intro e
      obtain ⟨n, hn⟩ := hlive _ e
      rw [cell_length] at hn
      simp at hn
    refine ⟨h1, h.length, .nil, .nil, ?_, ?_, trivial, trivial,
      Or.inr ⟨rfl, rfl, rfl, cell_length h⟩, ?_⟩
    · simp only [copyNode, hread', Except.ok_bind, deref_of_cell hsa, Heap.alloc, e1]
    · rw [c1, cell_alloc]
      simp only [if_true, Option.map_some', Loc.set_of_ne loc _ _ _ hlocne]
      rfl
    · intro a n hn hne
      rw [c1, cell_alloc]
      simp [hne, hn]
  | node lB da y rB =>
    have hread' : loc.read h root = .ok (some da) := hread
    obtain ⟨hc, hl, hr⟩ := hwf
    obtain ⟨_, _, hal, har, _⟩ := nodup_node.mp hnd
    obtain ⟨h1, e1, c1⟩ := modify_cells hc (fun n => { n with data := sn.data })
    refine ⟨h1, da, lB, rB, ?_, ?_, ?_, ?_, Or.inl ⟨y, rfl⟩, ?_⟩
    · simp only [copyNode, hread', Except.ok_bind, deref_of_cell hsa, e1,
        Loc.newRoot_of_read hread']
      rfl
    · rw [c1, hc]
      simp [Shape.ptr]
    · apply WF_frame _ _ hl
      intro a ha n hn
      have : a ≠ da := fun e => hal (e ▸ ha)
      rw [c1, hn]
      simp [this]
    · apply WF_frame _ _ hr
      intro a ha n hn
      have : a ≠ da := fun e => har (e ▸ ha)
      rw [c1, hn]
      simp [this]
    · intro a n hn hne
      rw [c1, hn]
      simp only [Option.map_some', hne, if_false]
      have := Loc.set_of_read hread' a
      rw [hn] at this
      simpa using this.symm

theorem Rep_live {h : Heap T} :
    ∀ (s : Shape T), Rep h s → ∀ a ∈ s.addrs, ∃ n, h.cell a = some n := by
  intro s
  induction s with
  | nil => intro _ a ha; simp [Shape.addrs] at ha
  | node l b x r ihl ihr =>
    intro hrep a ha
    obtain ⟨⟨pp, hc⟩, hl, hr⟩ := hrep
    simp only [Shape.addrs, List.mem_append, List.mem_cons] at ha
    rcases ha with ha | ha | ha
    · exact ihl hl a ha
    · exact ⟨_, ha ▸ hc⟩
    · exact ihr hr a ha

/-- The parent fix after the left recursion of `copyBinaryTree`: the root of
the copied left subtree gets the destination node as its parent. -/
theorem copyParentLeft_spec {h : Heap T} (root : Option Nat) (loc : Loc) (sa da : Nat)
    (sn dn : BNode T) (c : Shape T) (par : Option Nat)
    (hsa : h.cell sa = some sn) (hread : loc.read h root = .ok (some da))
    (hda : h.cell da = some dn) (hdl : dn.pLeft = c.ptr)
    (hwf : WF h par c) (hnd : c.addrs.Nodup) (hiff : sn.pLeft = none ↔ c = .nil) :
    ∃ h3, copyParentLeft h root sa loc = .ok h3 ∧ WF h3 (some da) c ∧
      ∀ a n, h.cell a = some n → a ∉ c.addrs → h3.cell a = some n := by
  cases c with
  | nil =>
    have hl : sn.pLeft = none := hiff.mpr rfl
    refine ⟨h, ?_, trivial, fun a n hn _ => hn⟩
    simp only [copyParentLeft, deref_of_cell hsa, Except.ok_bind, hl]
    rfl
  | node l ca y r =>
    have hl : sn.pLeft ≠ none := fun e => by simpa using hiff.mp e
    obtain ⟨q, hq⟩ := Option.ne_none_iff_exists'.mp hl
    obtain ⟨hc, hwl, hwr⟩ := hwf
    obtain ⟨_, _, hal, har, _⟩ := nodup_node.mp hnd
    have hdl' : dn.pLeft = some ca := hdl
    obtain ⟨h3, e3, c3⟩ := modify_cells hc (fun n => { n with pParent := some da })
    refine ⟨h3, ?_, ⟨?_, ?_, ?_⟩, ?_⟩
    · simp only [copyParentLeft, deref_of_cell hsa, Except.ok_bind, hq, hread,
        deref_of_cell hda, hdl', e3]
    · rw [c3, hc]
      simp
    · apply WF_frame _ _ hwl
      intro a ha n hn
      have : a ≠ ca := fun e => hal (e ▸ ha)
      rw [c3, hn]
      simp [this]
    · apply WF_frame _ _ hwr
      intro a ha n hn
      have : a ≠ ca := fun e => har (e ▸ ha)
      rw [c3, hn]
      simp [this]
    · intro a n hn ha
      have : a ≠ ca := fun e => ha (by simp [Shape.addrs, e])
      rw [c3, hn]
      simp [this]

/-- The parent fix after the right recursion of `copyBinaryTree`. -/
theorem copyParentRight_spec {h : Heap T} (root : Option Nat) (loc : Loc) (sa da : Nat)
    (sn dn : BNode T) (c : Shape T) (par : Option Nat)
    (hsa : h.cell sa = some sn) (hread : loc.read h root = .ok (some da))
    (hda : h.cell da = some dn) (hdl : dn.pRight = c.ptr)
    (hwf : WF h par c) (hnd : c.addrs.Nodup) (hiff : sn.pRight = none ↔ c = .nil) :
    ∃ h3, copyParentRight h root sa loc = .ok h3 ∧ WF h3 (some da) c ∧
      ∀ a n, h.cell a = some n → a ∉ c.addrs → h3.cell a = some n := by
  cases c with
  | nil =>
    have hl : sn.pRight = none := hiff.mpr rfl
    refine ⟨h, ?_, trivial, fun a n hn _ => hn⟩
    simp only [copyParentRight, deref_of_cell hsa, Except.ok_bind, hl]
    rfl
  | node l ca y r =>
    have hl : sn.pRight ≠ none := fun e => by simpa using hiff.mp e
    obtain ⟨q, hq⟩ := Option.ne_none_iff_exists'.mp hl
    obtain ⟨hc, hwl, hwr⟩ := hwf
    obtain ⟨_, _, hal, har, _⟩ := nodup_node.mp hnd
    have hdl' : dn.pRight = some ca := hdl
    obtain ⟨h3, e3, c3⟩ := modify_cells hc (fun n => { n with pParent := some da })
    refine ⟨h3, ?_, ⟨?_, ?_, ?_⟩, ?_⟩
    · simp only [copyParentRight, deref_of_cell hsa, Except.ok_bind, hq, hread,
        deref_of_cell hda, hdl', e3]
    · rw [c3, hc]
      simp
    · apply WF_frame _ _ hwl
      intro a ha n hn
      have : a ≠ ca := fun e => hal (e ▸ ha)
      rw [c3, hn]
      simp [this]
    · apply WF_frame _ _ hwr
      intro a ha n hn
      have : a ≠ ca := fun e => har (e ▸ ha)
      rw [c3, hn]
      simp [this]
    · intro a n hn ha
      have : a ≠ ca := fun e => ha (by simp [Shape.addrs, e])
      rw [c3, hn]
      simp [this]

/-- `copyBinaryTree` from a source tree onto a place that holds a destination
tree of distinct nodes, disjoint from the source: afterwards the place holds a
tree with the branching and elements of the source, with consistent parent
links, made of destination nodes and fresh nodes; live cells outside the
destination are unchanged, the cell of the place apart. -/
theorem copyBinaryTree_spec :
    ∀ (sA sB : Shape T) (fuel : Nat) (h : Heap T) (root : Option Nat) (loc : Loc)
      (parB : Option Nat),
      Rep h sA → loc.read h root = .ok sB.ptr → WF h parB sB → sB.addrs.Nodup →
      (∀ a ∈ sA.addrs, a ∉ sB.addrs) →
      (∀ b, loc.addr = some b → b ∉ sA.addrs ∧ b ∉ sB.addrs) →
      sA.height < fuel → sB.height < fuel →
      ∃ (h' : Heap T) (sB' : Shape T),
        copyBinaryTree fuel h root sA.ptr loc = .ok (h', loc.newRoot root sB'.ptr) ∧
        SameTree sA sB' ∧ WF h' (if sB.ptr = none then none else parB) sB' ∧
        sB'.addrs.Nodup ∧
        (∀ a ∈ sB'.addrs, a ∈ sB.addrs ∨ h.cell a = none) ∧
        (∀ a n, h.cell a = some n → a ∉ sB.addrs →
          h'.cell a = some (loc.set sB'.ptr a n)) := by
  intro sA
  induction sA with
  | nil =>
    intro sB fuel h root loc parB _ hread hwf hnd _ hloc _ hfb
    cases fuel with
    | zero => omega
    | succ k =>
      obtain ⟨h', e, c⟩ := deleteBinaryTree_spec sB (k + 1) h root loc hread (WF_Rep _ _ hwf) hnd
        (fun b hb => (hloc b hb).2) hfb
      refine ⟨h', .nil, ?_, trivial, trivial, List.nodup_nil, ?_, ?_⟩
      · simp only [Shape.ptr, copyBinaryTree]
        exact e
      · intro a ha
        simp [Shape.addrs] at ha
      · intro a n hn ha
        rw [c]
        simp [ha, hn, Shape.ptr]
  | node lA sa x rA ihl ihr =>
    intro sB fuel h root loc parB hrep hread hwf hnd hdisj hloc hfa hfb
    have hliveA := Rep_live _ hrep
    have hliveB := WF_live _ _ hwf
    have hliveLoc := Loc.live_of_read hread
    obtain ⟨⟨ppA, hsa⟩, hrl, hrr⟩ := hrep
    cases fuel with
    | zero => omega
    | succ k =>
      have hsaA : sa ∈ (Shape.node lA sa x rA).addrs := by simp [Shape.addrs]
      have hlA : ∀ a ∈ lA.addrs, a ∈ (Shape.node lA sa x rA).addrs := fun a ha => by
        simp [Shape.addrs, ha]
      have hrA : ∀ a ∈ rA.addrs, a ∈ (Shape.node lA sa x rA).addrs := fun a ha => by
        simp [Shape.addrs, ha]
      have hhA : lA.height < k ∧ rA.height < k := by
        simp only [Shape.height] at hfa
        omega
      obtain ⟨h1, da, lB, rB, e1, hda1, hwl1, hwr1, hcase, f1⟩ :=
        copyNode_spec root loc sa _ sB parB hsa hread hwf hnd (fun b hb => (hloc b hb).2)
      have hsubL : ∀ a ∈ lB.addrs, a ∈ sB.addrs := by
        rcases hcase with ⟨y, rfl⟩ | ⟨_, rfl, _, _⟩
        · intro a ha
          simp [Shape.addrs, ha]
        · intro a ha
          simp [Shape.addrs] at ha
      have hsubR : ∀ a ∈ rB.addrs, a ∈ sB.addrs := by
        rcases hcase with ⟨y, rfl⟩ | ⟨_, _, rfl, _⟩
        · intro a ha
          simp [Shape.addrs, ha]
        · intro a ha
          simp [Shape.addrs] at ha
      have hdaB : da ∈ sB.addrs ∨ h.cell da = none := by
        rcases hcase with ⟨y, rfl⟩ | ⟨_, _, _, hf⟩
        · left
          simp [Shape.addrs]
        · exact Or.inr hf
      have hndB : lB.addrs.Nodup ∧ rB.addrs.Nodup ∧ da ∉ lB.addrs ∧ da ∉ rB.addrs ∧
          ∀ b ∈ lB.addrs, b ∉ rB.addrs := by
        rcases hcase with ⟨y, rfl⟩ | ⟨_, rfl, rfl, _⟩
        · exact nodup_node.mp hnd
        · simp [Shape.addrs]
      have hhB : lB.height < k ∧ rB.height < k := by
        rcases hcase with ⟨y, rfl⟩ | ⟨_, rfl, rfl, _⟩
        · simp only [Shape.height] at hfb
          omega
        · simp only [Shape.height]
          omega
      obtain ⟨hndl, hndr, hdal, hdar, hlr⟩ := hndB
      -- the destination node is neither a source node nor the node of the place
      have hdaA : da ∉ (Shape.node lA sa x rA).addrs := by
        intro hm
        rcases hdaB with hb | hb
        · exact hdisj da hm hb
        · obtain ⟨n, hn⟩ := hliveA da hm
          rw [hb] at hn
          exact nomatch hn
      have hlocda : loc.addr ≠ some da := by
        intro e
        rcases hdaB with hb | hb
        · exact (hloc da e).2 hb
        · obtain ⟨n, hn⟩ := hliveLoc da e
          rw [hb] at hn
          exact nomatch hn
      have hsada : sa ≠ da := fun e => hdaA (e ▸ hsaA)
      -- the cells of the source and of the place after the first statement
      have src1 : ∀ a ∈ (Shape.node lA sa x rA).addrs, h1.cell a = h.cell a := by
        intro a ha
        obtain ⟨n, hn⟩ := hliveA a ha
        have hne : loc.addr ≠ some a := fun e => (hloc a e).1 ha
        rw [f1 a n hn (fun e => hdaA (e ▸ ha)), Loc.set_of_ne loc _ _ _ hne, hn]
      have hread1 : loc.read h1 (loc.newRoot root (some da)) = .ok (some da) := by
        apply Loc.read_of_set
        intro b hb
        obtain ⟨n, hn⟩ := hliveLoc b hb
        exact ⟨n, f1 b n hn (fun e => hlocda (e ▸ hb))⟩
      have hsa1 : h1.cell sa = some (BNode.mk x lA.ptr rA.ptr ppA) := by
        rw [src1 sa hsaA, hsa]
      have hleftOf : loc.leftOf h1 (loc.newRoot root (some da)) = .ok (.left da) := by
        simp only [Loc.leftOf, hread1, Except.ok_bind]
        rfl
      -- the left recursion
      obtain ⟨h2, lB', e2, hsame2, hwl2, hndl2, hfresh2, f2⟩ :=
        ihl lB k h1 (loc.newRoot root (some da)) (.left da) (some da)
          (Rep_frame lA hrl (fun a ha => src1 a (hlA a ha)))
          (Loc.read_left _ hda1) hwl1 hndl
          (fun a ha hb => hdisj a (hlA a ha) (hsubL a hb))
          (fun b hb => by
            simp only [Loc.addr, Option.some.injEq] at hb
            subst hb
            exact ⟨fun hm => hdaA (hlA _ hm), hdal⟩)
          hhA.1 hhB.1
      have e2' : copyBinaryTree k h1 (loc.newRoot root (some da)) lA.ptr (.left da) =
          .ok (h2, loc.newRoot root (some da)) := e2
      have keep2 : ∀ a n, h1.cell a = some n → a ∉ lB.addrs → a ≠ da → h2.cell a = some n := by
        intro a n hn ha hne
        rw [f2 a n hn ha]
        simp [Loc.set, hne]
      have hsa2 : h2.cell sa = some (BNode.mk x lA.ptr rA.ptr ppA) :=
        keep2 sa _ hsa1 (fun hm => hdisj sa hsaA (hsubL sa hm)) hsada
      have hlocB1 : ∀ b, loc.addr = some b → ∃ n, h1.cell b = some n ∧ b ∉ sB.addrs ∧ b ≠ da := by
        intro b hb
        obtain ⟨n, hn⟩ := hliveLoc b hb
        exact ⟨_, f1 b n hn (fun e => hlocda (e ▸ hb)), (hloc b hb).2, fun e => hlocda (e ▸ hb)⟩
      have hread2 : loc.read h2 (loc.newRoot root (some da)) = .ok (some da) := by
        rw [Loc.read_congr _ loc (h := h1)]
        · exact hread1
        · intro b hb
          obtain ⟨n, hn, hnb, hne⟩ := hlocB1 b hb
          rw [keep2 b n hn (fun hm => hnb (hsubL b hm)) hne, hn]
      have hda2 : h2.cell da = some (BNode.mk x lB'.ptr rB.ptr
          (if sB.ptr = none then none else parB)) := by
        rw [f2 da _ hda1 hdal]
        simp [Loc.set]
      have hiffL : (BNode.mk x lA.ptr rA.ptr ppA).pLeft = none ↔ lB' = .nil := by
        constructor
        · intro e
          exact (SameTree_nil_iff _ _ hsame2).mp (ptr_eq_none e)
        · intro e
          have := (SameTree_nil_iff _ _ hsame2).mpr e
          subst this
          rfl
      obtain ⟨h3, e3, hwl3, f3⟩ := copyParentLeft_spec (loc.newRoot root (some da)) loc sa da _ _
        lB' _ hsa2 hread2 hda2 rfl hwl2 hndl2 hiffL
      have notL : ∀ a n, h1.cell a = some n → a ∉ lB.addrs → a ∉ lB'.addrs := by
        intro a n hn ha hm
        rcases hfresh2 a hm with hb | hb
        · exact ha hb
        · rw [hb] at hn
          exact nomatch hn
      have keep3 : ∀ a n, h1.cell a = some n → a ∉ lB.addrs → a ≠ da → h3.cell a = some n :=
        fun a n hn ha hne => f3 a n (keep2 a n hn ha hne) (notL a n hn ha)
      have hsa3 : h3.cell sa = some (BNode.mk x lA.ptr rA.ptr ppA) :=
        keep3 sa _ hsa1 (fun hm => hdisj sa hsaA (hsubL sa hm)) hsada
      have hread3 : loc.read h3 (loc.newRoot root (some da)) = .ok (some da) := by
        rw [Loc.read_congr _ loc (h := h1)]
        · exact hread1
        · intro b hb
          obtain ⟨n, hn, hnb, hne⟩ := hlocB1 b hb
          rw [keep3 b n hn (fun hm => hnb (hsubL b hm)) hne, hn]
      have hda3 : h3.cell da = some (BNode.mk x lB'.ptr rB.ptr
          (if sB.ptr = none then none else parB)) :=
        f3 da _ hda2 (notL da _ hda1 hdal)
      have hrightOf : loc.rightOf h3 (loc.newRoot root (some da)) = .ok (.right da) := by
        simp only [Loc.rightOf, hread3, Except.ok_bind]
        rfl
      -- the right recursion
      have hliveR1 := WF_live _ _ hwr1
      obtain ⟨h4, rB', e4, hsame4, hwr4, hndr4, hfresh4, f4⟩ :=
        ihr rB k h3 (loc.newRoot root (some da)) (.right da) (some da)
          (Rep_frame rA hrr (fun a ha => by
            obtain ⟨n, hn⟩ := hliveA a (hrA a ha)
            have h1a : h1.cell a = some n := by rw [src1 a (hrA a ha), hn]
            rw [keep3 a n h1a (fun hm => hdisj a (hrA a ha) (hsubL a hm))
              (fun e => hdaA (e ▸ hrA a ha)), hn]))
          (Loc.read_right _ hda3)
          (WF_frame rB _ hwr1 (fun a ha n hn =>
            keep3 a n hn (fun hm => hlr a hm ha) (fun e => hdar (e ▸ ha))))
          hndr
          (fun a ha hb => hdisj a (hrA a ha) (hsubR a hb))
          (fun b hb => by
            simp only [Loc.addr, Option.some.injEq] at hb
            subst hb
            exact ⟨fun hm => hdaA (hrA _ hm), hdar⟩)
          hhA.2 hhB.2
      have e4' : copyBinaryTree k h3 (loc.newRoot root (some da)) rA.ptr (.right da) =
          .ok (h4, loc.newRoot root (some da)) := e4
      have keep4 : ∀ a n, h3.cell a = some n → a ∉ rB.addrs → a ≠ da → h4.cell a = some n := by
        intro a n hn ha hne
        rw [f4 a n hn ha]
        simp [Loc.set, hne]
      have hsa4 : h4.cell sa = some (BNode.mk x lA.ptr rA.ptr ppA) :=
        keep4 sa _ hsa3 (fun hm => hdisj sa hsaA (hsubR sa hm)) hsada
      have hread4 : loc.read h4 (loc.newRoot root (some da)) = .ok (some da) := by
        rw [Loc.read_congr _ loc (h := h1)]
        · exact hread1
        · intro b hb
          obtain ⟨n, hn, hnb, hne⟩ := hlocB1 b hb
          rw [keep4 b n (keep3 b n hn (fun hm => hnb (hsubL b hm)) hne)
            (fun hm => hnb (hsubR b hm)) hne, hn]
      have hda4 : h4.cell da = some (BNode.mk x lB'.ptr rB'.ptr
          (if sB.ptr = none then none else parB)) := by
        rw [f4 da _ hda3 hdar]
        simp [Loc.set]
      have hiffR : (BNode.mk x lA.ptr rA.ptr ppA).pRight = none ↔ rB' = .nil := by
        constructor
        · intro e
          exact (SameTree_nil_iff _ _ hsame4).mp (ptr_eq_none e)
        · intro e
          have := (SameTree_nil_iff _ _ hsame4).mpr e
          subst this
          rfl
      obtain ⟨h5, e5, hwr5, f5⟩ := copyParentRight_spec (loc.newRoot root (some da)) loc sa da _ _
        rB' _ hsa4 hread4 hda4 rfl hwr4 hndr4 hiffR
      have notR : ∀ a n, h3.cell a = some n → a ∉ rB.addrs → a ∉ rB'.addrs := by
        intro a n hn ha hm
        rcases hfresh4 a hm with hb | hb
        · exact ha hb
        · rw [hb] at hn
          exact nomatch hn
      have keep5 : ∀ a n, h3.cell a = some n → a ∉ rB.addrs → a ≠ da → h5.cell a = some n :=
        fun a n hn ha hne => f5 a n (keep4 a n hn ha hne) (notR a n hn ha)
      have hliveL3 := WF_live _ _ hwl3
      -- a node of the copied left subtree is no node of the old right subtree
      have hL'R : ∀ a ∈ lB'.addrs, a ∉ rB.addrs := by
        intro a ha hm
        rcases hfresh2 a ha with hb | hb
        · exact hlr a hb hm
        · obtain ⟨n, hn⟩ := hliveR1 a hm
          rw [hb] at hn
          exact nomatch hn
      have hdaL' : da ∉ lB'.addrs := notL da _ hda1 hdal
      have hdaR' : da ∉ rB'.addrs := notR da _ hda3 hdar
      refine ⟨h5, .node lB' da x rB', ?_, ⟨rfl, hsame2, hsame4⟩, ⟨?_, ?_, hwr5⟩, ?_, ?_, ?_⟩
      · show copyBinaryTree (k + 1) h root (some sa) loc = .ok (h5, loc.newRoot root (some da))
        simp only [copyBinaryTree, e1, Except.ok_bind, deref_of_cell hsa1, hleftOf,
          e2', e3, deref_of_cell hsa3, hrightOf, e4', e5]
        rfl
      · exact f5 da _ hda4 hdaR'
      · apply WF_frame _ _ hwl3
        intro a ha n hn
        exact keep5 a n hn (hL'R a ha) (fun e => hdaL' (e ▸ ha))
      · refine nodup_node.mpr ⟨hndl2, hndr4, hdaL', hdaR', ?_⟩
        intro a ha hm
        obtain ⟨n, hn⟩ := hliveL3 a ha
        exact notR a n hn (hL'R a ha) hm
      · intro a ha
        simp only [Shape.addrs, List.mem_append, List.mem_cons] at ha
        by_cases hc : h.cell a = none
        · exact Or.inr hc
        left
        obtain ⟨n, hn⟩ := Option.ne_none_iff_exists'.mp hc
        by_contra hnb
        have hne : a ≠ da := by
          intro e
          rcases hdaB with hb | hb
          · exact hnb (e ▸ hb)
          · exact hc (e ▸ hb)
        have h1a := f1 a n hn hne
        have hnl : a ∉ lB.addrs := fun hm => hnb (hsubL a hm)
        have hnr : a ∉ rB.addrs := fun hm => hnb (hsubR a hm)
        rcases ha with ha | ha | ha
        · exact notL a _ h1a hnl ha
        · exact hne ha
        · exact notR a _ (keep3 a _ h1a hnl hne) hnr ha
      · intro a n hn ha
        have hne : a ≠ da := by
          intro e
          rcases hdaB with hb | hb
          · exact ha (e ▸ hb)
          · rw [e, hb] at hn
            exact nomatch hn
        have h1a := f1 a n hn hne
        exact keep5 a _ (keep3 a _ h1a (fun hm => ha (hsubL a hm)) hne)
          (fun hm => ha (hsubR a hm)) hne

/-! ## Move-insert -/

theorem insertLoopMove_eq [DecidableEq T] [LT T] [DecidableRel (fun (a b : T) => a < b)]
    (t : T) (keepUnique : Bool) :
    ∀ (fuel : Nat) (h : Heap T) (node : Nat),
      insertLoopMove fuel h t keepUnique node = insertLoop fuel h t keepUnique node := by
  intro fuel
  induction fuel with
  | zero => intro h node; rfl
  | succ k ih =>
    intro h node
    simp only [insertLoopMove, insertLoop, ih]

/-! ## Insert and the parent links -/

/-- What `addLeft(const T&)` does to the cells: the node at `a` gets a fresh
left child with a parent link back to `a`; every other live cell is unchanged. -/
theorem addLeftConst_cells {h : Heap T} {a : Nat} {n : BNode T} (hc : h.cell a = some n)
    (t : T) :
    ∃ h', BNode.addLeftConst h a t = .ok h' ∧
      h'.cell a = some { n with pLeft := some h.length } ∧
      h'.cell h.length = some (BNode.mk t none none (some a)) ∧
      ∀ b m, h.cell b = some m → b ≠ a → h'.cell b = some m := by
  have hne : a ≠ h.length := fun e => by
    rw [e, cell_length] at hc
    exact nomatch hc
  have hc0 : Heap.cell (h ++ [some (BNode.mk t none none none)]) a = some n := by
    rw [cell_alloc, if_neg hne, hc]
  have hl0 : Heap.cell (h ++ [some (BNode.mk t none none none)]) h.length
      = some (BNode.mk t none none none) := by
    rw [cell_alloc, if_pos rfl]
  obtain ⟨h1, e1, c1⟩ := modify_cells hc0 (fun n => { n with pLeft := some h.length })
  have hl1 : h1.cell h.length = some (BNode.mk t none none none) := by
    rw [c1, hl0]
    simp [Ne.symm hne]
  obtain ⟨h2, e2, c2⟩ := modify_cells hl1 (fun n => { n with pParent := some a })
  refine ⟨h2, ?_, ?_, ?_, ?_⟩
  · simp only [BNode.addLeftConst, BNode.addLeft, Heap.alloc, e1, Except.ok_bind, Heap.modifyIf,
      e2]
  · rw [c2, c1, hc0]
    simp [hne]
  · rw [c2, hl1]
    simp
  · intro b m hm hb
    have hbl : b ≠ h.length := fun e => by
      rw [e, cell_length] at hm
      exact nomatch hm
    rw [c2, c1, cell_alloc, if_neg hbl, hm]
    simp [hb, hbl]

/-- The descent loop of `insert` on a tree with consistent parent links and
distinct nodes: it returns, either from inside the loop at a node of the tree
with the heap untouched, or after attaching a fresh node; the heap then stores
a tree below the same top node with consistent parent links and distinct
nodes, made of old nodes and the fresh one, and live cells outside the old
tree are unchanged. -/
theorem insertLoop_WF [DecidableEq T] [LT T] [DecidableRel (fun (a b : T) => a < b)]
    (t : T) (keepUnique : Bool) :
    ∀ (s : Shape T) (fuel : Nat) (h : Heap T) (a : Nat) (par : Option Nat),
      s.ptr = some a → WF h par s → s.addrs.Nodup → s.height ≤ fuel →
      (∃ it, insertLoop fuel h t keepUnique a = .ok (.ret (some it) false) ∧ it ∈ s.addrs) ∨
      (∃ (h1 : Heap T) (it : Option Nat) (s' : Shape T),
        insertLoop fuel h t keepUnique a = .ok (.fin h1 it true) ∧ s'.ptr = some a ∧
        WF h1 par s' ∧ s'.addrs.Nodup ∧
        (∀ b ∈ s'.addrs, b ∈ s.addrs ∨ h.cell b = none) ∧
        (∀ b n, h.cell b = some n → b ∉ s.addrs → h1.cell b = some n)) := by
  intro s
  induction s with
  | nil =>
    intro fuel h a par hp
    exact nomatch hp
  | node l a0 x r ihl ihr =>
    intro fuel h a par hp hwf hnd hf
    simp only [Shape.ptr, Option.some.injEq] at hp
    subst hp
    cases fuel with
    | zero => simp [Shape.height] at hf
    | succ k =>
      have hlive := WF_live _ _ hwf
      obtain ⟨hc, hwl, hwr⟩ := hwf
      obtain ⟨hndl, hndr, hal, har, hlr⟩ := nodup_node.mp hnd
      simp only [Shape.height] at hf
      have hfl : l.height ≤ k := by omega
      have hfr : r.height ≤ k := by omega
      have hliveL := WF_live _ _ hwl
      have hliveR := WF_live _ _ hwr
      simp only [insertLoop, deref_of_cell hc, Except.ok_bind]
      by_cases hku : (keepUnique && decide (t = x)) = true
      · left
        refine ⟨a0, ?_, by simp [Shape.addrs]⟩
        simp only [hku, if_true]
        rfl
      · simp only [hku, Bool.false_eq_true, if_false]
        by_cases hlt : t < x
        · simp only [hlt, if_true]
          cases l with
          | nil =>
            right
            obtain ⟨h1, e1, ca, cn, cf⟩ := addLeftConst_cells hc t
            refine ⟨h1, some h.length, .node (.node .nil h.length t .nil) a0 x r, ?_, rfl,
              ⟨?_, ⟨cn, trivial, trivial⟩, ?_⟩, ?_, ?_, ?_⟩
            · simp only [Shape.ptr, e1, Except.ok_bind, deref_of_cell ca]
              rfl
            · exact ca
            · apply WF_frame _ _ hwr
              intro b hb n hn
              exact cf b n hn (fun e => har (e ▸ hb))
            · refine nodup_node.mpr ⟨by simp [Shape.addrs], hndr, ?_, har, ?_⟩
              · intro hm
                simp only [Shape.addrs, List.nil_append, List.mem_singleton] at hm
                rw [hm, cell_length] at hc
                exact nomatch hc
              · intro b hb hm
                simp only [Shape.addrs, List.nil_append, List.mem_singleton] at hb
                obtain ⟨n, hn⟩ := hliveR b hm
                rw [hb, cell_length] at hn
                exact nomatch hn
            · intro b hb
              simp only [Shape.addrs, List.nil_append, List.mem_append, List.mem_cons,
                List.mem_singleton, List.not_mem_nil, or_false] at hb ⊢
              rcases hb with hb | hb | hb
              · exact Or.inr (hb ▸ cell_length h)
              · exact Or.inl (Or.inl hb)
              · exact Or.inl (Or.inr hb)
            · intro b n hn hb
              exact cf b n hn (fun e => hb (by simp [Shape.addrs, e]))
          | node ll la lx lr =>
            have hmemL : ∀ b ∈ (Shape.node ll la lx lr).addrs,
                b ∈ (Shape.node (.node ll la lx lr) a0 x r).addrs := fun b hb => by
              simp only [Shape.addrs, List.mem_append, List.mem_cons] at hb ⊢
              exact Or.inl hb
            rcases ihl k h la (some a0) rfl hwl hndl hfl with
              ⟨it, e, hit⟩ | ⟨h1, it, l', e, hp', hwl', hndl', hfresh, hframe⟩
            · left
              exact ⟨it, e, hmemL it hit⟩
            · right
              have hnotL : ∀ b n, h.cell b = some n → b ∉ (Shape.node ll la lx lr).addrs →
                  b ∉ l'.addrs := by
                intro b n hn hb hm
                rcases hfresh b hm with hx | hx
                · exact hb hx
                · rw [hx] at hn
                  exact nomatch hn
              refine ⟨h1, it, .node l' a0 x r, e, rfl, ⟨?_, hwl', ?_⟩, ?_, ?_, ?_⟩
              · rw [hframe a0 _ hc hal, hp']
                rfl
              · apply WF_frame _ _ hwr
                intro b hb n hn
                exact hframe b n hn (fun hm => hlr b hm hb)
              · refine nodup_node.mpr ⟨hndl', hndr, hnotL a0 _ hc hal, har, ?_⟩
                intro b hb hm
                obtain ⟨n, hn⟩ := hliveR b hm
                exact hnotL b n hn (fun hx => hlr b hx hm) hb
              · intro b hb
                simp only [Shape.addrs, List.mem_append, List.mem_cons] at hb
                rcases hb with hb | hb | hb
                · rcases hfresh b hb with hx | hx
                  · exact Or.inl (hmemL b hx)
                  · exact Or.inr hx
                · exact Or.inl (by simp [Shape.addrs, hb])
                · exact Or.inl (by simp [Shape.addrs, hb])
              · intro b n hn hb
                exact hframe b n hn (fun hm => hb (hmemL b hm))
        · simp only [hlt, if_false]
          cases r with
          | nil =>
            right
            obtain ⟨h1, e1, ca, cn, cf⟩ := addLeftConst_cells hc t
            have e1' : BNode.addRightConst h a0 t = .ok h1 := e1
            refine ⟨h1, none, .node (.node .nil h.length t .nil) a0 x .nil, ?_, rfl,
              ⟨ca, ⟨cn, trivial, trivial⟩, trivial⟩, ?_, ?_, ?_⟩
            · simp only [Shape.ptr, e1', Except.ok_bind, deref_of_cell ca]
              rfl
            · refine nodup_node.mpr ⟨by simp [Shape.addrs], by simp [Shape.addrs], ?_,
                by simp [Shape.addrs], by simp [Shape.addrs]⟩
              intro hm
              simp only [Shape.addrs, List.nil_append, List.mem_singleton] at hm
              rw [hm, cell_length] at hc
              exact nomatch hc
            · intro b hb
              simp only [Shape.addrs, List.nil_append, List.mem_append, List.mem_cons,
                List.mem_singleton, List.not_mem_nil, or_false] at hb ⊢
              rcases hb with hb | hb
              · exact Or.inr (hb ▸ cell_length h)
              · exact Or.inl (Or.inr hb)
            · intro b n hn hb
              exact cf b n hn (fun e => hb (by simp [Shape.addrs, e]))
          | node rl ra rx rr =>
            have hmemR : ∀ b ∈ (Shape.node rl ra rx rr).addrs,
                b ∈ (Shape.node l a0 x (.node rl ra rx rr)).addrs := fun b hb => by
              simp only [Shape.addrs, List.mem_append, List.mem_cons] at hb ⊢
              exact Or.inr (Or.inr hb)
            rcases ihr k h ra (some a0) rfl hwr hndr hfr with
              ⟨it, e, hit⟩ | ⟨h1, it, r', e, hp', hwr', hndr', hfresh, hframe⟩
            · left
              exact ⟨it, e, hmemR it hit⟩
            · right
              have hnotR : ∀ b n, h.cell b = some n → b ∉ (Shape.node rl ra rx rr).addrs →
                  b ∉ r'.addrs := by
                intro b n hn hb hm
                rcases hfresh b hm with hx | hx
                · exact hb hx
                · rw [hx] at hn
                  exact nomatch hn
              refine ⟨h1, it, .node l a0 x r', e, rfl, ⟨?_, ?_, hwr'⟩, ?_, ?_, ?_⟩
              · rw [hframe a0 _ hc har, hp']
                rfl
              · apply WF_frame _ _ hwl
                intro b hb n hn
                exact hframe b n hn (fun hm => hlr b hb hm)
              · refine nodup_node.mpr ⟨hndl, hndr', hal, hnotR a0 _ hc har, ?_⟩
                intro b hb hm
                obtain ⟨n, hn⟩ := hliveL b hb
                exact hnotR b n hn (fun hx => hlr b hb hx) hm
              · intro b hb
                simp only [Shape.addrs, List.mem_append, List.mem_cons] at hb
                rcases hb with hb | hb | hb
                · exact Or.inl (by simp [Shape.addrs, hb])
                · exact Or.inl (by simp [Shape.addrs, hb])
                · rcases hfresh b hb with hx | hx
                  · exact Or.inl (hmemR b hx)
                  · exact Or.inr hx
              · intro b n hn hb
                exact hframe b n hn (fun hm => hb (hmemR b hm))

/-! ## Null-safety of erase -/

/-- A heap whose cells are those of another one mapped by functions has the
same live addresses. -/
theorem live_of_cells {h h' : Heap T} (g : Nat → BNode T → BNode T)
    (hc : ∀ b, h'.cell b = (h.cell b).map (g b)) :
    ∀ b, (h'.cell b).isSome = (h.cell b).isSome := by
  intro b
  rw [hc b]
  cases h.cell b <;> rfl

theorem live_iff {h h' : Heap T} (hl : ∀ b, (h'.cell b).isSome = (h.cell b).isSome) (a : Nat) :
    (∃ n, h.cell a = some n) → ∃ n, h'.cell a = some n := by
  rintro ⟨n, hn⟩
  have := hl a
  rw [hn] at this
  exact Option.isSome_iff_exists.mp this

/-- `addLeft(BNode*)` on a live node with a live or null argument returns and
releases nothing. -/
theorem addLeft_ok {h : Heap T} {q : Nat} {m : BNode T} (hq : h.cell q = some m)
    (p : Option Nat) (hp : ∀ a, p = some a → ∃ n, h.cell a = some n) :
    ∃ h', BNode.addLeft h q p = .ok h' ∧ ∀ b, (h'.cell b).isSome = (h.cell b).isSome := by
  obtain ⟨h1, e1, c1⟩ := modify_cells hq (fun n => { n with pLeft := p })
  have l1 := live_of_cells _ c1
  obtain ⟨h2, e2, c2⟩ := modifyIf_cells (h := h1) (p := p)
    (fun a ha => live_iff l1 a (hp a ha)) (fun n => { n with pParent := some q })
  have l2 := live_of_cells _ c2
  refine ⟨h2, ?_, fun b => (l2 b).trans (l1 b)⟩
  simp only [BNode.addLeft, e1, Except.ok_bind, e2]

/-- `addRight(BNode*)` on a live node with a live or null argument returns and
releases nothing. -/
theorem addRight_ok {h : Heap T} {q : Nat} {m : BNode T} (hq : h.cell q = some m)
    (p : Option Nat) (hp : ∀ a, p = some a → ∃ n, h.cell a = some n) :
    ∃ h', BNode.addRight h q p = .ok h' ∧ ∀ b, (h'.cell b).isSome = (h.cell b).isSome := by
  obtain ⟨h1, e1, c1⟩ := modify_cells hq (fun n => { n with pRight := p })
  have l1 := live_of_cells _ c1
  obtain ⟨h2, e2, c2⟩ := modifyIf_cells (h := h1) (p := p)
    (fun a ha => live_iff l1 a (hp a ha)) (fun n => { n with pParent := some q })
  have l2 := live_of_cells _ c2
  refine ⟨h2, ?_, fun b => (l2 b).trans (l1 b)⟩
  simp only [BNode.addRight, e1, Except.ok_bind, e2]

/-- `deleteNode` follows no null link when the node has a live parent unless it
is the root, and the promoted child is live, and not null when the node is the
root. -/
theorem deleteNode_ok {h : Heap T} (root : Option Nat) (d : Nat) (toRight : Bool) (n : BNode T)
    (hc : h.cell d = some n)
    (hpar : some d ≠ root → ∃ q m, n.pParent = some q ∧ h.cell q = some m)
    (hnext : ∀ a, (if toRight then n.pRight else n.pLeft) = some a → ∃ m, h.cell a = some m)
    (hroot : some d = root → ∃ a, (if toRight then n.pRight else n.pLeft) = some a) :
    ∃ res, deleteNode h root d toRight = .ok res ∧
      ∀ b, (res.1.cell b).isSome = (h.cell b).isSome := by
  by_cases hr : some d = root
  · obtain ⟨a, ha⟩ := hroot hr
    obtain ⟨m, hm⟩ := hnext a ha
    obtain ⟨h1, e1, c1⟩ := modify_cells hm (fun n => { n with pParent := none })
    subst hr
    refine ⟨(h1, some a), ?_, live_of_cells _ c1⟩
    simp only [deleteNode, deref_of_cell hc, Except.ok_bind, ne_eq, not_true_eq_false,
      if_false, ha, e1]
    rfl
  · obtain ⟨q, m, hq, hm⟩ := hpar hr
    by_cases hl : m.pLeft = some d
    · obtain ⟨h1, e1, c1⟩ := modify_cells hm (fun n => { n with pLeft := none })
      have l1 := live_of_cells _ c1
      obtain ⟨m1, hm1⟩ := live_iff l1 q ⟨m, hm⟩
      obtain ⟨h2, e2, l2⟩ := addLeft_ok hm1 (if toRight then n.pRight else n.pLeft)
        (fun a ha => live_iff l1 a (hnext a ha))
      refine ⟨(h2, root), ?_, fun b => (l2 b).trans (l1 b)⟩
      simp only [deleteNode, deref_of_cell hc, Except.ok_bind, hr, ne_eq, not_false_eq_true,
        if_true, hq, deref_of_cell hm, hl, e1, e2]
      rfl
    · obtain ⟨h1, e1, c1⟩ := modify_cells hm (fun n => { n with pRight := none })
      have l1 := live_of_cells _ c1
      obtain ⟨m1, hm1⟩ := live_iff l1 q ⟨m, hm⟩
      obtain ⟨h2, e2, l2⟩ := addRight_ok hm1 (if toRight then n.pRight else n.pLeft)
        (fun a ha => live_iff l1 a (hnext a ha))
      refine ⟨(h2, root), ?_, fun b => (l2 b).trans (l1 b)⟩
      simp only [deleteNode, deref_of_cell hc, Except.ok_bind, hr, ne_eq, not_false_eq_true,
        if_true, hq, deref_of_cell hm, hl, if_false, e1, e2]
      rfl

/-- `operator++` follows no null link at a node of a tree with consistent
parent links that has a right child or is not the root. -/
theorem increment_ok (fuel : Nat) (h : Heap T) (fs : List (Step T)) (l : Shape T) (d : Nat)
    (x : T) (r : Shape T)
    (hwf : WF h none (plugUp fs (.node l d x r)))
    (hnd : (plugUp fs (.node l d x r)).addrs.Nodup)
    (hfuel : (plugUp fs (.node l d x r)).height ≤ fuel)
    (hcase : r ≠ .nil ∨ fs ≠ []) :
    ∃ res, increment fuel h (some d) = .ok res := by
  have hcur := (WF_plugUp_hole none fs _ hwf).1
  have hwfr : WF h (some d) r := (WF_plugUp_hole none fs _ hwf).2.2
  have hheight := height_plugUp_ge (.node l d x r) fs
  simp only [Shape.height] at hheight
  cases r with
  | node rl ra rx rr =>
    obtain ⟨sp, S, y, srs, er⟩ := exists_spine (.node rl ra rx rr) (by simp)
    rw [er] at hwfr hcur hheight hfuel
    obtain ⟨ra', hra'⟩ := ptr_plugL_node sp S y srs
    have hsp := height_plugL_ge (.node .nil S y srs) sp
    simp only [Shape.height] at hsp
    have hlm := leftmost_spine S y srs sp fuel ra' (WF_Rep _ _ hwfr) hra' (by omega)
    rw [hra'] at hcur
    refine ⟨some S, ?_⟩
    simp only [increment, deref_of_cell hcur, Except.ok_bind, hlm]
    rfl
  | nil =>
    have hfs : fs ≠ [] := by
      rcases hcase with hc | hc
      · exact absurd rfl hc
      · exact hc
    obtain ⟨rs, rest, efs, hrs, hrest⟩ := split_rights fs
    subst efs
    cases rs with
    | nil =>
      simp only [List.nil_append] at hwf hcur hfs
      rcases hrest with e | ⟨p, px, pr, rest', e⟩
      · exact absurd e hfs
      · subst e
        have hp := (WF_plugUp_hole none rest' _ hwf).1
        have hcur' : h.cell d = some (BNode.mk x l.ptr none (some p)) := hcur
        have hp' : h.cell p = some (BNode.mk px (some d) pr.ptr (upParent none rest')) := hp
        refine ⟨some p, ?_⟩
        simp only [increment, deref_of_cell hcur', Except.ok_bind, deref_of_cell hp', if_true]
        rfl
    | cons f rs' =>
      cases f with
      | left a ax ar => simpa [Step.isRight] using hrs (Step.left a ax ar) (by simp)
      | right pl q qx =>
        have hq := (WF_plugUp_hole none (rs' ++ rest) _ hwf).1
        have hndq := nodup_plugUp_hole (rs' ++ rest) _ hnd
        obtain ⟨_, _, _, _, hdis⟩ := nodup_node.mp hndq
        have hne : ¬ (pl.ptr = some d) := fun e =>
          hdis d (ptr_mem_addrs e) (by simp [Shape.addrs])
        obtain ⟨top, n, e, hc, hpar⟩ := climbRight_spec (Step.right pl q qx :: rs')
          rest (.node l d x .nil) d fuel hrs hrest rfl hwf hnd (by
            simp only [List.length_cons, List.length_append] at hheight ⊢
            omega)
        have hcur' : h.cell d = some (BNode.mk x l.ptr none (some q)) := hcur
        have hq' : h.cell q = some (BNode.mk qx pl.ptr (some d)
            (upParent none (rs' ++ rest))) := hq
        refine ⟨n.pParent, ?_⟩
        simp only [increment, deref_of_cell hcur', Except.ok_bind, deref_of_cell hq', hne,
          if_false, if_true, e, deref_of_cell hc]
        rfl

theorem free_ok {h : Heap T} {a : Nat} (hl : ∃ n, h.cell a = some n) :
    ∃ h', h.free (some a) = .ok h' := by
  obtain ⟨n, hn⟩ := hl
  exact ⟨List.set h a none, by simp [Heap.free, hn]⟩

/-- The root of a tree is no node of a proper subtree, when the nodes are
distinct. -/
theorem ptr_plugUp_ne :
    ∀ (fs : List (Step T)) (t : Shape T), fs ≠ [] → (plugUp fs t).addrs.Nodup →
      ∀ a ∈ t.addrs, (plugUp fs t).ptr ≠ some a := by
  intro fs
  induction fs with
  | nil => intro t hne; exact absurd rfl hne
  | cons f fs ih =>
    intro t _ hnd a ha
    have hmem : a ∈ (f.fill t).addrs := by
      cases f <;> simp [Step.fill, Shape.addrs, ha]
    cases fs with
    | nil =>
      have hnd' : (f.fill t).addrs.Nodup := hnd
      cases f with
      | left p px pr =>
        obtain ⟨_, _, hp, _, _⟩ := nodup_node.mp hnd'
        intro e
        simp only [plugUp, Step.fill, Shape.ptr, Option.some.injEq] at e
        exact hp (e ▸ ha)
      | right pl p px =>
        obtain ⟨_, _, _, hp, _⟩ := nodup_node.mp hnd'
        intro e
        simp only [plugUp, Step.fill, Shape.ptr, Option.some.injEq] at e
        exact hp (e ▸ ha)
    | cons g gs => exact ih (f.fill t) (by simp) hnd a hmem

/-- The parent of a proper subtree is a live node outside the subtree. -/
theorem upParent_live {h : Heap T} :
    ∀ (fs : List (Step T)) (t : Shape T), WF h none (plugUp fs t) →
      (plugUp fs t).addrs.Nodup →
      ∀ p, upParent none fs = some p → p ∉ t.addrs ∧ ∃ pn, h.cell p = some pn := by
  intro fs t hwf hnd p hp
  cases fs with
  | nil => exact nomatch hp
  | cons f fs =>
    simp only [upParent, Option.some.injEq] at hp
    subst hp
    have hw := WF_plugUp_hole none fs (f.fill t) hwf
    have hn := nodup_plugUp_hole fs (f.fill t) hnd
    cases f with
    | left p px pr =>
      obtain ⟨_, _, hp, _, _⟩ := nodup_node.mp hn
      exact ⟨hp, _, hw.1⟩
    | right pl p px =>
      obtain ⟨_, _, _, hp, _⟩ := nodup_node.mp hn
      exact ⟨hp, _, hw.1⟩

/-- The two-children branch of `erase` follows no null link, and leaves the
erased node live for the final `delete`. -/
theorem eraseSplice_ok (fuel : Nat) (h : Heap T) (root : Option Nat) (ps : List (Step T))
    (ll : Shape T) (la : Nat) (lx : T) (lr : Shape T) (d : Nat) (x : T) (r : Shape T)
    (hr : r ≠ .nil)
    (hwf : WF h none (plugUp ps (.node (.node ll la lx lr) d x r)))
    (hnd : (plugUp ps (.node (.node ll la lx lr) d x r)).addrs.Nodup)
    (hfuel : (plugUp ps (.node (.node ll la lx lr) d x r)).height ≤ fuel) :
    ∃ res, eraseSplice fuel h root d = .ok res ∧ res.1.cell d = h.cell d := by
  obtain ⟨fs, S, y, srs, er⟩ := exists_spine r hr
  subst er
  have hloc := WF_plugUp_hole none ps _ hwf
  have hndloc := nodup_plugUp_hole ps _ hnd
  have hpar := upParent_live ps _ hwf hnd
  have hheight := height_plugUp_ge (.node (.node ll la lx lr) d x
    (plugL fs (.node .nil S y srs))) ps
  have hsp := height_plugL_ge (.node .nil S y srs) fs
  simp only [Shape.height] at hheight hsp
  obtain ⟨h3, e3, _, hcd, _⟩ := eraseSplice_spec root (upParent none ps) fuel d x
    ll la lx lr fs S y srs hloc hndloc hpar (by omega)
  exact ⟨_, e3, hcd⟩

/-! ## The claims -/

/-- C1 (code defect). The order invariant is not preserved by `insert`: on the
ordered one-node tree holding 3, `insert(5, false)` descends to the right of
the root, where `addRight(const T&)` attaches the new node as the left child;
the tree reachable from the root afterwards holds 5 in the left subtree of 3,
and no shape that the heap stores below the root is ordered. -/
theorem insert_right_breaks_order :
    IsTree [some (BNode.mk 3 none none none)] (BST.mk (some 0) 1) (Shape.node .nil 0 3 .nil) ∧
    Ordered (Shape.node .nil 0 3 .nil) ∧
    ∃ h' b' it, insert 1 [some (BNode.mk 3 none none none)] (BST.mk (some 0) 1) 5 false
        = .ok (h', b', it, true) ∧
      IsTree h' b' (Shape.node (.node .nil 1 5 .nil) 0 3 .nil) ∧
      ∀ s', IsTree h' b' s' → ¬ Ordered s' := by
  refine ⟨⟨rfl, ⟨none, rfl⟩, trivial, trivial⟩, by simp [Ordered, Shape.elems], ?_⟩
  have ht : IsTree [some (BNode.mk 3 (some 1) none none), some (BNode.mk 5 none none (some 0))]
      (BST.mk (some 0) 2) (Shape.node (.node .nil 1 5 .nil) 0 3 .nil) :=
    ⟨rfl, ⟨none, rfl⟩, ⟨⟨some 0, rfl⟩, trivial, trivial⟩, trivial⟩
  refine ⟨_, _, _, rfl, ht, ?_⟩
  intro s' hs'
  have hs := Rep_unique _ _ hs'.2 ht.2 (hs'.1.symm.trans ht.1)
  subst hs
  simp [Ordered, Shape.elems]

/-- C2 (code defect). The count invariant is not preserved by `insert`: on the
two-node tree 5 with left child 3 (size 2), `insert(8, false)` overwrites the
left link of 5 with the new node; afterwards `size()` is 3 while the tree
reachable from the root has 2 nodes, and the node holding 3 (address 1) is no
longer reachable. -/
theorem insert_right_breaks_count :
    IsTree [some (BNode.mk 5 (some 1) none none), some (BNode.mk 3 none none (some 0))]
      (BST.mk (some 0) 2) (Shape.node (.node .nil 1 3 .nil) 0 5 .nil) ∧
    (Shape.node (.node .nil 1 3 .nil) 0 5 .nil).size = BST.size (BST.mk (some 0) 2) ∧
    ∃ h' b' it, insert 1 [some (BNode.mk 5 (some 1) none none),
          some (BNode.mk 3 none none (some 0))] (BST.mk (some 0) 2) 8 false
        = .ok (h', b', it, true) ∧
      b'.size = 3 ∧
      ∀ s', IsTree h' b' s' → s'.size = 2 ∧ 1 ∉ s'.addrs := by
  refine ⟨⟨rfl, ⟨none, rfl⟩, ⟨⟨some 0, rfl⟩, trivial, trivial⟩, trivial⟩, rfl, ?_⟩
  have ht : IsTree [some (BNode.mk 5 (some 2) none none), some (BNode.mk 3 none none (some 0)),
        some (BNode.mk 8 none none (some 0))]
      (BST.mk (some 0) 3) (Shape.node (.node .nil 2 8 .nil) 0 5 .nil) :=
    ⟨rfl, ⟨none, rfl⟩, ⟨⟨some 0, rfl⟩, trivial, trivial⟩, trivial⟩
  refine ⟨_, _, _, rfl, rfl, ?_⟩
  intro s' hs'
  have hs := Rep_unique _ _ hs'.2 ht.2 (hs'.1.symm.trans ht.1)
  subst hs
  simp [Shape.size, Shape.addrs]

/-- C3 (code defect). When the descent ends on a right link the returned
iterator is the end iterator: on the one-node tree holding 3, `insert(5, false)`
returns `inserted = true` together with `end()`, because the new node was
attached on the left and `iterator(node->pRight)` is still null. -/
theorem insert_right_returns_end :
    ∃ h' b', insert 1 [some (BNode.mk 3 none none none)] (BST.mk (some 0) 1) 5 false
        = .ok (h', b', BST.end, true) ∧
      h'.cell 0 = some (BNode.mk 3 (some 1) none none) ∧
      h'.cell 1 = some (BNode.mk 5 none none (some 0)) :=
  ⟨_, _, rfl, rfl, rfl⟩

/-- C4. Uniqueness: on a tree that satisfies the order invariant and holds an
element equal to `t`, `insert(t, true)` (given fuel for the height of the tree)
returns `inserted = false` with an iterator to a node of the tree whose element
is `t`, and the heap (every node's links and element) and the tree object
(root and `size()`) are unchanged. -/
theorem insert_keepUnique_existing [LinearOrder T] (fuel : Nat) (h : Heap T) (b : BST)
    (s : Shape T) (t : T) (htree : IsTree h b s) (hord : Ordered s) (hmem : t ∈ s.elems)
    (hfuel : s.height ≤ fuel) :
    ∃ a n, insert fuel h b t true = .ok (h, b, some a, false) ∧ a ∈ s.addrs ∧
      h.cell a = some n ∧ n.data = t := by
  obtain ⟨hroot, hrep⟩ := htree
  cases s with
  | nil => simp [Shape.elems] at hmem
  | node l a0 x r =>
    obtain ⟨a, n, h1, h2, h3, h4⟩ := insertLoop_match h t _ fuel a0 hrep hord hmem hfuel rfl
    refine ⟨a, n, ?_, h2, h3, h4⟩
    simp only [Shape.ptr] at hroot
    simp only [insert, hroot, h1, Except.ok_bind]
    rfl

/-- C4 at a concrete input: the tree 5 with left child 3, and `insert(3, true)`. -/
theorem insert_keepUnique_existing_witness :
    IsTree [some (BNode.mk 5 (some 1) none none), some (BNode.mk 3 none none (some 0))]
      (BST.mk (some 0) 2) (Shape.node (.node .nil 1 3 .nil) 0 5 .nil) ∧
    Ordered (Shape.node (.node .nil 1 3 .nil) 0 5 .nil) ∧
    ∃ a n, insert 2 [some (BNode.mk 5 (some 1) none none), some (BNode.mk 3 none none (some 0))]
          (BST.mk (some 0) 2) 3 true
        = .ok ([some (BNode.mk 5 (some 1) none none), some (BNode.mk 3 none none (some 0))],
            BST.mk (some 0) 2, some a, false) ∧
      a ∈ (Shape.node (.node .nil 1 3 .nil) 0 5 .nil).addrs ∧
      Heap.cell [some (BNode.mk 5 (some 1) none none), some (BNode.mk 3 none none (some 0))] a
        = some n ∧ n.data = 3 :=
  have ht : IsTree [some (BNode.mk 5 (some 1) none none), some (BNode.mk 3 none none (some 0))]
      (BST.mk (some 0) 2) (Shape.node (.node .nil 1 3 .nil) 0 5 .nil) :=
    ⟨rfl, ⟨none, rfl⟩, ⟨⟨some 0, rfl⟩, trivial, trivial⟩, trivial⟩
  have ho : Ordered (Shape.node (.node .nil 1 3 .nil) 0 5 .nil) := by
    simp [Ordered, Shape.elems]
  ⟨ht, ho, insert_keepUnique_existing 2 _ _ _ 3 ht ho (by simp [Shape.elems])
    (by simp [Shape.height])⟩

/-- C5. Insert into an empty tree: for every heap, element and flag, `insert` on
the tree with null root and count 0 allocates one node holding `t` with null
child and parent links, makes it the root, sets `size()` to 1 and returns the
iterator to it with `inserted = true`; the cells that existed are unchanged. -/
theorem insert_empty [DecidableEq T] [LT T] [DecidableRel (fun (a b : T) => a < b)]
    (fuel : Nat) (h : Heap T) (t : T) (keepUnique : Bool) :
    insert fuel h (BST.mk none 0) t keepUnique
        = .ok (h ++ [some (BNode.mk t none none none)], BST.mk (some h.length) 1,
            some h.length, true) ∧
      Heap.cell (h ++ [some (BNode.mk t none none none)]) h.length
        = some (BNode.mk t none none none) ∧
      WF (h ++ [some (BNode.mk t none none none)]) none (Shape.node .nil h.length t .nil) ∧
      (∀ a, a < h.length → Heap.cell (h ++ [some (BNode.mk t none none none)]) a = h.cell a) ∧
      BST.size (BST.mk (some h.length) 1) = 1 := by
  have hc : Heap.cell (h ++ [some (BNode.mk t none none none)]) h.length
        = some (BNode.mk t none none none) := by
    simp [Heap.cell]
  refine ⟨rfl, hc, ⟨hc, trivial, trivial⟩, ?_, rfl⟩
  intro a ha
  simp [Heap.cell, List.getElem?_append_left ha]

/-- C6. On a tree that satisfies the order invariant, `find(t)` (given fuel
beyond the height of the tree) returns an iterator to a node of the tree whose
element is `t` when the tree holds an element equal to `t`, and the end
iterator otherwise. The embedded `find` only reads the heap: it has no heap
result, so the tree is the same after the call. -/
theorem find_correct [LinearOrder T] (fuel : Nat) (h : Heap T) (b : BST) (s : Shape T) (t : T)
    (htree : IsTree h b s) (hord : Ordered s) (hfuel : s.height < fuel) :
    (t ∈ s.elems → ∃ a n, find fuel h b t = .ok (some a) ∧ a ∈ s.addrs ∧
        h.cell a = some n ∧ n.data = t) ∧
    (t ∉ s.elems → find fuel h b t = .ok BST.end) := by
  obtain ⟨hroot, hrep⟩ := htree
  have hs := findLoop_spec h t s fuel hrep hord hfuel
  simp only [find, hroot]
  exact hs

/-- C6 at a concrete input: the tree 5 with left child 3; 3 is found, 4 is not. -/
theorem find_correct_witness :
    IsTree [some (BNode.mk 5 (some 1) none none), some (BNode.mk 3 none none (some 0))]
      (BST.mk (some 0) 2) (Shape.node (.node .nil 1 3 .nil) 0 5 .nil) ∧
    Ordered (Shape.node (.node .nil 1 3 .nil) 0 5 .nil) ∧
    find 3 [some (BNode.mk 5 (some 1) none none), some (BNode.mk 3 none none (some 0))]
      (BST.mk (some 0) 2) 4 = .ok BST.end :=
  have ht : IsTree [some (BNode.mk 5 (some 1) none none), some (BNode.mk 3 none none (some 0))]
      (BST.mk (some 0) 2) (Shape.node (.node .nil 1 3 .nil) 0 5 .nil) :=
    ⟨rfl, ⟨none, rfl⟩, ⟨⟨some 0, rfl⟩, trivial, trivial⟩, trivial⟩
  have ho : Ordered (Shape.node (.node .nil 1 3 .nil) 0 5 .nil) := by
    simp [Ordered, Shape.elems]
  ⟨ht, ho, (find_correct 3 _ _ _ 4 ht ho (by simp [Shape.height])).2
    (by simp [Shape.elems])⟩

/-- C7 (code defect). The traversal of a tree built by `insert(_, true)` does
not yield the elements in ascending order. After inserting 3 alone, `begin()`
is the root and `operator++` there reads `pCurrent->pParent->pLeft` through the
null parent link: the traversal faults for every fuel and never returns a
sequence. After inserting 3 then 5, the node holding 5 is the left child of the
node holding 3, so `begin()` designates 5 and its increment designates 3. -/
theorem traversal_after_inserts_fails :
    (∀ fuel, insertThenTraverse (fuel + 1) true [3] = .error .nullDeref) ∧
    (∀ fuel out, insertThenTraverse fuel true [3] ≠ .ok out) ∧
    ∃ h b, insertAll 2 true [3, 5] ([], BST.mk none 0) = .ok (h, b) ∧
      begin 2 h b = .ok (some 1) ∧ h.cell 1 = some (BNode.mk 5 none none (some 0)) ∧
      increment 2 h (some 1) = .ok (some 0) ∧
      h.cell 0 = some (BNode.mk 3 (some 1) none none) ∧
      increment 2 h (some 0) = .error .nullDeref := by
  refine ⟨fun _ => rfl, ?_, _, _, rfl, rfl, rfl, rfl, rfl, rfl⟩
  intro fuel out
  cases fuel with
  | zero => exact fun hh => nomatch hh
  | succ k => exact fun hh => nomatch hh

/-- C8 (code defect). The round trip of the example does not produce
3, 4, 7, 8, 9. The seven inserts leave the root 5 with the single child 9 (each
element that went right overwrote the left link), and `erase(find(5))` then
increments an iterator at the root, which has no right child and a null parent:
the run faults on a null pointer for every fuel that lets the inserts finish,
and returns no sequence for any fuel. -/
theorem roundTrip_fails :
    (∀ ku fuel, roundTrip ku (fuel + 3) = .error .nullDeref) ∧
    (∀ ku fuel out, roundTrip ku fuel ≠ .ok out) ∧
    insertAll 3 false [5, 3, 8, 1, 4, 7, 9] ([], BST.mk none 0)
      = .ok ([some (BNode.mk 5 (some 6) none none), some (BNode.mk 3 none none (some 0)),
              some (BNode.mk 8 (some 3) none (some 0)), some (BNode.mk 1 (some 4) none (some 2)),
              some (BNode.mk 4 none none (some 3)), some (BNode.mk 7 none none (some 0)),
              some (BNode.mk 9 none none (some 0))], BST.mk (some 0) 7) := by
  refine ⟨roundTrip_nullDeref, ?_, rfl⟩
  intro ku fuel out
  match fuel with
  | 0 => cases ku <;> exact fun hh => nomatch hh
  | 1 => cases ku <;> exact fun hh => nomatch hh
  | 2 => cases ku <;> exact fun hh => nomatch hh
  | k + 3 =>
    rw [roundTrip_nullDeref]
    exact fun hh => nomatch hh

/-- C9. Erase, two-child case. For every tree `s` with consistent parent links
and distinct nodes, and every node `d` of it whose two child links are non-null
(given fuel for the height of the tree), the tree decomposes as a context `c`
around `d`, the left subtree `l` of `d`, and the left spine `fs` from the right
child of `d` down to the successor `S` (the leftmost node of the right subtree,
with right subtree `srs`; `fs` is empty when `S` is the right child itself,
`c` is the empty context when `d` is the root), and `erase` returns the iterator
to `S` and the tree `c[node l S (fs[srs])]`: `S` in the place of `d` with `l`
as its left subtree. The result has consistent parent links and distinct
nodes, its in-order sequence is the old one without `d`, the cell of `d` is
released, the count is decremented, and the order invariant is kept. -/
theorem erase_two_children [LinearOrder T] (fuel : Nat) (h : Heap T) (b : BST)
    (s : Shape T) (d : Nat) (n : BNode T)
    (hroot : b.root = s.ptr) (hwf : WF h none s) (hnd : s.addrs.Nodup)
    (hd : d ∈ s.addrs) (hn : h.cell d = some n)
    (hleft : n.pLeft ≠ none) (hright : n.pRight ≠ none) (hfuel : s.height ≤ fuel) :
    ∃ (c : Ctx T) (l : Shape T) (x : T) (fs : List (Nat × T × Shape T)) (S : Nat) (y : T)
      (srs : Shape T) (h' : Heap T),
      s = c.plug (.node l d x (plugL fs (.node .nil S y srs))) ∧ l.ptr = n.pLeft ∧
      erase fuel h b (some d)
        = .ok (h', BST.mk (c.plug (.node l S y (plugL fs srs))).ptr
            ((b.numElements + sizeMod - 1) % sizeMod), some S) ∧
      WF h' none (c.plug (.node l S y (plugL fs srs))) ∧
      (c.plug (.node l S y (plugL fs srs))).addrs.Nodup ∧
      (c.plug (.node l S y (plugL fs srs))).inorder
        = s.inorder.filter (fun p => decide (p.1 ≠ d)) ∧
      h'.cell d = none ∧
      (Ordered s → Ordered (c.plug (.node l S y (plugL fs srs)))) := by
  obtain ⟨c, l, x, r, es⟩ := exists_ctx_of_mem s d hd
  subst es
  have hloc := WF_plug_hole _ c none hwf
  have hcell : n = BNode.mk x l.ptr r.ptr (c.holeParent none) := by
    have := hloc.1
    rw [hn] at this
    exact Option.some.inj this
  have hl : l ≠ .nil := by
    intro e
    apply hleft
    rw [hcell, e]
    rfl
  have hr : r ≠ .nil := by
    intro e
    apply hright
    rw [hcell, e]
    rfl
  obtain ⟨fs, S, y, srs, er⟩ := exists_spine r hr
  subst er
  cases l with
  | nil => exact absurd rfl hl
  | node ll la lx lr =>
    have hfs : fs.length < fuel := by
      have h1 := height_plug_ge (.node (.node ll la lx lr) d x (plugL fs (.node .nil S y srs))) c
      have h2 := height_plugL_ge (.node .nil S y srs) fs
      simp only [Shape.height] at h1 h2
      omega
    obtain ⟨h', e1, e2, e3, e4, e5, e6⟩ := erase_splice_plug fuel h b c ll la lx lr d x fs S y srs
      hroot hwf hnd hfs
    exact ⟨c, .node ll la lx lr, x, fs, S, y, srs, h', rfl, by rw [hcell], e1, e2, e3, e4, e5,
      e6⟩

/-- C9 at a concrete input: the tree 5 (3 (1, 4), 8 (7, 9)) and the erasure of
its root, whose successor 7 is the left child of the right child. -/
theorem erase_two_children_witness :
    WF exampleHeap none exampleShape ∧ exampleShape.addrs.Nodup ∧
    erase 3 exampleHeap (BST.mk (some 0) 7) (some 0)
      = .ok ([none, some (BNode.mk 3 (some 3) (some 4) (some 5)),
              some (BNode.mk 8 none (some 6) (some 5)), some (BNode.mk 1 none none (some 1)),
              some (BNode.mk 4 none none (some 1)), some (BNode.mk 7 (some 1) (some 2) none),
              some (BNode.mk 9 none none (some 2))], BST.mk (some 5) 6, some 5) ∧
    ∃ (c : Ctx Nat) (l : Shape Nat) (x : Nat) (fs : List (Nat × Nat × Shape Nat)) (S : Nat)
      (y : Nat) (srs : Shape Nat) (h' : Heap Nat),
      exampleShape = c.plug (.node l 0 x (plugL fs (.node .nil S y srs))) ∧
      l.ptr = (BNode.mk 5 (some 1) (some 2) none).pLeft ∧
      erase 3 exampleHeap (BST.mk (some 0) 7) (some 0)
        = .ok (h', BST.mk (c.plug (.node l S y (plugL fs srs))).ptr
            ((7 + sizeMod - 1) % sizeMod), some S) ∧
      WF h' none (c.plug (.node l S y (plugL fs srs))) ∧
      (c.plug (.node l S y (plugL fs srs))).addrs.Nodup ∧
      (c.plug (.node l S y (plugL fs srs))).inorder
        = exampleShape.inorder.filter (fun p => decide (p.1 ≠ 0)) ∧
      h'.cell 0 = none ∧
      (Ordered exampleShape → Ordered (c.plug (.node l S y (plugL fs srs)))) :=
  have hwf : WF exampleHeap none exampleShape :=
    ⟨rfl, ⟨rfl, ⟨rfl, trivial, trivial⟩, ⟨rfl, trivial, trivial⟩⟩,
      ⟨rfl, ⟨rfl, trivial, trivial⟩, ⟨rfl, trivial, trivial⟩⟩⟩
  have hnd : exampleShape.addrs.Nodup := by decide
  ⟨hwf, hnd, rfl, erase_two_children 3 exampleHeap (BST.mk (some 0) 7) exampleShape 0
    (BNode.mk 5 (some 1) (some 2) none) rfl hwf hnd (by decide) rfl (by simp) (by simp)
    (by decide)⟩

/-- C10 (code defect). Erasing the only node of a one-element tree follows a
null pointer: `++itNext` reads `pCurrent->pParent->pLeft` with a null parent
link, and `deleteNode` (reached on its own) assigns `pNext->pParent` with a
null `pNext`. The tree is well formed and the node has no left child. -/
theorem erase_single_node_faults :
    WF [some (BNode.mk 5 none none none)] none (Shape.node .nil 0 5 .nil) ∧
    (∀ fuel, erase fuel [some (BNode.mk 5 none none none)] (BST.mk (some 0) 1) (some 0)
      = .error .nullDeref) ∧
    (∀ fuel, increment fuel [some (BNode.mk 5 none none none)] (some 0) = .error .nullDeref) ∧
    deleteNode [some (BNode.mk 5 none none none)] (some 0) 0 true = .error .nullDeref :=
  ⟨⟨rfl, trivial, trivial⟩, fun _ => rfl, fun _ => rfl, rfl⟩

/-- C11 (code defect). Erasing a root that has a left child but no right child
follows a null pointer: on the tree 5 with left child 3, `erase` at the root
takes the no-right-child branch and `++itNext` reads `pCurrent->pParent->pLeft`
through the null parent link of the root, so the erasure never completes.
`deleteNode` on its own would make the left child the new root with a null
parent link. -/
theorem erase_root_without_right_faults :
    WF [some (BNode.mk 5 (some 1) none none), some (BNode.mk 3 none none (some 0))] none
      (Shape.node (.node .nil 1 3 .nil) 0 5 .nil) ∧
    (∀ fuel, erase fuel [some (BNode.mk 5 (some 1) none none),
        some (BNode.mk 3 none none (some 0))] (BST.mk (some 0) 2) (some 0)
      = .error .nullDeref) ∧
    (∀ fuel, increment fuel [some (BNode.mk 5 (some 1) none none),
        some (BNode.mk 3 none none (some 0))] (some 0) = .error .nullDeref) ∧
    deleteNode [some (BNode.mk 5 (some 1) none none),
        some (BNode.mk 3 none none (some 0))] (some 0) 0 false
      = .ok ([some (BNode.mk 5 (some 1) none none), some (BNode.mk 3 none none none)], some 1) :=
  ⟨⟨rfl, ⟨rfl, trivial, trivial⟩, trivial⟩, fun _ => rfl, fun _ => rfl, rfl⟩

/-- C12 (code defect). `erase` does not decrement the count for every node: on
the tree 5 with left child 3 and on the one-node tree, both with `size()` equal
to the number of reachable nodes, erasing the root faults on a null pointer
before `numElements--` is reached, for every fuel, and returns no tree. -/
theorem erase_root_no_count :
    IsTree [some (BNode.mk 5 (some 1) none none), some (BNode.mk 3 none none (some 0))]
      (BST.mk (some 0) 2) (Shape.node (.node .nil 1 3 .nil) 0 5 .nil) ∧
    (Shape.node (.node .nil 1 3 .nil) 0 5 .nil).size = BST.size (BST.mk (some 0) 2) ∧
    (∀ fuel out, erase fuel [some (BNode.mk 5 (some 1) none none),
        some (BNode.mk 3 none none (some 0))] (BST.mk (some 0) 2) (some 0) ≠ .ok out) ∧
    IsTree [some (BNode.mk 5 none none none)] (BST.mk (some 0) 1) (Shape.node .nil 0 5 .nil) ∧
    (Shape.node .nil 0 5 .nil).size = BST.size (BST.mk (some 0) 1) ∧
    (∀ fuel out, erase fuel [some (BNode.mk 5 none none none)] (BST.mk (some 0) 1) (some 0)
      ≠ .ok out) := by
  refine ⟨⟨rfl, ⟨none, rfl⟩, ⟨⟨some 0, rfl⟩, trivial, trivial⟩, trivial⟩, rfl, ?_,
    ⟨rfl, ⟨none, rfl⟩, trivial, trivial⟩, rfl, ?_⟩
  · intro fuel out hh
    have he : erase fuel [some (BNode.mk 5 (some 1) none none),
        some (BNode.mk 3 none none (some 0))] (BST.mk (some 0) 2) (some 0)
        = .error .nullDeref := rfl
    rw [he] at hh
    exact nomatch hh
  · intro fuel out hh
    have he : erase fuel [some (BNode.mk 5 none none none)] (BST.mk (some 0) 1) (some 0)
        = .error .nullDeref := rfl
    rw [he] at hh
    exact nomatch hh

/-- C13. Erasing the end iterator is a no-op: for every heap and tree object
(empty or not), `erase(end())` returns the end iterator and leaves the heap
(every node) and the tree object (root and `size()`) unchanged. -/
theorem erase_end (fuel : Nat) (h : Heap T) (b : BST) :
    erase fuel h b BST.end = .ok (h, b, BST.end) := rfl

/-- C14. Increment computes the in-order successor: for every tree with
consistent parent links and distinct nodes, and every node `N` followed by `M`
in the in-order sequence (so `N` is not the last node), `operator++` at `N`
(given fuel for the height of the tree) yields the iterator at `M`. Moreover `M`
is the leftmost node of the right subtree of `N` (the bottom of its left spine)
when `N` has a right child, and otherwise the nearest ancestor of which `N`
lies in the left subtree (the first left step of the path from `N` to the
root, above right steps only). -/
theorem increment_successor (fuel : Nat) (h : Heap T) (s : Shape T) (N M : Nat) (A B : List Nat)
    (hwf : WF h none s) (hnd : s.addrs.Nodup) (hs : s.addrs = A ++ N :: M :: B)
    (hfuel : s.height ≤ fuel) :
    increment fuel h (some N) = .ok (some M) ∧
    ((∃ (fs : List (Step T)) (l : Shape T) (x : T) (sp : List (Nat × T × Shape T)) (y : T)
        (srs : Shape T), s = plugUp fs (.node l N x (plugL sp (.node .nil M y srs)))) ∨
    (∃ (rs : List (Step T)) (px : T) (pr : Shape T) (rest : List (Step T)) (l : Shape T)
        (x : T), (∀ f ∈ rs, f.isRight = true) ∧
        s = plugUp (rs ++ Step.left M px pr :: rest) (.node l N x .nil))) :=
  ⟨increment_spec fuel h s N M A B hwf hnd hs hfuel, successor_shape s N M A B hnd hs⟩

/-- C14 at a concrete input: in the example tree the node holding 4 (address
4) is followed by the root. -/
theorem increment_successor_witness :
    WF exampleHeap none exampleShape ∧ exampleShape.addrs.Nodup ∧
    exampleShape.addrs = [3, 1] ++ 4 :: 0 :: [5, 2, 6] ∧
    increment 3 exampleHeap (some 4) = .ok (some 0) ∧
    ((∃ (fs : List (Step Nat)) (l : Shape Nat) (x : Nat) (sp : List (Nat × Nat × Shape Nat))
        (y : Nat) (srs : Shape Nat),
        exampleShape = plugUp fs (.node l 4 x (plugL sp (.node .nil 0 y srs)))) ∨
    (∃ (rs : List (Step Nat)) (px : Nat) (pr : Shape Nat) (rest : List (Step Nat))
        (l : Shape Nat) (x : Nat), (∀ f ∈ rs, f.isRight = true) ∧
        exampleShape = plugUp (rs ++ Step.left 0 px pr :: rest) (.node l 4 x .nil))) :=
  ⟨exampleHeap_WF, exampleShape_nodup, rfl,
    increment_successor 3 exampleHeap exampleShape 4 0 [3, 1] [5, 2, 6] exampleHeap_WF exampleShape_nodup rfl
      (by decide)⟩

/-- C15 (code defect). Incrementing at the last node does not reach the end
iterator when that node is the root with no right child: on the one-node tree
`operator++` reads `pCurrent->pParent->pLeft` through the null parent link and
faults, for every fuel. When the last node is reached by right links from the
root (node 9 of the example tree) the increment does yield the end iterator. -/
theorem increment_last_root_faults :
    WF [some (BNode.mk 5 none none none)] none (Shape.node .nil 0 5 .nil) ∧
    (∀ fuel, increment fuel [some (BNode.mk 5 none none none)] (some 0) = .error .nullDeref) ∧
    increment 3 exampleHeap (some 6) = .ok BST.end :=
  ⟨⟨rfl, trivial, trivial⟩, fun _ => rfl, rfl⟩

/-- C16. Increment and decrement are mutually inverse: for every tree with
consistent parent links and distinct nodes and every node `N` that has a
predecessor `P` and a successor `M` in the in-order sequence (so it is neither
the first nor the last node), decrementing then incrementing an iterator at `N`
gives the iterator at `N`, and so does incrementing then decrementing. -/
theorem increment_decrement_inverse (fuel : Nat) (h : Heap T) (s : Shape T) (P N M : Nat) (A B : List Nat)
    (hwf : WF h none s) (hnd : s.addrs.Nodup) (hs : s.addrs = A ++ P :: N :: M :: B)
    (hfuel : s.height ≤ fuel) :
    (decrement fuel h (some N) >>= fun it => increment fuel h it) = .ok (some N) ∧
    (increment fuel h (some N) >>= fun it => decrement fuel h it) = .ok (some N) := by
  have hs' : s.addrs = (A ++ [P]) ++ N :: M :: B := by rw [hs]; simp
  constructor
  · rw [decrement_spec fuel h s P N A (M :: B) hwf hnd hs hfuel]
    exact increment_spec fuel h s P N A (M :: B) hwf hnd hs hfuel
  · rw [increment_spec fuel h s N M (A ++ [P]) B hwf hnd hs' hfuel]
    exact decrement_spec fuel h s N M (A ++ [P]) B hwf hnd hs' hfuel

/-- C16 at a concrete input: the root of the example tree, between the nodes
holding 4 and 7. -/
theorem increment_decrement_inverse_witness :
    WF exampleHeap none exampleShape ∧ exampleShape.addrs.Nodup ∧
    exampleShape.addrs = [3, 1] ++ 4 :: 0 :: 5 :: [2, 6] ∧
    (decrement 3 exampleHeap (some 0) >>= fun it => increment 3 exampleHeap it)
      = .ok (some 0) ∧
    (increment 3 exampleHeap (some 0) >>= fun it => decrement 3 exampleHeap it)
      = .ok (some 0) :=
  ⟨exampleHeap_WF, exampleShape_nodup, rfl,
    increment_decrement_inverse 3 exampleHeap exampleShape 4 0 5 [3, 1] [2, 6] exampleHeap_WF exampleShape_nodup rfl
      (by decide)⟩

/-- C17. Copy-assignment reproduces the source: for a source tree `A` with
consistent parent links and a destination tree `B` of distinct nodes with
consistent parent links, in any prior state (empty, smaller, larger, of another
form), disjoint from `A`, and fuel above both heights, `B = A` returns; afterwards
`B` is a tree with the branching of `A` and the element of `A` at every position,
with consistent parent links and a null root parent, made of nodes that are no
nodes of `A`; its `size()` is that of `A`; every cell of `A` is unchanged. -/
theorem copyAssign_reproduces (fuel : Nat) (h : Heap T) (A B : BST) (sA sB : Shape T)
    (hA : A.root = sA.ptr) (hwA : WF h none sA)
    (hB : B.root = sB.ptr) (hwB : WF h none sB) (hnd : sB.addrs.Nodup)
    (hdisj : ∀ a ∈ sA.addrs, a ∉ sB.addrs)
    (hfa : sA.height < fuel) (hfb : sB.height < fuel) :
    ∃ (h' : Heap T) (B' : BST) (sB' : Shape T),
      copyAssign fuel h B A = .ok (h', B') ∧
      B'.root = sB'.ptr ∧ SameTree sA sB' ∧ WF h' none sB' ∧ sB'.addrs.Nodup ∧
      B'.size = A.size ∧
      (∀ a ∈ sB'.addrs, a ∉ sA.addrs) ∧
      WF h' none sA ∧ (∀ a ∈ sA.addrs, h'.cell a = h.cell a) := by
  have hread : Loc.root.read h B.root = .ok sB.ptr := by
    rw [hB]
    rfl
  obtain ⟨h', sB', e, hsame, hwf, hnd', hfresh, hframe⟩ :=
    copyBinaryTree_spec sA sB fuel h B.root .root none (WF_Rep _ _ hwA) hread hwB hnd hdisj
      (fun b hb => nomatch hb) hfa hfb
  have hliveA := WF_live _ _ hwA
  have hsame' : ∀ a ∈ sA.addrs, h'.cell a = h.cell a := by
    intro a ha
    obtain ⟨n, hn⟩ := hliveA a ha
    rw [hframe a n hn (hdisj a ha), hn]
    rfl
  refine ⟨h', BST.mk sB'.ptr A.numElements, sB', ?_, rfl, hsame, ?_, hnd', rfl, ?_, ?_, hsame'⟩
  · rw [← hA] at e
    simp only [copyAssign, e, Except.ok_bind]
    rfl
  · simpa using hwf
  · intro a ha hm
    rcases hfresh a ha with hb | hb
    · exact hdisj a hm hb
    · obtain ⟨n, hn⟩ := hliveA a hm
      rw [hb] at hn
      exact nomatch hn
  · apply WF_frame _ _ hwA
    intro a ha n hn
    rw [hsame' a ha, hn]

/-- C17 at a concrete input: a tree of three nodes 2 (1 (0, -), -) is assigned
the tree 5 (3, 8 (7, -)); one node is pruned, two are reused, two are new. -/
theorem copyAssign_reproduces_witness :
    (BST.mk (some 0) 4).root = copySource.ptr ∧ WF copyHeap none copySource ∧
    (BST.mk (some 4) 3).root = copyDest.ptr ∧ WF copyHeap none copyDest ∧
    copyDest.addrs.Nodup ∧ (∀ a ∈ copySource.addrs, a ∉ copyDest.addrs) ∧
    copySource.height < 4 ∧ copyDest.height < 4 ∧
    copyAssign 4 copyHeap (BST.mk (some 4) 3) (BST.mk (some 0) 4)
      = .ok ([some (BNode.mk 5 (some 1) (some 2) none), some (BNode.mk 3 none none (some 0)),
          some (BNode.mk 8 (some 3) none (some 0)), some (BNode.mk 7 none none (some 2)),
          some (BNode.mk 5 (some 5) (some 7) none), some (BNode.mk 3 none none (some 4)),
          none, some (BNode.mk 8 (some 8) none (some 4)),
          some (BNode.mk 7 none none (some 7))], BST.mk (some 4) 4) ∧
    (∃ (h' : Heap Nat) (B' : BST) (sB' : Shape Nat),
      copyAssign 4 copyHeap (BST.mk (some 4) 3) (BST.mk (some 0) 4) = .ok (h', B') ∧
      B'.root = sB'.ptr ∧ SameTree copySource sB' ∧ WF h' none sB' ∧ sB'.addrs.Nodup ∧
      B'.size = (BST.mk (some 0) 4).size ∧
      (∀ a ∈ sB'.addrs, a ∉ copySource.addrs) ∧
      WF h' none copySource ∧ (∀ a ∈ copySource.addrs, h'.cell a = copyHeap.cell a)) :=
  have hwA : WF copyHeap none copySource :=
    ⟨rfl, ⟨rfl, trivial, trivial⟩, ⟨rfl, ⟨rfl, trivial, trivial⟩, trivial⟩⟩
  have hwB : WF copyHeap none copyDest :=
    ⟨rfl, ⟨rfl, ⟨rfl, trivial, trivial⟩, trivial⟩, trivial⟩
  ⟨rfl, hwA, rfl, hwB, by decide, by decide, by decide, by decide, rfl,
    copyAssign_reproduces 4 copyHeap (BST.mk (some 0) 4) (BST.mk (some 4) 3) copySource copyDest
      rfl hwA rfl hwB (by decide) (by decide) (by decide) (by decide)⟩

/-- C18. Move empties the source: for every source tree object `A`, and every
destination `B` that is a tree of distinct nodes (its count being 0 when its
root is null; the count need not be the number of reachable nodes), the move
assignment `B = move(A)` (`clear(); swap(rhs)`) leaves `A` with a null root,
`size() == 0` and `empty()` true, and gives `B` the former root and size of
`A`; the nodes outside the old tree of `B` are untouched. The move constructor
does the same to `A` and to the new tree. -/
theorem move_empties_source (fuel : Nat) (h : Heap T) (A B : BST) (sB : Shape T)
    (hB : IsTree h B sB) (hnd : sB.addrs.Nodup) (hcount : B.root = none → B.numElements = 0)
    (hfuel : sB.height < fuel) :
    (∃ h', moveAssign fuel h B A = .ok (h', BST.mk A.root A.numElements, BST.mk none 0) ∧
      (∀ a, a ∉ sB.addrs → h'.cell a = h.cell a)) ∧
    moveConstruct A = (BST.mk A.root A.numElements, BST.mk none 0) ∧
    (BST.mk none 0).root = none ∧ (BST.mk none 0).size = 0 ∧ (BST.mk none 0).empty = true := by
  obtain ⟨h', e, c⟩ := clear_spec fuel h B sB hB hnd hcount hfuel
  refine ⟨⟨h', ?_, ?_⟩, rfl, rfl, rfl, rfl⟩
  · simp only [moveAssign, e, Except.ok_bind]
    rfl
  · intro a ha
    rw [c, if_neg ha]

/-- C18 at a concrete input: the destination is the tree left by `insert(5)`,
`insert(3)`, `insert(8)` (count 3, two reachable nodes), the source a one-node
tree at address 3. -/
theorem move_empties_source_witness :
    IsTree (miscountHeap ++ [some (BNode.mk 10 none none none)]) (BST.mk (some 0) 3)
      miscountShape ∧
    miscountShape.addrs.Nodup ∧
    ((BST.mk (some 0) 3).root = none → (BST.mk (some 0) 3).numElements = 0) ∧
    miscountShape.height < 3 ∧
    moveAssign 3 (miscountHeap ++ [some (BNode.mk 10 none none none)]) (BST.mk (some 0) 3)
        (BST.mk (some 3) 1)
      = .ok ([none, some (BNode.mk 3 none none (some 0)), none,
          some (BNode.mk 10 none none none)], BST.mk (some 3) 1, BST.mk none 0) ∧
    ((∃ h', moveAssign 3 (miscountHeap ++ [some (BNode.mk 10 none none none)])
          (BST.mk (some 0) 3) (BST.mk (some 3) 1)
        = .ok (h', BST.mk (some 3) 1, BST.mk none 0) ∧
      (∀ a, a ∉ miscountShape.addrs →
        h'.cell a = Heap.cell (miscountHeap ++ [some (BNode.mk 10 none none none)]) a)) ∧
    moveConstruct (BST.mk (some 3) 1) = (BST.mk (some 3) 1, BST.mk none 0) ∧
    (BST.mk none 0).root = none ∧ (BST.mk none 0).size = 0 ∧ (BST.mk none 0).empty = true) :=
  have ht : IsTree (miscountHeap ++ [some (BNode.mk 10 none none none)]) (BST.mk (some 0) 3)
      miscountShape :=
    ⟨rfl, ⟨_, rfl⟩, ⟨⟨_, rfl⟩, trivial, trivial⟩, trivial⟩
  ⟨ht, by decide, (fun e => nomatch e), by decide, rfl,
    move_empties_source 3 _ (BST.mk (some 3) 1) _ miscountShape ht (by decide)
      (fun e => nomatch e) (by decide)⟩

/-- C19. `clear` empties the tree and is idempotent: for every tree of distinct
nodes (its count being 0 when its root is null; the count need not be the
number of reachable nodes), given fuel beyond its height, `clear()` releases
every node, leaves a null root, `size() == 0` and `empty()` true, and touches no
other cell; `clear()` on the empty tree returns without fault and changes
nothing, so `clear(); clear()` has the same result as `clear()`. -/
theorem clear_empties (fuel : Nat) (h : Heap T) (b : BST) (s : Shape T)
    (htree : IsTree h b s) (hnd : s.addrs.Nodup) (hcount : b.root = none → b.numElements = 0)
    (hfuel : s.height < fuel) :
    (∃ h', clear fuel h b = .ok (h', BST.mk none 0) ∧
      (∀ a ∈ s.addrs, h'.cell a = none) ∧ (∀ a, a ∉ s.addrs → h'.cell a = h.cell a) ∧
      clear fuel h' (BST.mk none 0) = .ok (h', BST.mk none 0)) ∧
    (BST.mk none 0).size = 0 ∧ (BST.mk none 0).empty = true ∧
    (∀ (k : Nat) (h0 : Heap T), clear k h0 (BST.mk none 0) = .ok (h0, BST.mk none 0)) ∧
    (clear fuel h b >>= fun st => clear fuel st.1 st.2) = clear fuel h b := by
  obtain ⟨h', e, c⟩ := clear_spec fuel h b s htree hnd hcount hfuel
  refine ⟨⟨h', e, ?_, ?_, rfl⟩, rfl, rfl, fun _ _ => rfl, ?_⟩
  · intro a ha
    rw [c, if_pos ha]
  · intro a ha
    rw [c, if_neg ha]
  · rw [e]
    rfl

/-- C19 at a concrete input: clearing the tree left by `insert(5)`, `insert(3)`,
`insert(8)`, whose count is 3 with two reachable nodes. -/
theorem clear_empties_witness :
    IsTree miscountHeap (BST.mk (some 0) 3) miscountShape ∧ miscountShape.addrs.Nodup ∧
    ((BST.mk (some 0) 3).root = none → (BST.mk (some 0) 3).numElements = 0) ∧
    miscountShape.height < 3 ∧
    insertAll 2 false [5, 3, 8] (([] : Heap Nat), BST.mk none 0)
      = .ok (miscountHeap, BST.mk (some 0) 3) ∧
    clear 3 miscountHeap (BST.mk (some 0) 3)
      = .ok ([none, some (BNode.mk 3 none none (some 0)), none], BST.mk none 0) ∧
    ((∃ h', clear 3 miscountHeap (BST.mk (some 0) 3) = .ok (h', BST.mk none 0) ∧
      (∀ a ∈ miscountShape.addrs, h'.cell a = none) ∧
      (∀ a, a ∉ miscountShape.addrs → h'.cell a = miscountHeap.cell a) ∧
      clear 3 h' (BST.mk none 0) = .ok (h', BST.mk none 0)) ∧
    (BST.mk none 0).size = 0 ∧ (BST.mk none 0).empty = true ∧
    (∀ (k : Nat) (h0 : Heap Nat), clear k h0 (BST.mk none 0) = .ok (h0, BST.mk none 0)) ∧
    (clear 3 miscountHeap (BST.mk (some 0) 3) >>= fun st => clear 3 st.1 st.2)
      = clear 3 miscountHeap (BST.mk (some 0) 3)) :=
  have ht : IsTree miscountHeap (BST.mk (some 0) 3) miscountShape :=
    ⟨rfl, ⟨_, rfl⟩, ⟨⟨_, rfl⟩, trivial, trivial⟩, trivial⟩
  ⟨ht, by decide, (fun e => nomatch e), by decide, rfl, rfl,
    clear_empties 3 miscountHeap (BST.mk (some 0) 3) miscountShape ht (by decide)
      (fun e => nomatch e) (by decide)⟩

/-- C20. `begin()` designates the first element: for the empty tree `begin()`
is `end()`; for every non-empty tree (given fuel for its height) `begin()` is
the node at the bottom of the left spine from the root, the leftmost node,
which is the first node of the in-order sequence and holds a minimum element
when the order invariant holds. -/
theorem begin_first [LinearOrder T] (fuel : Nat) (h : Heap T) (b : BST) (s : Shape T)
    (htree : IsTree h b s) (hfuel : s.height ≤ fuel) :
    (s = .nil → begin fuel h b = .ok BST.end) ∧
    (s ≠ .nil → ∃ (fs : List (Nat × T × Shape T)) (a : Nat) (x : T) (srs : Shape T),
      s = plugL fs (.node .nil a x srs) ∧
      begin fuel h b = .ok (some a) ∧
      s.inorder.head? = some (a, x) ∧
      (Ordered s → ∀ e ∈ s.elems, x ≤ e)) := by
  obtain ⟨hroot, hrep⟩ := htree
  constructor
  · intro hs
    subst hs
    simp only [begin, hroot, Shape.ptr]
    rfl
  · intro hs
    obtain ⟨fs, a, x, srs, es⟩ := exists_spine s hs
    subst es
    obtain ⟨ra, hra⟩ := ptr_plugL_node fs a x srs
    have hfs : fs.length < fuel := by
      have := height_plugL_ge (.node .nil a x srs) fs
      simp only [Shape.height] at this
      omega
    have hlm := leftmost_spine a x srs fs fuel ra hrep hra hfs
    refine ⟨fs, a, x, srs, rfl, ?_, ?_, ?_⟩
    · simp only [begin, hroot, hra, hlm, Except.ok_bind]
      rfl
    · simp [inorder_plugL, Shape.inorder]
    · intro ho e he
      rw [elems_plugL] at he
      simp only [Shape.elems, List.nil_append, List.mem_append, List.mem_cons] at he
      rcases he with (he | he) | he
      · exact he ▸ le_refl _
      · exact (Ordered_plugL_bottom _ fs ho).2.1 e he
      · exact Ordered_spine_ge a x srs fs ho e he

/-- C20 at a concrete input: the example tree, whose first node is the node
holding 1 at address 3. -/
theorem begin_first_witness :
    IsTree exampleHeap (BST.mk (some 0) 7) exampleShape ∧
    begin 3 exampleHeap (BST.mk (some 0) 7) = .ok (some 3) ∧
    ((exampleShape = .nil → begin 3 exampleHeap (BST.mk (some 0) 7) = .ok BST.end) ∧
    (exampleShape ≠ .nil → ∃ (fs : List (Nat × Nat × Shape Nat)) (a : Nat) (x : Nat)
        (srs : Shape Nat),
      exampleShape = plugL fs (.node .nil a x srs) ∧
      begin 3 exampleHeap (BST.mk (some 0) 7) = .ok (some a) ∧
      exampleShape.inorder.head? = some (a, x) ∧
      (Ordered exampleShape → ∀ e ∈ exampleShape.elems, x ≤ e))) :=
  have ht : IsTree exampleHeap (BST.mk (some 0) 7) exampleShape :=
    ⟨rfl, WF_Rep _ _ exampleHeap_WF⟩
  ⟨ht, rfl, begin_first 3 exampleHeap (BST.mk (some 0) 7) exampleShape ht (by decide)⟩

/-- C21. `insert` preserves the parent-link invariant: on every tree of
distinct nodes in which the parent link of the root is null and the parent link
of every other node designates the node that holds it as a child, the count
being 0 when the root is null (what `assert(numElements == 0)` demands of the
empty tree), for every element and flag (and fuel for the height), `insert`
returns, and the tree it leaves below the root has distinct nodes and the same
parent-link invariant; the root is the same node as before when the tree was
not empty. -/
theorem insert_keeps_parent_links [DecidableEq T] [LT T]
    [DecidableRel (fun (a b : T) => a < b)] (fuel : Nat) (h : Heap T) (b : BST)
    (s : Shape T) (t : T) (keepUnique : Bool)
    (hroot : b.root = s.ptr) (hwf : WF h none s) (hnd : s.addrs.Nodup)
    (hcount : b.root = none → b.numElements = 0)
    (hfuel : s.height ≤ fuel) :
    ∃ (h' : Heap T) (b' : BST) (it : Option Nat) (ins : Bool) (s' : Shape T),
      insert fuel h b t keepUnique = .ok (h', b', it, ins) ∧
      b'.root = s'.ptr ∧ WF h' none s' ∧ s'.addrs.Nodup ∧ (s ≠ .nil → b'.root = b.root) := by
  cases s with
  | nil =>
    have hr : b.root = none := hroot
    have hc : b.numElements = 0 := hcount hr
    refine ⟨h ++ [some (BNode.mk t none none none)], BST.mk (some h.length) 1, some h.length,
      true, .node .nil h.length t .nil, ?_, rfl, ⟨?_, trivial, trivial⟩, by simp [Shape.addrs],
      fun hne => absurd rfl hne⟩
    · simp only [insert, hr, hc, if_true, Heap.alloc]
      rfl
    · rw [cell_alloc, if_pos rfl]
      rfl
  | node l a x r =>
    have hr : b.root = some a := hroot
    cases fuel with
    | zero => simp [Shape.height] at hfuel
    | succ k =>
      rcases insertLoop_WF t keepUnique (.node l a x r) (k + 1) h a none rfl hwf hnd
          hfuel with
        ⟨it, e, _⟩ | ⟨h1, it, s', e, hp', hwf', hnd', _, _⟩
      · refine ⟨h, b, some it, false, .node l a x r, ?_, hr, hwf, hnd, fun _ => rfl⟩
        simp only [insert, hr, e, Except.ok_bind]
        rfl
      · cases s' with
        | nil => exact nomatch hp'
        | node l' a' x' r' =>
          simp only [Shape.ptr, Option.some.injEq] at hp'
          subst hp'
          have hc' := hwf'.1
          refine ⟨h1, BST.mk (some a') ((b.numElements + 1) % sizeMod), it, true,
            .node l' a' x' r', ?_, rfl, hwf', hnd', fun _ => hr.symm⟩
          simp only [insert, hr, e, Except.ok_bind, rootUp, deref_of_cell hc']
          rfl

/-- C21 at a concrete input: `insert(6, false)` into the example tree. The
tree object with a null root and count 5, which the hypothesis on the count
excludes, makes the `assert` fail. -/
theorem insert_keeps_parent_links_witness :
    (BST.mk (some 0) 7).root = exampleShape.ptr ∧ WF exampleHeap none exampleShape ∧
    exampleShape.addrs.Nodup ∧
    ((BST.mk (some 0) 7).root = none → (BST.mk (some 0) 7).numElements = 0) ∧
    exampleShape.height ≤ 3 ∧
    insert 3 ([] : Heap Nat) (BST.mk none 5) 6 false = .error .assertFailed ∧
    ∃ (h' : Heap Nat) (b' : BST) (it : Option Nat) (ins : Bool) (s' : Shape Nat),
      insert 3 exampleHeap (BST.mk (some 0) 7) 6 false = .ok (h', b', it, ins) ∧
      b'.root = s'.ptr ∧ WF h' none s' ∧ s'.addrs.Nodup ∧
      (exampleShape ≠ .nil → b'.root = (BST.mk (some 0) 7).root) :=
  ⟨rfl, exampleHeap_WF, exampleShape_nodup, (fun e => nomatch e), by decide, rfl,
    insert_keeps_parent_links 3 exampleHeap (BST.mk (some 0) 7) exampleShape 6 false rfl
      exampleHeap_WF exampleShape_nodup (fun e => nomatch e) (by decide)⟩

/-- C22. Move-insert is copy-insert: for every heap, tree, element, flag and
fuel, `insert(T&& t, keepUnique)` and `insert(const T& t, keepUnique)` give the
same heap (every node with its element and links), the same tree object (root
and `size()`) and the same pair (iterator, inserted), and fault alike. -/
theorem insert_move_same [DecidableEq T] [LT T] [DecidableRel (fun (a b : T) => a < b)]
    (fuel : Nat) (h : Heap T) (b : BST) (t : T) (keepUnique : Bool) :
    insertMove fuel h b t keepUnique = insert fuel h b t keepUnique := by
  simp only [insertMove, insert, insertLoopMove_eq]

/-- C23 (code defect). `at` does not signal a miss: on the empty map, and on
the map that holds the one pair (1, 10), `at(7)` returns the reference to a new
object, whatever value `new V` leaves in it; the result is never the "key not
found" error, and the tree is as before. -/
theorem at_miss_returns :
    IsTree ([] : Heap (Nat × Nat)) (Map.mk (BST.mk none 0)).bst .nil ∧
    (∀ fresh : Nat,
      Map.at ([] : Heap (Nat × Nat)) ([] : List Nat) (Map.mk (BST.mk none 0)) 7 fresh
        = .ok ([fresh], 0) ∧
      Map.at ([] : Heap (Nat × Nat)) ([] : List Nat) (Map.mk (BST.mk none 0)) 7 fresh
        ≠ .error .keyNotFound) ∧
    IsTree [some (BNode.mk ((1 : Nat), (10 : Nat)) none none none)] (Map.mk (BST.mk (some 0) 1)).bst
      (.node .nil 0 (1, 10) .nil) ∧
    (7 : Nat) ∉ (Shape.node .nil 0 ((1 : Nat), (10 : Nat)) .nil).elems.map Prod.fst ∧
    (∀ fresh : Nat,
      Map.at [some (BNode.mk ((1 : Nat), (10 : Nat)) none none none)] ([] : List Nat)
          (Map.mk (BST.mk (some 0) 1)) 7 fresh
        = .ok ([fresh], 0) ∧
      Map.at [some (BNode.mk ((1 : Nat), (10 : Nat)) none none none)] ([] : List Nat)
          (Map.mk (BST.mk (some 0) 1)) 7 fresh
        ≠ .error .keyNotFound) :=
  ⟨⟨rfl, trivial⟩, (fun _ => ⟨rfl, fun e => nomatch e⟩),
    ⟨rfl, ⟨_, rfl⟩, trivial, trivial⟩, by decide, fun _ => ⟨rfl, fun e => nomatch e⟩⟩

/-- C24 (code defect). `addRight(const T&)` attaches on the left and
`addLeft(T&&)` attaches on the right: on the node 3 without children,
`addRight(const T& 5)` makes the new node the left child and leaves the right
link null, and `addLeft(T&& 1)` makes the new node the right child; on the node
5 with left child 3, `addRight(const T& 8)` overwrites the left link. The
overloads `addLeft(const T&)` and `addRight(T&&)` attach on the side they are
named for. -/
theorem addRight_const_attaches_left :
    BNode.addRightConst [some (BNode.mk 3 none none none)] 0 5
      = .ok [some (BNode.mk 3 (some 1) none none), some (BNode.mk 5 none none (some 0))] ∧
    BNode.addLeftMove [some (BNode.mk 3 none none none)] 0 1
      = .ok [some (BNode.mk 3 none (some 1) none), some (BNode.mk 1 none none (some 0))] ∧
    BNode.addRightConst [some (BNode.mk 5 (some 1) none none), some (BNode.mk 3 none none (some 0))]
        0 8
      = .ok [some (BNode.mk 5 (some 2) none none), some (BNode.mk 3 none none (some 0)),
          some (BNode.mk 8 none none (some 0))] ∧
    BNode.addLeftConst [some (BNode.mk 3 none none none)] 0 1
      = .ok [some (BNode.mk 3 (some 1) none none), some (BNode.mk 1 none none (some 0))] ∧
    BNode.addRightMove [some (BNode.mk 3 none none none)] 0 5
      = .ok [some (BNode.mk 3 none (some 1) none), some (BNode.mk 5 none none (some 0))] :=
  ⟨rfl, rfl, rfl, rfl, rfl⟩

/-- C25 (code defect). An element just inserted is not found: from the empty
tree, `insert(3)` then `insert(5)` (either flag) give the tree 3 with the node
holding 5 on its left link, `insert(5)` returning `inserted = true`; `find(5)`
goes right at 3 and returns `end()`, whatever the fuel. -/
theorem find_after_insert_misses :
    insertAll 2 false [3] (([] : Heap Nat), BST.mk none 0)
      = .ok ([some (BNode.mk 3 none none none)], BST.mk (some 0) 1) ∧
    (∀ keepUnique, insert 2 [some (BNode.mk 3 none none none)] (BST.mk (some 0) 1) 5 keepUnique
      = .ok ([some (BNode.mk 3 (some 1) none none), some (BNode.mk 5 none none (some 0))],
          BST.mk (some 0) 2, BST.end, true)) ∧
    ∀ k, find (k + 2) [some (BNode.mk 3 (some 1) none none), some (BNode.mk 5 none none (some 0))]
      (BST.mk (some 0) 2) 5 = .ok BST.end :=
  ⟨rfl, fun keepUnique => by cases keepUnique <;> rfl, fun _ => rfl⟩

/-- C26. Null-safety of `erase`: on every tree of distinct nodes with
consistent parent links, for every node `d` of the tree that is not the root
or that has a right child (and fuel for the height), `erase` returns: neither
`++itNext`, nor `deleteNode`, nor the successor splice, nor the final `delete`
follows a null or released pointer. -/
theorem erase_null_safe (fuel : Nat) (h : Heap T) (b : BST) (s : Shape T) (d : Nat)
    (hroot : b.root = s.ptr) (hwf : WF h none s) (hnd : s.addrs.Nodup) (hd : d ∈ s.addrs)
    (hfuel : s.height ≤ fuel)
    (hcase : b.root ≠ some d ∨ ∃ n, h.cell d = some n ∧ n.pRight ≠ none) :
    ∃ res, erase fuel h b (some d) = .ok res := by
  obtain ⟨ps, l, x, r, es⟩ := exists_path_of_mem s d hd
  subst es
  have hloc := WF_plugUp_hole none ps _ hwf
  have hcur : h.cell d = some (BNode.mk x l.ptr r.ptr (upParent none ps)) := hloc.1
  have hliveL := WF_live _ _ hloc.2.1
  have hliveR := WF_live _ _ hloc.2.2
  have hdmem : d ∈ (Shape.node l d x r).addrs := by simp [Shape.addrs]
  -- the node has a right child, or a parent
  have hcase' : r ≠ .nil ∨ ps ≠ [] := by
    rcases hcase with hc | ⟨n, hn, hnr⟩
    · right
      intro e
      subst e
      exact hc hroot
    · left
      intro e
      subst e
      rw [hcur] at hn
      simp only [Option.some.injEq] at hn
      subst hn
      exact hnr rfl
  have hpar : some d ≠ b.root → ∃ q m, upParent none ps = some q ∧ h.cell q = some m := by
    intro hne
    cases ps with
    | nil => exact absurd hroot.symm hne
    | cons f fs =>
      obtain ⟨_, m, hm⟩ := upParent_live (f :: fs) _ hwf hnd f.addr rfl
      exact ⟨f.addr, m, rfl, hm⟩
  have hisroot : some d = b.root → ps = [] := by
    intro e
    by_contra hne
    exact ptr_plugUp_ne ps _ hne hnd d hdmem (hroot.symm.trans e.symm)
  cases l with
  | nil =>
    obtain ⟨itNext, einc⟩ := increment_ok fuel h ps .nil d x r hwf hnd hfuel hcase'
    obtain ⟨res, edel, hlive⟩ := deleteNode_ok b.root d true _ hcur hpar
      (fun a ha => hliveR a (ptr_mem_addrs ha))
      (fun e => by
        rcases hcase' with hc | hc
        · cases r with
          | nil => exact absurd rfl hc
          | node rl ra rx rr => exact ⟨ra, rfl⟩
        · exact absurd (hisroot e) hc)
    obtain ⟨h1, efree⟩ := free_ok (live_iff hlive d ⟨_, hcur⟩)
    have hcur' : h.cell d = some (BNode.mk x none r.ptr (upParent none ps)) := hcur
    refine ⟨(h1, BST.mk res.2 ((b.numElements + sizeMod - 1) % sizeMod), itNext), ?_⟩
    simp only [erase, deref_of_cell hcur', Except.ok_bind, if_true, einc, edel,
      Except.pure_eq, efree]
  | node ll la lx lr =>
    have hcur' : h.cell d = some (BNode.mk x (some la) r.ptr (upParent none ps)) := hcur
    cases r with
    | nil =>
      have hps : ps ≠ [] := by
        rcases hcase' with hc | hc
        · exact absurd rfl hc
        · exact hc
      obtain ⟨itNext, einc⟩ := increment_ok fuel h ps _ d x .nil hwf hnd hfuel (Or.inr hps)
      obtain ⟨res, edel, hlive⟩ := deleteNode_ok b.root d false _ hcur hpar
        (fun a ha => hliveL a (ptr_mem_addrs ha))
        (fun _ => ⟨la, rfl⟩)
      obtain ⟨h1, efree⟩ := free_ok (live_iff hlive d ⟨_, hcur⟩)
      have hcur2 : h.cell d = some (BNode.mk x (some la) none (upParent none ps)) := hcur
      refine ⟨(h1, BST.mk res.2 ((b.numElements + sizeMod - 1) % sizeMod), itNext), ?_⟩
      simp only [erase, deref_of_cell hcur2, Except.ok_bind, reduceCtorEq, if_false, if_true,
        einc, edel, Except.pure_eq, efree]
    | node rl ra rx rr =>
      obtain ⟨res, esp, hcd⟩ := eraseSplice_ok fuel h b.root ps ll la lx lr d x
        (.node rl ra rx rr) (by simp) hwf hnd hfuel
      obtain ⟨h1, efree⟩ := free_ok (h := res.1) (a := d) ⟨_, hcd.trans hcur⟩
      have hcur2 : h.cell d = some (BNode.mk x (some la) (some ra) (upParent none ps)) := hcur
      refine ⟨(h1, BST.mk res.2.1 ((b.numElements + sizeMod - 1) % sizeMod), some res.2.2), ?_⟩
      simp only [erase, deref_of_cell hcur2, Except.ok_bind, reduceCtorEq, if_false, esp,
        Except.pure_eq, efree]

/-- C26 at a concrete input: erasing the node holding 3 (address 1, not the
root, two children) from the example tree. -/
theorem erase_null_safe_witness :
    (BST.mk (some 0) 7).root = exampleShape.ptr ∧ WF exampleHeap none exampleShape ∧
    exampleShape.addrs.Nodup ∧ 1 ∈ exampleShape.addrs ∧ exampleShape.height ≤ 3 ∧
    (BST.mk (some 0) 7).root ≠ some 1 ∧
    ∃ res, erase 3 exampleHeap (BST.mk (some 0) 7) (some 1) = .ok res :=
  ⟨rfl, exampleHeap_WF, exampleShape_nodup, by decide, by decide, by decide,
    erase_null_safe 3 exampleHeap (BST.mk (some 0) 7) exampleShape 1 rfl exampleHeap_WF
      exampleShape_nodup (by decide) (by decide) (Or.inl (by decide))⟩

end LabMap
